import Mathlib

/-!
# Connect-4 with an alpha-beta computer player: a shallow embedding of `main.c`

The C program is embedded function by function.  C `int` values are `Int`; the
board dimensions, which the program only ever creates non-negative, are `Nat`;
the heap array `board` is a `List Int`.  Functions that return a C truth value
return `Int` (0 or 1) exactly as the source does.  Memory allocation is taken to
succeed, and the `printf` trace of the search is not part of the model.
-/

namespace Connect4

/-! ## Constants -/

/-- The `OFF_BOARD` constant: the value `at` reports outside the grid. -/
def OFF_BOARD : Int := -2

/-- The `EMPTY` constant: an unoccupied cell. -/
def EMPTY : Int := -1

/-- The `TABLE_SIZE` constant: number of bins of the transposition table. -/
def TABLE_SIZE : Nat := 32000

/-- The `TABLE_BIN_SIZE` constant: number of slots of one bin. -/
def TABLE_BIN_SIZE : Nat := 10

/-- The `INT_MIN` constant of `limits.h` for a 32-bit `int`. -/
def INT_MIN : Int := -2147483648

/-- The `INT_MAX` constant of `limits.h` for a 32-bit `int`. -/
def INT_MAX : Int := 2147483647

/-! ## Game state -/

/-- The `GameState` struct. -/
structure GameState where
  width : Nat
  height : Nat
  board : List Int
  last_move : Int
  weight : Int
  refs : Int
deriving DecidableEq, Repr

/-- The data-model invariant of a board: the cell array holds `width * height` cells. -/
def GameState.WF (gs : GameState) : Prop :=
  gs.board.length = gs.width * gs.height

instance (gs : GameState) : Decidable gs.WF := by
  unfold GameState.WF; infer_instance

/-- The function `newGameState`: an all-`EMPTY` board (allocation succeeds). -/
def newGameState (width height : Nat) : GameState :=
  { width := width, height := height, board := List.replicate (width * height) EMPTY,
    last_move := 0, weight := 0, refs := 1 }

/-- The function `retainGameState`: one more reference. -/
def retainGameState (gs : GameState) : GameState :=
  { gs with refs := gs.refs + 1 }

/-- The function `at`: the cell at column `x`, row `y`, or `OFF_BOARD` outside the grid.
The cell is read at index `x * height + y`; under the invariant `WF` that index is inside
the list, and the value 0 given for an index outside it is never reached. -/
def at_ (gs : GameState) (x y : Int) : Int :=
  if x < 0 ∨ y < 0 then OFF_BOARD
  else if x ≥ gs.width ∨ y ≥ gs.height then OFF_BOARD
  else gs.board.getD (x * gs.height + y).toNat 0

/-- The loop of `drop`, rows `i, i+1, ...` for `fuel` more iterations: the first row of
`column` that is `EMPTY` receives `player` and `last_move` becomes `column`. -/
def dropFrom (gs : GameState) (column player : Int) : Nat → Nat → GameState
  | 0, _ => gs
  | fuel + 1, i =>
    if at_ gs column i = EMPTY then
      { gs with board := gs.board.set (column * gs.height + i).toNat player,
                last_move := column }
    else dropFrom gs column player fuel (i + 1)

/-- The function `drop`: rows are tried from 0 to `height - 1`; a column without an `EMPTY`
row leaves the state as it is. -/
def drop (gs : GameState) (column player : Int) : GameState :=
  dropFrom gs column player gs.height 0

/-- One direction test of `checkAt`: the four cells from `(x, y)` in steps of `(dx, dy)` all
equal `curr`. -/
def lineOf (gs : GameState) (x y dx dy curr : Int) : Bool :=
  (List.range 4).all (fun (i : Nat) => at_ gs (x + i * dx) (y + i * dy) == curr)

/-- The function `checkAt`: across, down, the diagonal towards larger `x` and the diagonal
towards smaller `x` are tried in that order; a direction counts when its four cells equal
the cell at `(x, y)` and that cell is neither `EMPTY` nor `OFF_BOARD`. -/
def checkAt (gs : GameState) (x y : Int) : Int :=
  let curr := at_ gs x y
  let valid : Bool := curr != EMPTY && curr != OFF_BOARD
  if lineOf gs x y 1 0 curr && valid then curr
  else if lineOf gs x y 0 1 curr && valid then curr
  else if lineOf gs x y 1 1 curr && valid then curr
  else if lineOf gs x y (-1) 1 curr && valid then curr
  else 0

/-- The positions visited by the nested loops `for x < width, for y < height`, in order. -/
def positions (gs : GameState) : List (Int × Int) :=
  (List.range gs.width).flatMap
    (fun (x : Nat) => (List.range gs.height).map (fun (y : Nat) => ((x : Int), (y : Int))))

/-- The function `getWinner`.  Its return type is `bool` and each `checkAt` result is cast
to `bool`, so the value handed to callers is 1 at the first position where `checkAt` is
non-zero and 0 when there is none. -/
def getWinner (gs : GameState) : Int :=
  match (positions gs).find? (fun p => checkAt gs p.1 p.2 != 0) with
  | some _ => 1
  | none => 0

/-- The function `isDraw`: 0 at the first `EMPTY` cell, 1 when there is none. -/
def isDraw (gs : GameState) : Int :=
  match (positions gs).find? (fun p => at_ gs p.1 p.2 == EMPTY) with
  | some _ => 0
  | none => 1

/-- The function `getHeuristic`: the number of positions whose `checkAt` equals `player`
minus the number whose `checkAt` equals `other_player` (counted only when it is not
`player`). -/
def getHeuristic (gs : GameState) (player other_player : Int) : Int :=
  let counts := (positions gs).foldl
    (fun (acc : Int × Int) p =>
      let winner := checkAt gs p.1 p.2
      if winner = player then (acc.1 + 1, acc.2)
      else if winner = other_player then (acc.1, acc.2 + 1)
      else acc)
    (0, 0)
  counts.1 - counts.2

/-- The `memcpy` of `stateForMove`: the first `n` cells of `dst` are overwritten by the
first `n` cells of `src`. -/
def memcpyCells (dst src : List Int) (n : Nat) : List Int :=
  src.take n ++ dst.drop n

/-- The function `stateForMove`: a fresh state of the same dimensions receives a copy of
the cells, then `drop` is applied to the copy.  The `NULL` returns of the source (no
parent, failed allocation) have no counterpart: a parent is a value and allocation
succeeds. -/
def stateForMove (orig : GameState) (column player : Int) : GameState :=
  let toR := newGameState orig.width orig.height
  let toR := { toR with board := memcpyCells toR.board orig.board (orig.width * orig.height) }
  drop toR column player

/-- The function `canMove`: 1 when some row of `column` is `EMPTY`, else 0. -/
def canMove (gs : GameState) (column : Int) : Int :=
  if (List.range gs.height).any (fun (y : Nat) => at_ gs column y == EMPTY) then 1 else 0

/-! ## Transposition table -/

/-- The function `hashGameState`: FNV-1a over the `width * height` cells in 64-bit
unsigned arithmetic; a cell is converted to `unsigned long long` before the XOR. -/
def hashGameState (gs : GameState) : Nat :=
  (List.range (gs.width * gs.height)).foldl
    (fun hash i =>
      ((hash ^^^ (gs.board.getD i 0 % (2 ^ 64 : Int)).toNat) * 1099511628211) % 2 ^ 64)
    14695981039346656037

/-- The function `isGameStateEqual`: same width, same height and the same cell at every
index below `width * height`. -/
def isGameStateEqual (gs1 gs2 : GameState) : Int :=
  if gs1.width ≠ gs2.width ∨ gs1.height ≠ gs2.height then 0
  else if (List.range (gs1.width * gs1.height)).all
      (fun i => gs1.board.getD i 0 == gs2.board.getD i 0) then 1
  else 0

/-- The `TranspositionTable` struct: `bins[hv]` is an array of `TABLE_BIN_SIZE` slots,
each `NULL` (`none`) or a stored state.  Bins are addressed by `hv < TABLE_SIZE`. -/
structure TranspositionTable where
  bins : Nat → List (Option GameState)

/-- The function `newTable`: every slot of every bin is `NULL`. -/
def newTable : TranspositionTable :=
  { bins := fun _ => List.replicate TABLE_BIN_SIZE none }

/-- The scan of `lookupInTable` over one bin: stop with `NULL` at the first empty slot,
return the first entry that `isGameStateEqual` accepts. -/
def lookupInBin (k : GameState) : List (Option GameState) → Option GameState
  | [] => none
  | none :: _ => none
  | some e :: rest => if isGameStateEqual k e ≠ 0 then some e else lookupInBin k rest

/-- The function `lookupInTable`. -/
def lookupInTable (t : TranspositionTable) (k : GameState) : Option GameState :=
  lookupInBin k (t.bins (hashGameState k % TABLE_SIZE))

/-- The scan of `addToTable` over one bin: the first empty slot receives the retained
state; `none` when every slot is occupied. -/
def addToBin (k : GameState) : List (Option GameState) → Option (List (Option GameState))
  | [] => none
  | none :: rest => some (some (retainGameState k) :: rest)
  | some e :: rest => (addToBin k rest).map (fun r => some e :: r)

/-- The function `addToTable`: on overflow of the bin the table is left as it is (the
message on `stderr` is not modelled). -/
def addToTable (t : TranspositionTable) (k : GameState) : TranspositionTable :=
  let hv := hashGameState k % TABLE_SIZE
  match addToBin k (t.bins hv) with
  | some bin => { bins := Function.update t.bins hv bin }
  | none => t

/-! ## Search -/

/-- The `GameTreeNode` struct; the table pointer `ht` is threaded through the search as a
separate value. -/
structure GameTreeNode where
  gs : GameState
  player : Int
  other_player : Int
  turn : Int
  alpha : Int
  beta : Int
  best_move : Int
deriving DecidableEq, Repr

/-- The function `newGameTreeNode`: `best_move` starts at -1. -/
def newGameTreeNode (gs : GameState) (player other turn alpha beta : Int) : GameTreeNode :=
  { gs := gs, player := player, other_player := other, turn := turn, alpha := alpha,
    beta := beta, best_move := -1 }

/-- The function `heuristicForState`.  `term_stat` holds the `bool` result of `getWinner`
converted back to `int`. -/
def heuristicForState (gs : GameState) (player other : Int) : Int :=
  if isDraw gs ≠ 0 then 0
  else
    let term_stat := getWinner gs
    if term_stat = player then 1000
    else if term_stat ≠ 0 then -1000
    else getHeuristic gs player other

/-- The comparator `ascComp`, with the node's ids passed explicitly instead of `g_node`. -/
def ascComp (player other : Int) (a b : GameState) : Int :=
  heuristicForState a player other - heuristicForState b player other

/-- The comparator `desComp`. -/
def desComp (player other : Int) (a b : GameState) : Int :=
  heuristicForState b player other - heuristicForState a player other

/-- Insertion of one element in front of the first element it does not compare greater
than. -/
def qsortInsert (cmp : GameState → GameState → Int) (a : GameState) :
    List GameState → List GameState
  | [] => [a]
  | b :: l => if cmp a b ≤ 0 then a :: b :: l else b :: qsortInsert cmp a l

/-- The library call `qsort`, modelled as an insertion sort that keeps elements comparing
equal in their original order (the C standard leaves that order open). -/
def qsort (cmp : GameState → GameState → Int) : List GameState → List GameState
  | [] => []
  | a :: l => qsortInsert cmp a (qsort cmp l)

/-- The C negation `!x` on an `int`. -/
def lnot (x : Int) : Int := if x = 0 then 1 else 0

/-- The first loop of `getWeight`: one state per column that `canMove` accepts, made by
`stateForMove` for the side on turn. -/
def possibleMovesOf (node : GameTreeNode) : List GameState :=
  ((List.range node.gs.width).filter (fun (c : Nat) => canMove node.gs c != 0)).map
    (fun (c : Nat) => stateForMove node.gs c (if node.turn ≠ 0 then node.player else node.other_player))

/-- What one call of `getWeight` leaves behind: the returned weight `toR`, the node with
its updated `alpha`, `beta` and `best_move`, and the table. -/
structure SearchResult where
  toR : Int
  node : GameTreeNode
  ht : TranspositionTable

/-- The first half of the body of the second loop of `getWeight`: the weight of one move,
taken from the table entry when `lookupInTable` finds one (only with `reuse`), otherwise
computed by `recurse`, which is `getWeight` at `movesLeft - 1` on a fresh child node. -/
def childWeight (reuse : Bool) (recurse : GameTreeNode → TranspositionTable → SearchResult)
    (node : GameTreeNode) (ht : TranspositionTable) (m : GameState) :
    Int × TranspositionTable :=
  match (if reuse then lookupInTable ht m else none) with
  | some inTable => (inTable.weight, ht)
  | none =>
    let r := recurse (newGameTreeNode m node.player node.other_player (lnot node.turn)
      node.alpha node.beta) ht
    (r.toR, r.ht)

/-- The second half of the loop body: the pruning test, the update of the window and the
update of `best_weight` and `best_move`.  `none` stands for `goto done`; otherwise the
updated node and `best_weight` are returned. -/
def updateNode (node : GameTreeNode) (best_weight child_weight child_last_move : Int) :
    Option (GameTreeNode × Int) :=
  if node.turn = 0 then
    if child_weight ≤ node.alpha then none
    else
      let node := { node with beta := if node.beta < child_weight then node.beta else child_weight }
      if best_weight > child_weight then
        some ({ node with best_move := child_last_move }, child_weight)
      else some (node, best_weight)
  else
    if child_weight ≥ node.beta then none
    else
      let node := { node with alpha := if node.alpha > child_weight then node.alpha else child_weight }
      if best_weight < child_weight then
        some ({ node with best_move := child_last_move }, child_weight)
      else some (node, best_weight)

/-- The second loop of `getWeight` over the ordered moves, from the current move on.  With
`reuse = true` this is the source; with `reuse = false` the table is never consulted and
every child is recursed into.  Every move is stored in the table with its weight. -/
def exploreMoves (reuse : Bool) (recurse : GameTreeNode → TranspositionTable → SearchResult) :
    List GameState → GameTreeNode → TranspositionTable → Int → SearchResult
  | [], node, ht, best_weight => { toR := best_weight, node := node, ht := ht }
  | m :: rest, node, ht, best_weight =>
    let c := childWeight reuse recurse node ht m
    let ht := addToTable c.2 { m with weight := c.1 }
    match updateNode node best_weight c.1 m.last_move with
    | none => { toR := c.1, node := node, ht := ht }
    | some next => exploreMoves reuse recurse rest next.1 ht next.2

/-- The terminal test of `getWeight` apart from `movesLeft == 0`. -/
def gameOver (gs : GameState) : Bool :=
  getWinner gs != 0 || isDraw gs != 0

/-- The function `getWeight`, by recursion on `movesLeft` (a lookahead is never negative).
The source is `getWeight true`; the line printed at `movesLeft == LOOK_AHEAD` and the
release of the moves at `done` are not modelled. -/
def getWeight (reuse : Bool) : Nat → GameTreeNode → TranspositionTable → SearchResult
  | 0 => fun node ht =>
    { toR := heuristicForState node.gs node.player node.other_player, node := node, ht := ht }
  | movesLeft + 1 => fun node ht =>
    if gameOver node.gs then
      { toR := heuristicForState node.gs node.player node.other_player, node := node, ht := ht }
    else
      let possibleMoves := possibleMovesOf node
      let possibleMoves :=
        if node.turn ≠ 0 then qsort (ascComp node.player node.other_player) possibleMoves
        else qsort (desComp node.player node.other_player) possibleMoves
      exploreMoves reuse (getWeight reuse movesLeft) possibleMoves node ht
        (if node.turn ≠ 0 then INT_MIN else INT_MAX)

/-- The function `getBestMove`. -/
def getBestMove (node : GameTreeNode) (ht : TranspositionTable) (movesLeft : Nat) : Int :=
  (getWeight true movesLeft node ht).node.best_move

/-- The function `bestMoveForState`: a fresh table, a maximizing root with the full
window. -/
def bestMoveForState (gs : GameState) (player other_player : Int) (look_ahead : Nat) : Int :=
  getBestMove (newGameTreeNode gs player other_player 1 INT_MIN INT_MAX) newTable look_ahead

/-! ## Notions used in the statements and proofs -/

/-- The cell values of the data model: every stored cell is `EMPTY`, 1 or 2. -/
def CellsOK (gs : GameState) : Prop :=
  ∀ c ∈ gs.board, c = EMPTY ∨ c = 1 ∨ c = 2

/-- The four directions `checkAt` tries, as steps `(dx, dy)`. -/
def directions : List (Int × Int) := [(1, 0), (0, 1), (1, 1), (-1, 1)]

/-- Whether a board has only data-model cell values can be computed. -/
instance (gs : GameState) : Decidable (CellsOK gs) := by
  unfold CellsOK; infer_instance

/-- The winner as the specification words it: the `checkAt` result at the first position,
scanning `x` from 0 to `width - 1` and within each `x` scanning `y` from 0 to `height - 1`,
where `checkAt` is non-zero; 0 when there is no such position. -/
def findWinner (gs : GameState) : Int :=
  match (positions gs).find? (fun p => checkAt gs p.1 p.2 != 0) with
  | some p => checkAt gs p.1 p.2
  | none => 0

/-- A board given column by column, each column listed from row 0 upwards and filled up
with `EMPTY`; the other fields are those of a freshly created state. -/
def boardOfColumns (height : Nat) (cols : List (List Int)) : GameState :=
  { width := cols.length, height := height,
    board := cols.flatMap (fun col => col ++ List.replicate (height - col.length) EMPTY),
    last_move := 0, weight := 0, refs := 1 }

/-- A 7x6 position after eight moves in which player 2 has completed row 0 of columns 0
to 3; player 1 holds three cells of column 4 and one of column 5. -/
def computerWins : GameState :=
  boardOfColumns 6 [[2], [2], [2], [2], [1, 1, 1], [1], []]

/-- A full 4x1 board on which player 1 owns the only line. -/
def fullRowOfOne : GameState := boardOfColumns 1 [[1], [1], [1], [1]]

/-- A full 4x1 board on which player 2 owns the only line. -/
def fullRowOfTwo : GameState := boardOfColumns 1 [[2], [2], [2], [2]]

/-- A full 2x2 board without any line of four. -/
def fullSmall : GameState := boardOfColumns 2 [[1, 2], [2, 1]]

/-- A 7x6 position in which player 1 has completed row 0 of columns 0 to 3 and player 2
holds three cells of column 4. -/
def humanWins : GameState :=
  boardOfColumns 6 [[1], [1], [1], [1], [2, 2, 2], [], []]

/-- Every state stored in some slot of the table satisfies `P`. -/
def TableAll (P : GameState → Prop) (ht : TranspositionTable) : Prop :=
  ∀ (hv : Nat) (e : GameState), some e ∈ ht.bins hv → P e

/-- A weight between `lo` and `hi`. -/
def WeightIn (lo hi : Int) (e : GameState) : Prop := lo ≤ e.weight ∧ e.weight ≤ hi

/-- Plain depth-limited minimax, as the equivalence property words it: the terminal test
and the leaf score of `getWeight`, one child per column with room in column order, the
maximum of the child values at a maximizing node (`turn` non-zero) and the minimum at a
minimizing node; no window, no pruning, no table. -/
def minimax : Nat → GameState → Int → Int → Int → Int
  | 0 => fun gs player other _ => heuristicForState gs player other
  | depth + 1 => fun gs player other turn =>
    if gameOver gs then heuristicForState gs player other
    else
      match (possibleMovesOf (newGameTreeNode gs player other turn INT_MIN INT_MAX)).map
          (fun m => minimax depth m player other (lnot turn)) with
      | [] => heuristicForState gs player other
      | v :: vs => if turn ≠ 0 then vs.foldl max v else vs.foldl min v

/-- The blocking scenario: player 1 holds row 0 of columns 0, 1 and 2 of a 7x6 board. -/
def threeInRow : GameState := boardOfColumns 6 [[1], [1], [1], [], [], [], []]

/-- A scan that is enough to exclude a line: every position is `EMPTY` or has `checkAt` 0. -/
def noLineScan (gs : GameState) : Bool :=
  (positions gs).all (fun p => at_ gs p.1 p.2 == EMPTY || checkAt gs p.1 p.2 == 0)

/-- Board equality as `isGameStateEqual` tests it: same width, same height, and the same
cell at every index below `width * height`. -/
def BoardEq (a b : GameState) : Prop :=
  a.width = b.width ∧ a.height = b.height ∧
    ∀ i : Nat, i < a.width * a.height → a.board.getD i 0 = b.board.getD i 0

/-- A state that is board-equal to one of the listed states. -/
def Special (ms : List GameState) (e : GameState) : Prop := ∃ m ∈ ms, BoardEq m e

/-- The weight of a table entry is `lo` when the entry is board-equal to one of the listed
states, and its static score otherwise. -/
def EntryOK (ms : List GameState) (player other lo : Int) (e : GameState) : Prop :=
  (Special ms e → e.weight = lo) ∧
    (¬ Special ms e → e.weight = heuristicForState e player other)

/-- The root move of player 2 into column `k` of the blocking scenario. -/
def blockMove (k : Nat) : GameState := stateForMove threeInRow (k : Int) 2

/-- The caches built from the empty cache by calls of `addToTable`. -/
inductive Reachable : TranspositionTable → Prop
  | empty : Reachable newTable
  | add (t : TranspositionTable) (k : GameState) : Reachable t → Reachable (addToTable t k)

/-- The caches built from the empty cache by calls of `addToTable` for states that
`lookupInTable` does not find at the time of the call. -/
inductive ReachableByMisses : TranspositionTable → Prop
  | empty : ReachableByMisses newTable
  | add (t : TranspositionTable) (k : GameState) :
      ReachableByMisses t → lookupInTable t k = none → ReachableByMisses (addToTable t k)

/-- The occupied slots of a bin form a prefix: a slot before an occupied slot is
occupied. -/
def OccupiedPrefix (bin : List (Option GameState)) : Prop :=
  ∀ (i j : Nat) (e : GameState), i < j → bin.get? j = some (some e) →
    ∃ e0 : GameState, bin.get? i = some (some e0)

/-- The entries of a bin: the states in its occupied slots, in slot order. -/
def entriesOf (bin : List (Option GameState)) : List GameState := bin.filterMap id

/-- No two entries of the bin, taken from different slots, are board-equal. -/
def NoEqualPair (bin : List (Option GameState)) : Prop :=
  (entriesOf bin).Pairwise (fun a b => ¬ BoardEq a b)

/-- The state `k` as the call `addToTable(t, k)` leaves it: `retainGameState` is applied
to it only when a free slot was found. -/
def addToTableKey (t : TranspositionTable) (k : GameState) : GameState :=
  match addToBin k (t.bins (hashGameState k % TABLE_SIZE)) with
  | some _ => retainGameState k
  | none => k

/-- Board equality can be computed. -/
instance (a b : GameState) : Decidable (BoardEq a b) := by
  unfold BoardEq; infer_instance

/-- The cache after ten insertions of the full 2x2 board: one bin has no free slot. -/
def fullBinTable : TranspositionTable :=
  (List.replicate 10 fullSmall).foldl addToTable newTable

/-- The loop of `getIncrementForArray` over the remaining cells of the window, with the
value of `toR` so far: a cell of `player` sets `toR` to 1, any other cell that is not
`EMPTY` ends the loop with 0. -/
def getIncrementFrom (player : Int) : List Int → Int → Int
  | [], toR => toR
  | a :: rest, toR =>
    if a = player then getIncrementFrom player rest 1
    else if a ≠ EMPTY then 0
    else getIncrementFrom player rest toR

/-- The function `getIncrementForArray` on the four cells of a window. -/
def getIncrementForArray (arr : List Int) (player : Int) : Int :=
  getIncrementFrom player (arr.take 4) 0

/-- The buffer `buf` that `countAt` fills for one direction: the four cells from `(x, y)`
in steps of `(dx, dy)`. -/
def windowAt (gs : GameState) (x y dx dy : Int) : List Int :=
  (List.range 4).map (fun (i : Nat) => at_ gs (x + i * dx) (y + i * dy))

/-- The function `countAt`: the increments of the four windows starting at `(x, y)`, which
run towards larger `x`, towards smaller `y`, and along the two diagonals towards larger
`y`. -/
def countAt (gs : GameState) (x y player : Int) : Int :=
  getIncrementForArray (windowAt gs x y 1 0) player +
    getIncrementForArray (windowAt gs x y 0 (-1)) player +
    getIncrementForArray (windowAt gs x y 1 1) player +
    getIncrementForArray (windowAt gs x y (-1) 1) player

/-- The static score as the specification words it: the total, over every cell of the
board, of `countAt` for the player minus `countAt` for the opponent. -/
def countAtScore (gs : GameState) (player other : Int) : Int :=
  ((positions gs).map (fun p => countAt gs p.1 p.2 player - countAt gs p.1 p.2 other)).sum

/-- The 7x6 position after a first move of player 1 into column 3. -/
def firstMove : GameState := boardOfColumns 6 [[], [], [], [1], [], [], []]

/-- The moves of a node in the order in which the second loop of `getWeight` takes them:
the array `possibleMoves` after the call of `qsort`, with `ascComp` at a maximizing node
and `desComp` at a minimizing node. -/
def orderedMoves (node : GameTreeNode) : List GameState :=
  if node.turn ≠ 0 then qsort (ascComp node.player node.other_player) (possibleMovesOf node)
  else qsort (desComp node.player node.other_player) (possibleMovesOf node)

/-- The children the second loop of `getWeight` takes before it ends, each with the weight
found for it (`child_weight`): one pair per executed iteration of the loop, in order.  The
iteration at which `goto done` is taken is the last one.  At `movesLeft == LOOK_AHEAD` the
pair is what the loop prints as "Move %d has weight %d", with `last_move` for the move. -/
def exploreTrace (reuse : Bool) (recurse : GameTreeNode → TranspositionTable → SearchResult) :
    List GameState → GameTreeNode → TranspositionTable → Int → List (GameState × Int)
  | [], _, _, _ => []
  | m :: rest, node, ht, best_weight =>
    let c := childWeight reuse recurse node ht m
    let ht := addToTable c.2 { m with weight := c.1 }
    (m, c.1) ::
      match updateNode node best_weight c.1 m.last_move with
      | none => []
      | some next => exploreTrace reuse recurse rest next.1 ht next.2

/-- The children explored by the call `getWeight(node, movesLeft)` at the node itself, with
their weights: none at a terminal node, otherwise the iterations of the loop over the
ordered moves. -/
def exploredChildren : Nat → GameTreeNode → TranspositionTable → List (GameState × Int)
  | 0, _, _ => []
  | movesLeft + 1, node, ht =>
    if gameOver node.gs then []
    else
      exploreTrace true (getWeight true movesLeft) (orderedMoves node) node ht
        (if node.turn ≠ 0 then INT_MIN else INT_MAX)

/-- The running pair of `best_weight` and `best_move` of a maximizing node that is never
cut off, as a fold over the explored children: a child replaces the pair only when its
weight is strictly larger. -/
def pickBest (acc : Int × Int) (tr : List (GameState × Int)) : Int × Int :=
  tr.foldl (fun acc p => if acc.1 < p.2 then (p.2, p.1.last_move) else acc) acc

/-- The root of a search of player 2 against player 1 on the empty board of 3 columns and
1 row. -/
def smallRoot : GameTreeNode := newGameTreeNode (newGameState 3 1) 2 1 1 INT_MIN INT_MAX

/-- The table of the search from `smallRoot` with 2 moves left after its first child, the
move into column 0, has been explored and stored. -/
def smallTable : TranspositionTable :=
  addToTable
    (childWeight true (getWeight true 1) smallRoot newTable
      (stateForMove (newGameState 3 1) 0 2)).2
    { stateForMove (newGameState 3 1) 0 2 with
      weight := (childWeight true (getWeight true 1) smallRoot newTable
        (stateForMove (newGameState 3 1) 0 2)).1 }

/-- The node the search from `smallRoot` creates for its second child, the move into
column 1: a minimizing node whose `alpha` is the weight 0 of the first child. -/
def cutNode : GameTreeNode :=
  newGameTreeNode (stateForMove (newGameState 3 1) 1 2) 2 1 0 0 INT_MAX

/-- The number of cells of the board that hold a piece, that is, are not `EMPTY`. -/
def pieces (gs : GameState) : Nat := gs.board.countP (fun c => c != EMPTY)

/-- The first half of the loop body of `getWeight` when the recursive call may fail to
return: `none` when it does not. -/
def childWeightFuel (recurse : GameTreeNode → TranspositionTable → Option SearchResult)
    (node : GameTreeNode) (ht : TranspositionTable) (m : GameState) :
    Option (Int × TranspositionTable) :=
  match lookupInTable ht m with
  | some inTable => some (inTable.weight, ht)
  | none =>
    match recurse (newGameTreeNode m node.player node.other_player (lnot node.turn)
        node.alpha node.beta) ht with
    | none => none
    | some r => some (r.toR, r.ht)

/-- The second loop of `getWeight` when the recursive call may fail to return. -/
def exploreMovesFuel (recurse : GameTreeNode → TranspositionTable → Option SearchResult) :
    List GameState → GameTreeNode → TranspositionTable → Int → Option SearchResult
  | [], node, ht, best_weight => some { toR := best_weight, node := node, ht := ht }
  | m :: rest, node, ht, best_weight =>
    match childWeightFuel recurse node ht m with
    | none => none
    | some c =>
      let ht := addToTable c.2 { m with weight := c.1 }
      match updateNode node best_weight c.1 m.last_move with
      | none => some { toR := c.1, node := node, ht := ht }
      | some next => exploreMovesFuel recurse rest next.1 ht next.2

/-- The function `getWeight` as the source writes it, with `movesLeft` a C `int` that each
recursive call passes on as `movesLeft - 1`, and the test `movesLeft == 0`.  Nothing here
makes `movesLeft` a measure of the recursion: the first argument bounds the nesting of
calls instead, and a call that would nest deeper than `depth` frames gives `none`. -/
def getWeightFuel : Nat → Int → GameTreeNode → TranspositionTable → Option SearchResult
  | 0 => fun _ _ _ => none
  | depth + 1 => fun movesLeft node ht =>
    if gameOver node.gs || movesLeft == 0 then
      some { toR := heuristicForState node.gs node.player node.other_player,
             node := node, ht := ht }
    else
      exploreMovesFuel (getWeightFuel depth (movesLeft - 1)) (orderedMoves node) node ht
        (if node.turn ≠ 0 then INT_MIN else INT_MAX)

/-- The three values of a decided or level position: -1000, 0 and 1000. -/
def IsScore (v : Int) : Prop := v = -1000 ∨ v = 0 ∨ v = 1000

theorem at_off (gs : GameState) (x y : Int)
    (h : x < 0 ∨ y < 0 ∨ x ≥ gs.width ∨ y ≥ gs.height) : at_ gs x y = OFF_BOARD := by
  unfold at_
  by_cases h1 : x < 0 ∨ y < 0
  · simp [h1]
  · have h2 : x ≥ gs.width ∨ y ≥ gs.height := by tauto
    simp [h1, h2]

theorem at_in (gs : GameState) (x y : Int) (hx0 : 0 ≤ x) (hy0 : 0 ≤ y)
    (hx : x < gs.width) (hy : y < gs.height) :
    at_ gs x y = gs.board.getD (x * gs.height + y).toNat 0 := by
  unfold at_
  have h1 : ¬ (x < 0 ∨ y < 0) := by omega
  have h2 : ¬ (x ≥ gs.width ∨ y ≥ gs.height) := by omega
  simp only [h1, h2, if_false]

/-- A cell index computed from in-range coordinates lies below `width * height`. -/
theorem index_lt (w h : Nat) (x y : Int) (hx0 : 0 ≤ x) (hy0 : 0 ≤ y)
    (hx : x < w) (hy : y < h) : (x * h + y).toNat < w * h := by
  have h1 : x * h + y < w * h := by nlinarith
  have h2 : 0 ≤ x * h + y := by positivity
  zify
  rw [Int.toNat_of_nonneg h2]
  exact h1

/-- Two in-range coordinate pairs with the same index are the same pair. -/
theorem index_inj (h : Nat) (x y c r : Int) (hy0 : 0 ≤ y) (hy : y < h)
    (hr0 : 0 ≤ r) (hr : r < h) (e : x * h + y = c * h + r) : x = c ∧ y = r := by
  have hx : x = c := by
    rcases lt_trichotomy x c with hlt | heq | hgt
    · exfalso
      have : x + 1 ≤ c := hlt
      nlinarith
    · exact heq
    · exfalso
      have : c + 1 ≤ x := hgt
      nlinarith
  subst hx
  exact ⟨rfl, by linarith⟩

theorem at_ne_off_iff (gs : GameState) (x y : Int) (h : at_ gs x y = EMPTY) :
    0 ≤ x ∧ 0 ≤ y ∧ x < gs.width ∧ y < gs.height := by
  by_contra hc
  have : x < 0 ∨ y < 0 ∨ x ≥ gs.width ∨ y ≥ gs.height := by omega
  rw [at_off gs x y this] at h
  exact absurd h (by decide)

theorem mem_positions (gs : GameState) (p : Int × Int) :
    p ∈ positions gs ↔ ∃ x y : Nat, x < gs.width ∧ y < gs.height ∧ p = ((x : Int), (y : Int)) := by
  unfold positions
  rw [List.mem_flatMap]
  constructor
  · rintro ⟨x, hx, hp⟩
    rw [List.mem_map] at hp
    obtain ⟨y, hy, rfl⟩ := hp
    exact ⟨x, y, List.mem_range.1 hx, List.mem_range.1 hy, rfl⟩
  · rintro ⟨x, y, hx, hy, rfl⟩
    exact ⟨x, List.mem_range.2 hx, List.mem_map.2 ⟨y, List.mem_range.2 hy, rfl⟩⟩

theorem isDraw_eq_one_iff (gs : GameState) :
    isDraw gs = 1 ↔ ∀ x y : Nat, x < gs.width → y < gs.height → at_ gs x y ≠ EMPTY := by
  unfold isDraw
  cases hf : (positions gs).find? (fun p => at_ gs p.1 p.2 == EMPTY) with
  | none =>
    simp only [true_iff]
    intro x y hx hy
    rw [List.find?_eq_none] at hf
    have := hf ((x : Int), (y : Int)) ((mem_positions gs _).2 ⟨x, y, hx, hy, rfl⟩)
    simpa using this
  | some p =>
    simp only [zero_ne_one, false_iff, not_forall]
    have hp := List.find?_some hf
    have hm := List.mem_of_find?_eq_some hf
    obtain ⟨x, y, hx, hy, rfl⟩ := (mem_positions gs p).1 hm
    exact ⟨x, y, hx, hy, by simpa using hp⟩

theorem isDraw_zero_or_one (gs : GameState) : isDraw gs = 0 ∨ isDraw gs = 1 := by
  unfold isDraw
  cases (positions gs).find? (fun p => at_ gs p.1 p.2 == EMPTY) <;> simp

theorem isDraw_eq_zero_iff (gs : GameState) :
    isDraw gs = 0 ↔ ∃ x y : Nat, x < gs.width ∧ y < gs.height ∧ at_ gs x y = EMPTY := by
  have h := isDraw_eq_one_iff gs
  rcases isDraw_zero_or_one gs with h0 | h1
  · simp only [h0, true_iff]
    by_contra hc
    have : isDraw gs = 1 := h.2 (fun x y hx hy he => hc ⟨x, y, hx, hy, he⟩)
    omega
  · simp only [h1, one_ne_zero, false_iff]
    rintro ⟨x, y, hx, hy, he⟩
    exact h.1 h1 x y hx hy he

theorem getWinner_zero_or_one (gs : GameState) : getWinner gs = 0 ∨ getWinner gs = 1 := by
  unfold getWinner
  cases (positions gs).find? (fun p => checkAt gs p.1 p.2 != 0) <;> simp

theorem getWinner_eq_zero_iff (gs : GameState) :
    getWinner gs = 0 ↔ ∀ x y : Nat, x < gs.width → y < gs.height → checkAt gs x y = 0 := by
  unfold getWinner
  cases hf : (positions gs).find? (fun p => checkAt gs p.1 p.2 != 0) with
  | none =>
    simp only [true_iff]
    intro x y hx hy
    rw [List.find?_eq_none] at hf
    have := hf ((x : Int), (y : Int)) ((mem_positions gs _).2 ⟨x, y, hx, hy, rfl⟩)
    simpa using this
  | some p =>
    simp only [one_ne_zero, false_iff, not_forall]
    have hp := List.find?_some hf
    have hm := List.mem_of_find?_eq_some hf
    obtain ⟨x, y, hx, hy, rfl⟩ := (mem_positions gs p).1 hm
    exact ⟨x, y, hx, hy, by simpa using hp⟩

/-! ## Win detection -/

theorem lineOf_iff (gs : GameState) (x y dx dy curr : Int) :
    lineOf gs x y dx dy curr = true ↔
      ∀ i : Nat, i < 4 → at_ gs (x + i * dx) (y + i * dy) = curr := by
  unfold lineOf
  simp [List.all_eq_true, List.mem_range]

/-- Under the data-model invariant every value `at` reports is `OFF_BOARD` or a stored cell. -/
theorem at_mem (gs : GameState) (hwf : gs.WF) (x y : Int) :
    at_ gs x y = OFF_BOARD ∨ at_ gs x y ∈ gs.board := by
  by_cases h : x < 0 ∨ y < 0 ∨ x ≥ gs.width ∨ y ≥ gs.height
  · exact Or.inl (at_off gs x y h)
  · right
    have hx0 : 0 ≤ x := by omega
    have hy0 : 0 ≤ y := by omega
    have hx : x < gs.width := by omega
    have hy : y < gs.height := by omega
    rw [at_in gs x y hx0 hy0 hx hy]
    have hlt : (x * gs.height + y).toNat < gs.board.length := by
      rw [hwf]; exact index_lt _ _ x y hx0 hy0 hx hy
    rw [List.getD_eq_getElem _ _ hlt]
    exact List.getElem_mem _

theorem at_ne_zero (gs : GameState) (hwf : gs.WF) (hc : CellsOK gs) (x y : Int) :
    at_ gs x y ≠ 0 := by
  rcases at_mem gs hwf x y with h | h
  · rw [h]; decide
  · rcases hc _ h with h | h | h <;> rw [h] <;> decide

theorem checkAt_eq (gs : GameState) (x y : Int) :
    checkAt gs x y =
      if (at_ gs x y ≠ EMPTY ∧ at_ gs x y ≠ OFF_BOARD) ∧
          (lineOf gs x y 1 0 (at_ gs x y) = true ∨ lineOf gs x y 0 1 (at_ gs x y) = true ∨
            lineOf gs x y 1 1 (at_ gs x y) = true ∨ lineOf gs x y (-1) 1 (at_ gs x y) = true)
      then at_ gs x y else 0 := by
  unfold checkAt
  by_cases hv : at_ gs x y ≠ EMPTY ∧ at_ gs x y ≠ OFF_BOARD
  · have hv1 := hv.1
    have hv2 := hv.2
    cases h1 : lineOf gs x y 1 0 (at_ gs x y) <;> cases h2 : lineOf gs x y 0 1 (at_ gs x y) <;>
      cases h3 : lineOf gs x y 1 1 (at_ gs x y) <;>
      cases h4 : lineOf gs x y (-1) 1 (at_ gs x y) <;> simp [hv1, hv2, h1, h2, h3, h4]
  · have hv' : (at_ gs x y != EMPTY && at_ gs x y != OFF_BOARD) = false := by
      by_cases e1 : at_ gs x y = EMPTY
      · simp [e1]
      · by_cases e2 : at_ gs x y = OFF_BOARD
        · simp [e2]
        · exact absurd ⟨e1, e2⟩ hv
    simp only [hv', Bool.and_false, Bool.false_eq_true, if_false, hv, false_and]

theorem checkAt_zero_or_at (gs : GameState) (x y : Int) :
    checkAt gs x y = 0 ∨ (checkAt gs x y = at_ gs x y ∧ at_ gs x y ≠ EMPTY ∧ at_ gs x y ≠ OFF_BOARD) := by
  rw [checkAt_eq]
  split
  · next h => exact Or.inr ⟨rfl, h.1.1, h.1.2⟩
  · exact Or.inl rfl

/-- C8: on a board whose cells are EMPTY, 1 or 2, `checkAt` at any integer position returns
a non-zero `v` exactly when the cell there is `v`, `v` is neither `EMPTY` nor `OFF_BOARD`,
and in one of the four directions the four cells starting there all equal `v`; when no
value meets these conditions it returns 0. -/
theorem checkAt_spec (gs : GameState) (hwf : gs.WF) (hcells : CellsOK gs) (x y : Int) :
    (∀ v : Int, (checkAt gs x y = v ∧ v ≠ 0) ↔
      (at_ gs x y = v ∧ v ≠ EMPTY ∧ v ≠ OFF_BOARD ∧
        ∃ d ∈ directions, ∀ i : Nat, i < 4 → at_ gs (x + i * d.1) (y + i * d.2) = v)) ∧
    ((∀ v : Int, ¬ (at_ gs x y = v ∧ v ≠ EMPTY ∧ v ≠ OFF_BOARD ∧
        ∃ d ∈ directions, ∀ i : Nat, i < 4 → at_ gs (x + i * d.1) (y + i * d.2) = v)) →
      checkAt gs x y = 0) := by
  have hdir : ∀ v : Int, (∃ d ∈ directions, ∀ i : Nat, i < 4 →
        at_ gs (x + i * d.1) (y + i * d.2) = v) ↔
      (lineOf gs x y 1 0 v = true ∨ lineOf gs x y 0 1 v = true ∨
        lineOf gs x y 1 1 v = true ∨ lineOf gs x y (-1) 1 v = true) := by
    intro v
    simp only [directions, List.mem_cons, List.mem_singleton, List.not_mem_nil, or_false,
      exists_eq_or_imp, exists_eq_left, lineOf_iff]
  have hkey : ∀ v : Int, (checkAt gs x y = v ∧ v ≠ 0) ↔
      (at_ gs x y = v ∧ v ≠ EMPTY ∧ v ≠ OFF_BOARD ∧
        ∃ d ∈ directions, ∀ i : Nat, i < 4 → at_ gs (x + i * d.1) (y + i * d.2) = v) := by
    intro v
    rw [hdir v, checkAt_eq]
    constructor
    · rintro ⟨h, hv⟩
      split at h
      · next hc =>
        subst h
        exact ⟨rfl, hc.1.1, hc.1.2, hc.2⟩
      · exact absurd h.symm hv
    · rintro ⟨rfl, h1, h2, h3⟩
      rw [if_pos ⟨⟨h1, h2⟩, h3⟩]
      exact ⟨rfl, at_ne_zero gs hwf hcells x y⟩
  refine ⟨hkey, fun hno => ?_⟩
  by_contra hne
  exact hno _ ((hkey _).1 ⟨rfl, hne⟩)

/-! ## Dropping a piece -/

theorem memcpyCells_full (dst src : List Int) (n : Nat) (h1 : src.length = n)
    (h2 : dst.length = n) : memcpyCells dst src n = src := by
  unfold memcpyCells
  rw [List.take_of_length_le (by omega), List.drop_of_length_le (by omega), List.append_nil]

/-- The copy made by `stateForMove` before `drop` is applied. -/
theorem stateForMove_eq (gs : GameState) (hwf : gs.WF) (c p : Int) :
    stateForMove gs c p =
      drop { width := gs.width, height := gs.height, board := gs.board,
             last_move := 0, weight := 0, refs := 1 } c p := by
  unfold stateForMove newGameState
  simp only []
  rw [memcpyCells_full _ _ _ hwf (by simp)]

theorem at_congr (a : GameState) {b : GameState} (hw : a.width = b.width) (hh : a.height = b.height)
    (hb : a.board = b.board) (x y : Int) : at_ a x y = at_ b x y := by
  unfold at_
  rw [hw, hh, hb]

/-- Reading a cell does not look at `last_move`, `weight` or `refs`. -/
theorem at_copy (gs : GameState) (lm w rf x y : Int) :
    at_ { width := gs.width, height := gs.height, board := gs.board,
          last_move := lm, weight := w, refs := rf } x y = at_ gs x y := rfl

theorem dropFrom_none (gs : GameState) (c p : Int) (fuel i : Nat)
    (h : ∀ j : Nat, i ≤ j → j < i + fuel → at_ gs c j ≠ EMPTY) :
    dropFrom gs c p fuel i = gs := by
  induction fuel generalizing i with
  | zero => rfl
  | succ n ih =>
    unfold dropFrom
    rw [if_neg (h i le_rfl (by omega))]
    exact ih (i + 1) (fun j h1 h2 => h j (by omega) (by omega))

theorem dropFrom_some (gs : GameState) (c p : Int) (fuel i r : Nat)
    (hir : i ≤ r) (hr : r < i + fuel) (he : at_ gs c r = EMPTY)
    (h : ∀ j : Nat, i ≤ j → j < r → at_ gs c j ≠ EMPTY) :
    dropFrom gs c p fuel i =
      { gs with board := gs.board.set (c * gs.height + r).toNat p, last_move := c } := by
  induction fuel generalizing i with
  | zero => omega
  | succ n ih =>
    unfold dropFrom
    by_cases hi : i = r
    · subst hi
      rw [if_pos he]
    · rw [if_neg (h i le_rfl (by omega))]
      exact ih (i + 1) (by omega) (by omega) (fun j h1 h2 => h j (by omega) h2)

theorem canMove_eq_one_iff (gs : GameState) (c : Int) :
    canMove gs c = 1 ↔ ∃ y : Nat, y < gs.height ∧ at_ gs c y = EMPTY := by
  unfold canMove
  by_cases h : (List.range gs.height).any (fun (y : Nat) => at_ gs c y == EMPTY) = true
  · rw [if_pos h]
    simp only [true_iff]
    rw [List.any_eq_true] at h
    obtain ⟨y, hy, he⟩ := h
    exact ⟨y, List.mem_range.1 hy, by simpa using he⟩
  · rw [if_neg h]
    simp only [zero_ne_one, false_iff]
    rintro ⟨y, hy, he⟩
    apply h
    rw [List.any_eq_true]
    exact ⟨y, List.mem_range.2 hy, by simpa using he⟩

theorem canMove_zero_or_one (gs : GameState) (c : Int) : canMove gs c = 0 ∨ canMove gs c = 1 := by
  unfold canMove
  split <;> simp

/-- The lowest `EMPTY` row of a column that has one. -/
theorem exists_lowest_empty (gs : GameState) (c : Int) (h : canMove gs c = 1) :
    ∃ r : Nat, r < gs.height ∧ at_ gs c r = EMPTY ∧ ∀ j : Nat, j < r → at_ gs c j ≠ EMPTY := by
  obtain ⟨y, hy, he⟩ := (canMove_eq_one_iff gs c).1 h
  classical
  have hex : ∃ n : Nat, n < gs.height ∧ at_ gs c n = EMPTY := ⟨y, hy, he⟩
  refine ⟨Nat.find hex, (Nat.find_spec hex).1, (Nat.find_spec hex).2, fun j hj hje => ?_⟩
  have hjlt : j < gs.height := lt_trans hj (Nat.find_spec hex).1
  exact Nat.find_min hex hj ⟨hjlt, hje⟩

/-- A cell of the board after one cell has been overwritten. -/
theorem at_set (gs g : GameState) (hwf : gs.WF) (c : Int) (r : Nat) (p : Int)
    (hw : g.width = gs.width) (hh : g.height = gs.height)
    (hb : g.board = gs.board.set (c * gs.height + r).toNat p)
    (hc0 : 0 ≤ c) (hc : c < gs.width) (hr : r < gs.height) (x y : Int) :
    at_ g x y = if x = c ∧ y = r then p else at_ gs x y := by
  by_cases hoff : x < 0 ∨ y < 0 ∨ x ≥ gs.width ∨ y ≥ gs.height
  · rw [at_off gs x y hoff, at_off g x y (by rw [hw, hh]; exact hoff)]
    have : ¬ (x = c ∧ y = r) := by
      rintro ⟨rfl, rfl⟩
      omega
    rw [if_neg this]
  · have hx0 : 0 ≤ x := by omega
    have hy0 : 0 ≤ y := by omega
    have hx : x < gs.width := by omega
    have hy : y < gs.height := by omega
    rw [at_in g x y hx0 hy0 (by rw [hw]; exact hx) (by rw [hh]; exact hy),
      at_in gs x y hx0 hy0 hx hy, hb, hh]
    have hlt : (c * gs.height + r).toNat < gs.board.length := by
      rw [hwf]; exact index_lt _ _ c r hc0 (by positivity) hc (by exact_mod_cast hr)
    rw [List.getD_eq_getElem?_getD, List.getD_eq_getElem?_getD, List.getElem?_set]
    by_cases hxy : x = c ∧ y = r
    · obtain ⟨rfl, rfl⟩ := hxy
      simp [hlt]
    · have hne : (c * gs.height + r).toNat ≠ (x * gs.height + y).toNat := by
        intro e
        have h1 : 0 ≤ c * gs.height + r := by positivity
        have h2 : 0 ≤ x * gs.height + y := by positivity
        have e' : c * (gs.height : Int) + r = x * gs.height + y := by
          have := congrArg (fun n : Nat => (n : Int)) e
          simpa [Int.toNat_of_nonneg h1, Int.toNat_of_nonneg h2] using this
        have := index_inj gs.height x y c r hy0 hy (by positivity) (by exact_mod_cast hr) e'.symm
        exact hxy this
      rw [if_neg hne, if_neg hxy]

/-- What `stateForMove` returns for a column with room: the copy with the lowest `EMPTY`
cell of the column overwritten and `last_move` set to the column. -/
theorem stateForMove_of_room (gs : GameState) (hwf : gs.WF) (c p : Int) (r : Nat)
    (hr : r < gs.height) (he : at_ gs c r = EMPTY)
    (hmin : ∀ j : Nat, j < r → at_ gs c j ≠ EMPTY) :
    stateForMove gs c p =
      { width := gs.width, height := gs.height,
        board := gs.board.set (c * gs.height + r).toNat p,
        last_move := c, weight := 0, refs := 1 } := by
  rw [stateForMove_eq gs hwf]
  unfold drop
  rw [dropFrom_some _ c p _ 0 r (Nat.zero_le _) (by simpa using hr)
    (by rw [at_copy]; exact he)
    (fun j _ hj => by rw [at_copy]; exact hmin j hj)]

/-- What `stateForMove` returns for a column without room: the plain copy. -/
theorem stateForMove_of_full (gs : GameState) (hwf : gs.WF) (c p : Int)
    (hfull : ∀ r : Nat, r < gs.height → at_ gs c r ≠ EMPTY) :
    stateForMove gs c p =
      { width := gs.width, height := gs.height, board := gs.board,
        last_move := 0, weight := 0, refs := 1 } := by
  rw [stateForMove_eq gs hwf]
  unfold drop
  exact dropFrom_none _ c p _ 0
    (fun j _ hj => by rw [at_copy]; exact hfull j (by simpa using hj))

/-- C9: for a column `c` that `canMove` accepts, with `r` its lowest `EMPTY` row, the board
returned by `stateForMove` holds `p` at `(c, r)`, agrees with the parent at every other
position, and has the parent's width and height.  The parent is a value that the function
only reads. -/
theorem stateForMove_places_piece (gs : GameState) (hwf : gs.WF) (c p : Int)
    (hcan : canMove gs c = 1) :
    ∃ r : Nat, r < gs.height ∧ at_ gs c r = EMPTY ∧
      (∀ j : Nat, j < r → at_ gs c j ≠ EMPTY) ∧
      at_ (stateForMove gs c p) c r = p ∧
      (∀ x y : Int, ¬ (x = c ∧ y = r) → at_ (stateForMove gs c p) x y = at_ gs x y) ∧
      (stateForMove gs c p).width = gs.width ∧
      (stateForMove gs c p).height = gs.height := by
  obtain ⟨r, hr, he, hmin⟩ := exists_lowest_empty gs c hcan
  have hin := at_ne_off_iff gs c r he
  have hst := stateForMove_of_room gs hwf c p r hr he hmin
  have hat : ∀ x y : Int, at_ (stateForMove gs c p) x y =
      if x = c ∧ y = r then p else at_ gs x y := by
    intro x y
    rw [hst]
    exact at_set gs
      { width := gs.width, height := gs.height,
        board := gs.board.set (c * gs.height + r).toNat p,
        last_move := c, weight := 0, refs := 1 } hwf c r p rfl rfl rfl hin.1 hin.2.2.1 hr x y
  refine ⟨r, hr, he, hmin, ?_, ?_, ?_, ?_⟩
  · rw [hat, if_pos ⟨rfl, rfl⟩]
  · intro x y hxy
    rw [hat, if_neg hxy]
  · rw [hst]
  · rw [hst]

/-- C10: for a column with no `EMPTY` row, which covers every column index outside the
board, `stateForMove` returns a board with the parent's width, height and cells; the result
is an ordinary state and nothing marks the move as rejected. -/
theorem stateForMove_full_column (gs : GameState) (hwf : gs.WF) (c p : Int)
    (hfull : ∀ r : Nat, r < gs.height → at_ gs c r ≠ EMPTY) :
    (stateForMove gs c p).width = gs.width ∧
    (stateForMove gs c p).height = gs.height ∧
    (stateForMove gs c p).board = gs.board ∧
    (∀ x y : Int, at_ (stateForMove gs c p) x y = at_ gs x y) := by
  have hst := stateForMove_of_full gs hwf c p hfull
  refine ⟨by rw [hst], by rw [hst], by rw [hst], fun x y => ?_⟩
  rw [hst]
  exact at_congr _ rfl rfl rfl x y

/-! ## Evaluation of a position -/

theorem getWinner_eq_findWinner (gs : GameState) :
    getWinner gs = if findWinner gs ≠ 0 then 1 else 0 := by
  unfold getWinner findWinner
  cases hf : (positions gs).find? (fun p => checkAt gs p.1 p.2 != 0) with
  | none => simp
  | some p =>
    have hp := List.find?_some hf
    have : checkAt gs p.1 p.2 ≠ 0 := by simpa using hp
    simp [this]

theorem getHeuristic_of_no_line (gs : GameState) (player other : Int)
    (hp : player ≠ 0) (ho : other ≠ 0) (h : getWinner gs = 0) :
    getHeuristic gs player other = 0 := by
  have hall : ∀ p ∈ positions gs, checkAt gs p.1 p.2 = 0 := by
    intro p hp
    obtain ⟨x, y, hx, hy, rfl⟩ := (mem_positions gs p).1 hp
    exact (getWinner_eq_zero_iff gs).1 h x y hx hy
  unfold getHeuristic
  have hfold : ∀ (l : List (Int × Int)) (acc : Int × Int),
      (∀ p ∈ l, checkAt gs p.1 p.2 = 0) →
      l.foldl (fun (acc : Int × Int) p =>
        let winner := checkAt gs p.1 p.2
        if winner = player then (acc.1 + 1, acc.2)
        else if winner = other then (acc.1, acc.2 + 1)
        else acc) acc = acc := by
    intro l
    induction l with
    | nil => intro acc _; rfl
    | cons a l ih =>
      intro acc hl
      rw [List.foldl_cons]
      have ha : checkAt gs a.1 a.2 = 0 := hl a (List.mem_cons_self _ _)
      simp only [ha, if_neg (Ne.symm hp), if_neg (Ne.symm ho)]
      exact ih acc (fun p hp => hl p (List.mem_cons_of_mem _ hp))
  simp only [hfold (positions gs) (0, 0) hall]
  rfl

/-- The value of `heuristicForState` in terms of its three tests. -/
theorem heuristicForState_cases (gs : GameState) (player other : Int)
    (hp : player ≠ 0) (ho : other ≠ 0) :
    heuristicForState gs player other =
      if isDraw gs ≠ 0 then 0
      else if getWinner gs = 0 then 0
      else if player = 1 then 1000 else -1000 := by
  unfold heuristicForState
  by_cases hd : isDraw gs ≠ 0
  · simp only [if_pos hd]
  · simp only [if_neg hd]
    rcases getWinner_zero_or_one gs with h0 | h1
    · simp only [h0, if_neg (Ne.symm hp), ne_eq, not_true_eq_false, if_false, if_true]
      exact getHeuristic_of_no_line gs player other hp ho h0
    · simp only [h1, one_ne_zero, ne_eq, not_false_eq_true, if_true, if_false]
      by_cases h : player = 1
      · simp [h]
      · simp [h, Ne.symm h]

/-- On a board of the data model on which id 2 owns no line, the winner in scan order is
0 or 1. -/
theorem findWinner_of_no_two (gs : GameState) (hwf : gs.WF) (hcells : CellsOK gs)
    (hno2 : ∀ x y : Nat, x < gs.width → y < gs.height → checkAt gs x y ≠ 2) :
    findWinner gs = 0 ∨ findWinner gs = 1 := by
  unfold findWinner
  cases hf : (positions gs).find? (fun p => checkAt gs p.1 p.2 != 0) with
  | none => exact Or.inl rfl
  | some p =>
    simp only []
    obtain ⟨x, y, hx, hy, rfl⟩ := (mem_positions gs p).1 (List.mem_of_find?_eq_some hf)
    rcases checkAt_zero_or_at gs x y with h0 | ⟨he, hne, hno⟩
    · exact Or.inl h0
    · right
      rw [he]
      rcases at_mem gs hwf x y with h | h
      · exact absurd h hno
      · rcases hcells _ h with h | h | h
        · exact absurd h hne
        · exact h
        · exact absurd (he.trans h) (hno2 x y hx hy)

/-- C4 as amended: on a board of the data model that has an `EMPTY` cell and on which id 2
owns no four-in-a-row, for the ids 1 and 2 in either order, `heuristicForState` returns
+1000 exactly when the winner of the board is the player. -/
theorem heuristicForState_plus_1000 (gs : GameState) (hwf : gs.WF) (hcells : CellsOK gs)
    (player other : Int) (hids : (player = 1 ∧ other = 2) ∨ (player = 2 ∧ other = 1))
    (hroom : ∃ x y : Nat, x < gs.width ∧ y < gs.height ∧ at_ gs x y = EMPTY)
    (hno2 : ∀ x y : Nat, x < gs.width → y < gs.height → checkAt gs x y ≠ 2) :
    heuristicForState gs player other = 1000 ↔ findWinner gs = player := by
  have hp0 : player ≠ 0 := by rcases hids with ⟨h, _⟩ | ⟨h, _⟩ <;> rw [h] <;> decide
  have ho0 : other ≠ 0 := by rcases hids with ⟨_, h⟩ | ⟨_, h⟩ <;> rw [h] <;> decide
  have hd0 : isDraw gs = 0 := (isDraw_eq_zero_iff gs).2 hroom
  rw [heuristicForState_cases gs player other hp0 ho0, getWinner_eq_findWinner, hd0]
  rcases findWinner_of_no_two gs hwf hcells hno2 with hw | hw
  · rw [hw]
    simp only [ne_eq, not_true_eq_false, if_false, if_true]
    constructor
    · intro h; exact absurd h (by decide)
    · intro h; exact absurd h.symm hp0
  · rw [hw]
    rcases hids with ⟨h1, _⟩ | ⟨h1, _⟩ <;> rw [h1] <;> decide

/-- C5 as amended: on a board of the data model that has an `EMPTY` cell and on which id 2
owns no four-in-a-row, for the ids 1 and 2 in either order, `heuristicForState` returns
-1000 exactly when the winner of the board is the opponent. -/
theorem heuristicForState_minus_1000 (gs : GameState) (hwf : gs.WF) (hcells : CellsOK gs)
    (player other : Int) (hids : (player = 1 ∧ other = 2) ∨ (player = 2 ∧ other = 1))
    (hroom : ∃ x y : Nat, x < gs.width ∧ y < gs.height ∧ at_ gs x y = EMPTY)
    (hno2 : ∀ x y : Nat, x < gs.width → y < gs.height → checkAt gs x y ≠ 2) :
    heuristicForState gs player other = -1000 ↔ findWinner gs = other := by
  have hp0 : player ≠ 0 := by rcases hids with ⟨h, _⟩ | ⟨h, _⟩ <;> rw [h] <;> decide
  have ho0 : other ≠ 0 := by rcases hids with ⟨_, h⟩ | ⟨_, h⟩ <;> rw [h] <;> decide
  have hd0 : isDraw gs = 0 := (isDraw_eq_zero_iff gs).2 hroom
  rw [heuristicForState_cases gs player other hp0 ho0, getWinner_eq_findWinner, hd0]
  rcases findWinner_of_no_two gs hwf hcells hno2 with hw | hw
  · rw [hw]
    simp only [ne_eq, not_true_eq_false, if_false, if_true]
    constructor
    · intro h; exact absurd h (by decide)
    · intro h; exact absurd h.symm ho0
  · rw [hw]
    rcases hids with ⟨h1, h2⟩ | ⟨h1, h2⟩ <;> rw [h1, h2] <;> decide

/-- C6: on a board without any `EMPTY` cell `isDraw` returns 1 and `heuristicForState`
returns 0 for every player and opponent id, whatever the width and height. -/
theorem heuristicForState_full (gs : GameState)
    (hfull : ∀ x y : Nat, x < gs.width → y < gs.height → at_ gs x y ≠ EMPTY) :
    isDraw gs = 1 ∧ ∀ player other : Int, heuristicForState gs player other = 0 := by
  have hd : isDraw gs = 1 := (isDraw_eq_one_iff gs).2 hfull
  refine ⟨hd, fun player other => ?_⟩
  unfold heuristicForState
  rw [hd]
  simp

set_option maxRecDepth 100000 in
/-- C7 at a position won by player 2: `getWinner` reports 1, while the first non-zero
`checkAt` result in scan order, at position (0, 0), is 2. -/
theorem getWinner_loses_id :
    getWinner computerWins = 1 ∧ findWinner computerWins = 2 ∧ checkAt computerWins 0 0 = 2 := by
  decide!


/-! ## Concrete positions -/

set_option maxRecDepth 100000 in
/-- C4 fails as stated: on the full board `fullRowOfOne` the winner is player 1, yet
`heuristicForState` for player 1 returns 0, not +1000. -/
theorem heuristicForState_plus_1000_refuted :
    CellsOK fullRowOfOne ∧ findWinner fullRowOfOne = 1 ∧
      heuristicForState fullRowOfOne 1 2 = 0 ∧
      ¬ (heuristicForState fullRowOfOne 1 2 = 1000 ↔ findWinner fullRowOfOne = 1) := by
  decide!

set_option maxRecDepth 100000 in
/-- On `humanWins` no position starts a line of player 2. -/
theorem humanWins_no_two :
    ∀ x y : Nat, x < humanWins.width → y < humanWins.height → checkAt humanWins x y ≠ 2 := by
  have h : ∀ p ∈ positions humanWins, checkAt humanWins p.1 p.2 ≠ 2 := by decide!
  intro x y hx hy
  exact h _ ((mem_positions humanWins _).2 ⟨x, y, hx, hy, rfl⟩)

set_option maxRecDepth 100000 in
/-- Instance of C4 as amended: in `humanWins`, which has room, is won by player 1 and has
no line of player 2, the score for player 1 against player 2 is +1000. -/
theorem heuristicForState_plus_1000_witness :
    humanWins.WF ∧ CellsOK humanWins ∧ at_ humanWins 6 0 = EMPTY ∧
      findWinner humanWins = 1 ∧ heuristicForState humanWins 1 2 = 1000 :=
  ⟨by decide!, by decide!, by decide!, by decide!,
    (heuristicForState_plus_1000 humanWins (by decide!) (by decide!) 1 2 (Or.inl ⟨rfl, rfl⟩)
      ⟨6, 0, by decide, by decide, by decide!⟩ humanWins_no_two).2 (by decide!)⟩

set_option maxRecDepth 100000 in
/-- C5 fails as stated: on the full board `fullRowOfTwo` the winner is the opponent 2, yet
`heuristicForState` for player 1 returns 0, not -1000. -/
theorem heuristicForState_minus_1000_refuted :
    CellsOK fullRowOfTwo ∧ findWinner fullRowOfTwo = 2 ∧
      heuristicForState fullRowOfTwo 1 2 = 0 ∧
      ¬ (heuristicForState fullRowOfTwo 1 2 = -1000 ↔ findWinner fullRowOfTwo = 2) := by
  decide!

set_option maxRecDepth 100000 in
/-- Instance of C5 as amended: in `humanWins`, which has room, is won by player 1 and has
no line of player 2, the score for player 2 against player 1 is -1000. -/
theorem heuristicForState_minus_1000_witness :
    humanWins.WF ∧ CellsOK humanWins ∧ at_ humanWins 6 0 = EMPTY ∧
      findWinner humanWins = 1 ∧ heuristicForState humanWins 2 1 = -1000 :=
  ⟨by decide!, by decide!, by decide!, by decide!,
    (heuristicForState_minus_1000 humanWins (by decide!) (by decide!) 2 1
      (Or.inr ⟨rfl, rfl⟩) ⟨6, 0, by decide, by decide, by decide!⟩ humanWins_no_two).2
      (by decide!)⟩

/-- The full 2x2 board has no `EMPTY` cell. -/
theorem fullSmall_full :
    ∀ x y : Nat, x < fullSmall.width → y < fullSmall.height → at_ fullSmall x y ≠ EMPTY := by
  intro x y hx hy
  have hx2 : x < 2 := hx
  have hy2 : y < 2 := hy
  interval_cases x <;> interval_cases y <;> decide

/-- Instance of C6 on the full 2x2 board. -/
theorem heuristicForState_full_witness :
    (∀ x y : Nat, x < fullSmall.width → y < fullSmall.height → at_ fullSmall x y ≠ EMPTY) ∧
      isDraw fullSmall = 1 ∧ heuristicForState fullSmall 2 1 = 0 :=
  ⟨fullSmall_full, (heuristicForState_full fullSmall fullSmall_full).1,
    (heuristicForState_full fullSmall fullSmall_full).2 2 1⟩

set_option maxRecDepth 100000 in
/-- Instance of C8 at position (0, 0) of `computerWins`: the value 2 that `checkAt` returns
there is the cell value and fills four cells in one of the four directions. -/
theorem checkAt_spec_witness :
    computerWins.WF ∧ CellsOK computerWins ∧
      (at_ computerWins 0 0 = 2 ∧ (2 : Int) ≠ EMPTY ∧ (2 : Int) ≠ OFF_BOARD ∧
        ∃ d ∈ directions, ∀ i : Nat, i < 4 →
          at_ computerWins (0 + i * d.1) (0 + i * d.2) = 2) :=
  ⟨by decide!, by decide!,
    ((checkAt_spec computerWins (by decide!) (by decide!) 0 0).1 2).1 ⟨by decide!, by decide⟩⟩

set_option maxRecDepth 100000 in
/-- Instance of C9: a piece of player 2 dropped into column 3 of the empty 7x6 board. -/
theorem stateForMove_places_piece_witness :
    (newGameState 7 6).WF ∧ canMove (newGameState 7 6) 3 = 1 ∧
      ∃ r : Nat, r < (newGameState 7 6).height ∧
        at_ (stateForMove (newGameState 7 6) 3 2) 3 r = 2 ∧
        (stateForMove (newGameState 7 6) 3 2).width = (newGameState 7 6).width :=
  ⟨by decide!, by decide!,
    let ⟨r, h1, _, _, h2, _, h3, _⟩ :=
      stateForMove_places_piece (newGameState 7 6) (by decide!) 3 2 (by decide!)
    ⟨r, h1, h2, h3⟩⟩

/-- Column 0 of the full 2x2 board has no `EMPTY` row. -/
theorem fullSmall_column_full : ∀ r : Nat, r < fullSmall.height → at_ fullSmall 0 r ≠ EMPTY :=
  fun r hr => fullSmall_full 0 r (by decide) hr

set_option maxRecDepth 100000 in
/-- Instance of C10: a move into the full column 0 of the full 2x2 board. -/
theorem stateForMove_full_column_witness :
    fullSmall.WF ∧ (∀ r : Nat, r < fullSmall.height → at_ fullSmall 0 r ≠ EMPTY) ∧
      (stateForMove fullSmall 0 1).board = fullSmall.board :=
  ⟨by decide!, fullSmall_column_full,
    (stateForMove_full_column fullSmall (by decide!) 0 1 fullSmall_column_full).2.2.1⟩

/-! ## Move generation and ordering -/

theorem dropFrom_dims (gs : GameState) (c p : Int) (fuel i : Nat) :
    (dropFrom gs c p fuel i).width = gs.width ∧ (dropFrom gs c p fuel i).height = gs.height := by
  induction fuel generalizing i with
  | zero => exact ⟨rfl, rfl⟩
  | succ n ih =>
    unfold dropFrom
    split
    · exact ⟨rfl, rfl⟩
    · exact ih (i + 1)

theorem stateForMove_dims (gs : GameState) (c p : Int) :
    (stateForMove gs c p).width = gs.width ∧ (stateForMove gs c p).height = gs.height := by
  unfold stateForMove drop
  exact dropFrom_dims _ c p _ 0

theorem mem_possibleMovesOf (node : GameTreeNode) (m : GameState) :
    m ∈ possibleMovesOf node ↔
      ∃ c : Nat, c < node.gs.width ∧ canMove node.gs c = 1 ∧
        m = stateForMove node.gs c
          (if node.turn ≠ 0 then node.player else node.other_player) := by
  unfold possibleMovesOf
  rw [List.mem_map]
  constructor
  · rintro ⟨c, hc, rfl⟩
    rw [List.mem_filter, List.mem_range] at hc
    refine ⟨c, hc.1, ?_, rfl⟩
    rcases canMove_zero_or_one node.gs c with h | h
    · simp [h] at hc
    · exact h
  · rintro ⟨c, hc, hcan, rfl⟩
    refine ⟨c, ?_, rfl⟩
    rw [List.mem_filter, List.mem_range]
    exact ⟨hc, by simp [hcan]⟩

theorem possibleMovesOf_ne_nil (node : GameTreeNode) (h : isDraw node.gs = 0) :
    possibleMovesOf node ≠ [] := by
  obtain ⟨x, y, hx, hy, he⟩ := (isDraw_eq_zero_iff node.gs).1 h
  have hcan : canMove node.gs x = 1 := (canMove_eq_one_iff node.gs x).2 ⟨y, hy, he⟩
  have hm := (mem_possibleMovesOf node _).2 ⟨x, hx, hcan, rfl⟩
  exact List.ne_nil_of_mem hm

theorem qsortInsert_perm (cmp : GameState → GameState → Int) (a : GameState)
    (l : List GameState) : (qsortInsert cmp a l).Perm (a :: l) := by
  induction l with
  | nil => exact List.Perm.refl _
  | cons b l ih =>
    unfold qsortInsert
    split
    · exact List.Perm.refl _
    · exact (List.Perm.cons b ih).trans (List.Perm.swap a b l)

theorem qsort_perm (cmp : GameState → GameState → Int) (l : List GameState) :
    (qsort cmp l).Perm l := by
  induction l with
  | nil => exact List.Perm.refl _
  | cons a l ih =>
    unfold qsort
    exact (qsortInsert_perm cmp a _).trans (List.Perm.cons a ih)

theorem mem_qsort (cmp : GameState → GameState → Int) (l : List GameState) (m : GameState) :
    m ∈ qsort cmp l ↔ m ∈ l := (qsort_perm cmp l).mem_iff

theorem qsort_ne_nil (cmp : GameState → GameState → Int) (l : List GameState) (h : l ≠ []) :
    qsort cmp l ≠ [] := by
  intro e
  have := (qsort_perm cmp l).length_eq
  rw [e] at this
  exact h (List.length_eq_zero.1 this.symm)

/-- The moves `getWeight` explores at a node, in exploration order. -/
theorem getWeight_succ (reuse : Bool) (n : Nat) (node : GameTreeNode) (ht : TranspositionTable) :
    getWeight reuse (n + 1) node ht =
      if gameOver node.gs then
        { toR := heuristicForState node.gs node.player node.other_player, node := node, ht := ht }
      else
        exploreMoves reuse (getWeight reuse n)
          (if node.turn ≠ 0 then qsort (ascComp node.player node.other_player) (possibleMovesOf node)
           else qsort (desComp node.player node.other_player) (possibleMovesOf node))
          node ht (if node.turn ≠ 0 then INT_MIN else INT_MAX) := rfl

theorem gameOver_false (gs : GameState) (h : gameOver gs = false) :
    getWinner gs = 0 ∧ isDraw gs = 0 := by
  unfold gameOver at h
  simpa using h

/-! ## Bounds on scores -/

theorem length_positions (gs : GameState) : (positions gs).length = gs.width * gs.height := by
  unfold positions
  induction gs.width with
  | zero => simp
  | succ n ih =>
    rw [List.range_succ, List.flatMap_append, List.length_append, ih]
    simp [Nat.succ_mul]

/-- A fold that raises one of two counters by at most one per element. -/
theorem foldl_counters {α : Type} (f : Int × Int → α → Int × Int)
    (hf : ∀ acc a, acc.1 ≤ (f acc a).1 ∧ acc.2 ≤ (f acc a).2 ∧
      (f acc a).1 + (f acc a).2 ≤ acc.1 + acc.2 + 1) :
    ∀ (l : List α) (acc : Int × Int), acc.1 ≤ (l.foldl f acc).1 ∧ acc.2 ≤ (l.foldl f acc).2 ∧
      (l.foldl f acc).1 + (l.foldl f acc).2 ≤ acc.1 + acc.2 + l.length := by
  intro l
  induction l with
  | nil => intro acc; simp
  | cons a l ih =>
    intro acc
    rw [List.foldl_cons]
    have h1 := hf acc a
    have h2 := ih (f acc a)
    simp only [List.length_cons, Nat.cast_add, Nat.cast_one]
    omega

theorem getHeuristic_bound (gs : GameState) (player other : Int) :
    -((gs.width * gs.height : Nat) : Int) ≤ getHeuristic gs player other ∧
      getHeuristic gs player other ≤ ((gs.width * gs.height : Nat) : Int) := by
  unfold getHeuristic
  have h := foldl_counters (fun (acc : Int × Int) (p : Int × Int) =>
        let winner := checkAt gs p.1 p.2
        if winner = player then (acc.1 + 1, acc.2)
        else if winner = other then (acc.1, acc.2 + 1)
        else acc)
      (by
        intro acc a
        simp only []
        split
        · simp only []; omega
        · split
          · simp only []; omega
          · omega)
      (positions gs) (0, 0)
  rw [length_positions] at h
  simp only [] at h ⊢
  omega

theorem heuristicForState_bound (gs : GameState) (player other B : Int)
    (h1 : 1000 ≤ B) (h2 : ((gs.width * gs.height : Nat) : Int) ≤ B) :
    -B ≤ heuristicForState gs player other ∧ heuristicForState gs player other ≤ B := by
  have hb := getHeuristic_bound gs player other
  unfold heuristicForState
  split
  · omega
  · simp only []
    split
    · omega
    · split
      · omega
      · omega

/-! ## The transposition table -/

theorem lookupInBin_some (k e : GameState) (bin : List (Option GameState))
    (h : lookupInBin k bin = some e) : some e ∈ bin ∧ isGameStateEqual k e ≠ 0 := by
  induction bin with
  | nil => simp [lookupInBin] at h
  | cons a bin ih =>
    cases a with
    | none => simp [lookupInBin] at h
    | some x =>
      unfold lookupInBin at h
      split at h
      · next hx =>
        cases h
        exact ⟨List.mem_cons_self _ _, hx⟩
      · exact ⟨List.mem_cons_of_mem _ (ih h).1, (ih h).2⟩

theorem lookupInTable_some (ht : TranspositionTable) (k e : GameState)
    (h : lookupInTable ht k = some e) :
    some e ∈ ht.bins (hashGameState k % TABLE_SIZE) ∧ isGameStateEqual k e ≠ 0 :=
  lookupInBin_some k e _ h

theorem addToBin_mem (k x : GameState) (bin bin' : List (Option GameState))
    (h : addToBin k bin = some bin') (hx : some x ∈ bin') :
    x = retainGameState k ∨ some x ∈ bin := by
  induction bin generalizing bin' with
  | nil => simp [addToBin] at h
  | cons a bin ih =>
    cases a with
    | none =>
      simp only [addToBin, Option.some.injEq] at h
      subst h
      rcases List.mem_cons.1 hx with h1 | h1
      · left; exact Option.some.inj h1
      · right; exact List.mem_cons_of_mem _ h1
    | some y =>
      simp only [addToBin, Option.map_eq_some'] at h
      obtain ⟨r, hr, rfl⟩ := h
      rcases List.mem_cons.1 hx with h1 | h1
      · right; rw [h1]; exact List.mem_cons_self _ _
      · rcases ih r hr h1 with h2 | h2
        · left; exact h2
        · right; exact List.mem_cons_of_mem _ h2

theorem addToTable_mem (ht : TranspositionTable) (k x : GameState) (hv : Nat)
    (hx : some x ∈ (addToTable ht k).bins hv) :
    x = retainGameState k ∨ some x ∈ ht.bins hv := by
  unfold addToTable at hx
  simp only [] at hx
  cases hb : addToBin k (ht.bins (hashGameState k % TABLE_SIZE)) with
  | none =>
    rw [hb] at hx
    exact Or.inr hx
  | some bin =>
    rw [hb] at hx
    simp only [Function.update_apply] at hx
    split at hx
    · next heq =>
      rcases addToBin_mem k x _ bin hb hx with h | h
      · exact Or.inl h
      · right; rw [heq]; exact h
    · exact Or.inr hx

theorem TableAll_newTable (P : GameState → Prop) : TableAll P newTable := by
  intro hv e he
  unfold newTable at he
  simp only [] at he
  have := List.eq_of_mem_replicate he
  cases this

theorem TableAll_addToTable (P : GameState → Prop) (ht : TranspositionTable) (k : GameState)
    (h : TableAll P ht) (hk : P (retainGameState k)) : TableAll P (addToTable ht k) := by
  intro hv e he
  rcases addToTable_mem ht k e hv he with h1 | h1
  · rw [h1]; exact hk
  · exact h hv e h1

theorem TableAll_lookup (P : GameState → Prop) (ht : TranspositionTable) (k e : GameState)
    (h : TableAll P ht) (hl : lookupInTable ht k = some e) : P e :=
  h _ e (lookupInTable_some ht k e hl).1

/-! ## The loop over the moves -/

theorem exploreMoves_cons (reuse : Bool)
    (recurse : GameTreeNode → TranspositionTable → SearchResult)
    (m : GameState) (rest : List GameState) (node : GameTreeNode) (ht : TranspositionTable)
    (best : Int) :
    exploreMoves reuse recurse (m :: rest) node ht best =
      match updateNode node best (childWeight reuse recurse node ht m).1 m.last_move with
      | none =>
        { toR := (childWeight reuse recurse node ht m).1, node := node,
          ht := addToTable (childWeight reuse recurse node ht m).2
            { m with weight := (childWeight reuse recurse node ht m).1 } }
      | some next =>
        exploreMoves reuse recurse rest next.1
          (addToTable (childWeight reuse recurse node ht m).2
            { m with weight := (childWeight reuse recurse node ht m).1 }) next.2 := rfl

theorem updateNode_min (node : GameTreeNode) (best cw lm : Int) (ht : node.turn = 0) :
    updateNode node best cw lm =
      if cw ≤ node.alpha then none
      else some ({ node with beta := if node.beta < cw then node.beta else cw,
                             best_move := if best > cw then lm else node.best_move },
                 if best > cw then cw else best) := by
  unfold updateNode
  rw [if_pos ht]
  by_cases h1 : cw ≤ node.alpha
  · rw [if_pos h1, if_pos h1]
  · rw [if_neg h1, if_neg h1]
    by_cases h2 : best > cw
    · simp only [h2, if_true]
    · simp only [h2, if_false]

theorem updateNode_max (node : GameTreeNode) (best cw lm : Int) (ht : node.turn ≠ 0) :
    updateNode node best cw lm =
      if cw ≥ node.beta then none
      else some ({ node with alpha := if node.alpha > cw then node.alpha else cw,
                             best_move := if best < cw then lm else node.best_move },
                 if best < cw then cw else best) := by
  unfold updateNode
  rw [if_neg ht]
  by_cases h1 : cw ≥ node.beta
  · rw [if_pos h1, if_pos h1]
  · rw [if_neg h1, if_neg h1]
    by_cases h2 : best < cw
    · simp only [h2, if_true]
    · simp only [h2, if_false]

/-- The loop body keeps the ids, the turn and the board of the node. -/
theorem updateNode_frame (node : GameTreeNode) (best cw lm : Int) (next : GameTreeNode × Int)
    (h : updateNode node best cw lm = some next) :
    next.1.gs = node.gs ∧ next.1.player = node.player ∧
      next.1.other_player = node.other_player ∧ next.1.turn = node.turn := by
  by_cases ht : node.turn = 0
  · rw [updateNode_min node best cw lm ht] at h
    split at h
    · cases h
    · cases h; exact ⟨rfl, rfl, rfl, rfl⟩
  · rw [updateNode_max node best cw lm ht] at h
    split at h
    · cases h
    · cases h; exact ⟨rfl, rfl, rfl, rfl⟩

/-! ## Every weight the search handles is a score -/

/-- The weight found for one move is bounded when the table entries and the recursive
results are. -/
theorem childWeight_bound (reuse : Bool)
    (recurse : GameTreeNode → TranspositionTable → SearchResult)
    (D : GameState → Prop) (player other lo hi : Int)
    (hrec : ∀ c ht, D c.gs → c.player = player → c.other_player = other →
      TableAll (WeightIn lo hi) ht →
      (lo ≤ (recurse c ht).toR ∧ (recurse c ht).toR ≤ hi) ∧
        TableAll (WeightIn lo hi) (recurse c ht).ht)
    (node : GameTreeNode) (ht : TranspositionTable) (m : GameState)
    (hp : node.player = player) (ho : node.other_player = other) (hm : D m)
    (hT : TableAll (WeightIn lo hi) ht) :
    (lo ≤ (childWeight reuse recurse node ht m).1 ∧
      (childWeight reuse recurse node ht m).1 ≤ hi) ∧
      TableAll (WeightIn lo hi) (childWeight reuse recurse node ht m).2 := by
  unfold childWeight
  cases hl : (if reuse then lookupInTable ht m else none) with
  | some e =>
    simp only []
    have he : lookupInTable ht m = some e := by
      cases reuse
      · simp at hl
      · simpa using hl
    exact ⟨TableAll_lookup _ ht m e hT he, hT⟩
  | none =>
    simp only []
    exact hrec _ ht hm hp ho hT

theorem TableAll_store (lo hi : Int) (ht : TranspositionTable) (m : GameState) (w : Int)
    (hT : TableAll (WeightIn lo hi) ht) (hw : lo ≤ w ∧ w ≤ hi) :
    TableAll (WeightIn lo hi) (addToTable ht { m with weight := w }) :=
  TableAll_addToTable _ ht _ hT hw

/-- The loop returns a bounded weight and keeps the table bounded. -/
theorem exploreMoves_bound (reuse : Bool)
    (recurse : GameTreeNode → TranspositionTable → SearchResult)
    (D : GameState → Prop) (player other lo hi : Int)
    (hlo : INT_MIN < lo) (hhi : hi < INT_MAX)
    (hrec : ∀ c ht, D c.gs → c.player = player → c.other_player = other →
      TableAll (WeightIn lo hi) ht →
      (lo ≤ (recurse c ht).toR ∧ (recurse c ht).toR ≤ hi) ∧
        TableAll (WeightIn lo hi) (recurse c ht).ht) :
    ∀ (moves : List GameState) (node : GameTreeNode) (ht : TranspositionTable) (best : Int),
      node.player = player → node.other_player = other → (∀ m ∈ moves, D m) →
      TableAll (WeightIn lo hi) ht →
      ((lo ≤ best ∧ best ≤ hi) ∨
        (moves ≠ [] ∧ best = if node.turn = 0 then INT_MAX else INT_MIN)) →
      (lo ≤ (exploreMoves reuse recurse moves node ht best).toR ∧
        (exploreMoves reuse recurse moves node ht best).toR ≤ hi) ∧
      TableAll (WeightIn lo hi) (exploreMoves reuse recurse moves node ht best).ht := by
  intro moves
  induction moves with
  | nil =>
    intro node ht best _ _ _ hT hb
    rcases hb with hb | ⟨hne, _⟩
    · exact ⟨hb, hT⟩
    · exact absurd rfl hne
  | cons m rest ih =>
    intro node ht best hp ho hD hT hb
    have hc := childWeight_bound reuse recurse D player other lo hi hrec node ht m hp ho
      (hD m (List.mem_cons_self _ _)) hT
    have hT' := TableAll_store lo hi _ m _ hc.2 hc.1
    rw [exploreMoves_cons]
    cases hu : updateNode node best (childWeight reuse recurse node ht m).1 m.last_move with
    | none => exact ⟨hc.1, hT'⟩
    | some next =>
      simp only []
      have hf := updateNode_frame node best _ _ next hu
      refine ih next.1 _ next.2 (hf.2.1.trans hp) (hf.2.2.1.trans ho)
        (fun x hx => hD x (List.mem_cons_of_mem _ hx)) hT' (Or.inl ?_)
      by_cases ht : node.turn = 0
      · rw [updateNode_min node best _ _ ht] at hu
        split at hu
        · cases hu
        · cases hu
          simp only []
          rcases hb with hb | ⟨_, hb⟩
          · split
            · exact hc.1
            · exact hb
          · rw [if_pos ht] at hb
            rw [if_pos (by rw [hb]; exact lt_of_le_of_lt hc.1.2 hhi)]
            exact hc.1
      · rw [updateNode_max node best _ _ ht] at hu
        split at hu
        · cases hu
        · cases hu
          simp only []
          rcases hb with hb | ⟨_, hb⟩
          · split
            · exact hc.1
            · exact hb
          · rw [if_neg ht] at hb
            rw [if_pos (by rw [hb]; exact lt_of_lt_of_le hlo hc.1.1)]
            exact hc.1

/-- `getWeight` returns a bounded weight and keeps the table bounded, when the scores of
all boards in `D` are bounded and `D` is closed under moves. -/
theorem getWeight_bound (reuse : Bool) (D : GameState → Prop) (player other lo hi : Int)
    (hlo : INT_MIN < lo) (hhi : hi < INT_MAX)
    (hD : ∀ g c p, D g → D (stateForMove g c p))
    (hH : ∀ g, D g → lo ≤ heuristicForState g player other ∧
      heuristicForState g player other ≤ hi) :
    ∀ (n : Nat) (node : GameTreeNode) (ht : TranspositionTable),
      D node.gs → node.player = player → node.other_player = other →
      TableAll (WeightIn lo hi) ht →
      (lo ≤ (getWeight reuse n node ht).toR ∧ (getWeight reuse n node ht).toR ≤ hi) ∧
      TableAll (WeightIn lo hi) (getWeight reuse n node ht).ht := by
  intro n
  induction n with
  | zero =>
    intro node ht hg hp ho hT
    have := hH node.gs hg
    rw [← hp, ← ho] at this
    exact ⟨this, hT⟩
  | succ n ih =>
    intro node ht hg hp ho hT
    rw [getWeight_succ]
    cases hover : gameOver node.gs with
    | true =>
      simp only [if_true]
      have := hH node.gs hg
      rw [← hp, ← ho] at this
      exact ⟨this, hT⟩
    | false =>
      simp only [Bool.false_eq_true, if_false]
      have hne := possibleMovesOf_ne_nil node (gameOver_false _ hover).2
      have hmem : ∀ cmp, ∀ m ∈ qsort cmp (possibleMovesOf node), D m := by
        intro cmp m hm
        obtain ⟨c, _, _, rfl⟩ := (mem_possibleMovesOf node m).1 ((mem_qsort cmp _ m).1 hm)
        exact hD _ _ _ hg
      by_cases hturn : node.turn = 0
      · simp only [hturn, ne_eq, not_true_eq_false, if_false]
        exact exploreMoves_bound reuse _ D player other lo hi hlo hhi ih _ node ht _ hp ho
          (hmem _) hT (Or.inr ⟨qsort_ne_nil _ _ hne, by rw [if_pos hturn]⟩)
      · simp only [ne_eq, hturn, not_false_eq_true, if_true]
        exact exploreMoves_bound reuse _ D player other lo hi hlo hhi ih _ node ht _ hp ho
          (hmem _) hT (Or.inr ⟨qsort_ne_nil _ _ hne, by rw [if_neg hturn]⟩)

/-! ## The move chosen at the root -/

/-- At a maximizing node whose `beta` is `INT_MAX` the loop never prunes, and `best_move`
ends as the `last_move` of one of the moves as soon as there is a move. -/
theorem exploreMoves_best_move (reuse : Bool)
    (recurse : GameTreeNode → TranspositionTable → SearchResult)
    (D : GameState → Prop) (Good : Int → Prop) (player other lo hi : Int)
    (hlo : INT_MIN < lo) (hhi : hi < INT_MAX)
    (hrec : ∀ c ht, D c.gs → c.player = player → c.other_player = other →
      TableAll (WeightIn lo hi) ht →
      (lo ≤ (recurse c ht).toR ∧ (recurse c ht).toR ≤ hi) ∧
        TableAll (WeightIn lo hi) (recurse c ht).ht) :
    ∀ (moves : List GameState) (node : GameTreeNode) (ht : TranspositionTable) (best : Int),
      node.player = player → node.other_player = other → node.turn ≠ 0 →
      node.beta = INT_MAX → (∀ m ∈ moves, D m ∧ Good m.last_move) →
      TableAll (WeightIn lo hi) ht →
      (Good node.best_move ∨ (moves ≠ [] ∧ best = INT_MIN)) →
      Good (exploreMoves reuse recurse moves node ht best).node.best_move := by
  intro moves
  induction moves with
  | nil =>
    intro node ht best _ _ _ _ _ _ hb
    rcases hb with hb | ⟨hne, _⟩
    · exact hb
    · exact absurd rfl hne
  | cons m rest ih =>
    intro node ht best hp ho hturn hbeta hD hT hb
    have hm := hD m (List.mem_cons_self _ _)
    have hc := childWeight_bound reuse recurse D player other lo hi hrec node ht m hp ho
      hm.1 hT
    have hT' := TableAll_store lo hi _ m _ hc.2 hc.1
    have hcut : ¬ (childWeight reuse recurse node ht m).1 ≥ node.beta := by
      rw [hbeta]
      exact not_le.2 (lt_of_le_of_lt hc.1.2 hhi)
    rw [exploreMoves_cons, updateNode_max node best _ _ hturn, if_neg hcut]
    simp only []
    refine ih _ _ _ hp ho hturn hbeta (fun x hx => hD x (List.mem_cons_of_mem _ hx)) hT'
      (Or.inl ?_)
    simp only []
    rcases hb with hb | ⟨_, hb⟩
    · split
      · exact hm.2
      · exact hb
    · rw [if_pos (by rw [hb]; exact lt_of_lt_of_le hlo hc.1.1)]
      exact hm.2

/-- The `last_move` of a state made by `stateForMove` for a column with room. -/
theorem stateForMove_last_move (gs : GameState) (hwf : gs.WF) (c p : Int)
    (hcan : canMove gs c = 1) : (stateForMove gs c p).last_move = c := by
  obtain ⟨r, hr, he, hmin⟩ := exists_lowest_empty gs c hcan
  rw [stateForMove_of_room gs hwf c p r hr he hmin]

/-- C2: on a board without a four-in-a-row and with an `EMPTY` cell, for every lookahead of
at least 1, the column `bestMoveForState` returns lies in `[0, width)` and `canMove`
accepts it. -/
theorem bestMoveForState_has_room (gs : GameState) (hwf : gs.WF)
    (hsize : gs.width * gs.height < 2147483647) (player other : Int) (look_ahead : Nat)
    (hl : 1 ≤ look_ahead)
    (hnowin : ∀ x y : Nat, x < gs.width → y < gs.height → checkAt gs x y = 0)
    (hroom : ∃ x y : Nat, x < gs.width ∧ y < gs.height ∧ at_ gs x y = EMPTY) :
    0 ≤ bestMoveForState gs player other look_ahead ∧
      bestMoveForState gs player other look_ahead < gs.width ∧
      canMove gs (bestMoveForState gs player other look_ahead) = 1 := by
  obtain ⟨n, rfl⟩ : ∃ n, look_ahead = n + 1 := ⟨look_ahead - 1, by omega⟩
  have hover : gameOver gs = false := by
    unfold gameOver
    rw [(getWinner_eq_zero_iff gs).2 hnowin, (isDraw_eq_zero_iff gs).2 hroom]
    rfl
  let B : Int := max 1000 ((gs.width * gs.height : Nat) : Int)
  have hB1 : (1000 : Int) ≤ B := le_max_left _ _
  have hB2 : ((gs.width * gs.height : Nat) : Int) ≤ B := le_max_right _ _
  have hB3 : B < 2147483647 := by
    apply max_lt
    · decide
    · exact_mod_cast hsize
  have hlo : INT_MIN < -B := by unfold INT_MIN; omega
  have hhi : B < INT_MAX := by unfold INT_MAX; omega
  let D : GameState → Prop := fun g => g.width = gs.width ∧ g.height = gs.height
  have hD : ∀ g c p, D g → D (stateForMove g c p) := by
    intro g c p hg
    have := stateForMove_dims g c p
    exact ⟨this.1.trans hg.1, this.2.trans hg.2⟩
  have hH : ∀ g, D g → -B ≤ heuristicForState g player other ∧
      heuristicForState g player other ≤ B := by
    intro g hg
    apply heuristicForState_bound g player other B hB1
    rw [hg.1, hg.2]
    exact hB2
  have hrec := getWeight_bound true D player other (-B) B hlo hhi hD hH n
  unfold bestMoveForState getBestMove
  rw [getWeight_succ]
  have hgs : (newGameTreeNode gs player other 1 INT_MIN INT_MAX).gs = gs := rfl
  rw [hgs, hover]
  simp only [Bool.false_eq_true, if_false]
  have hturn : (newGameTreeNode gs player other 1 INT_MIN INT_MAX).turn ≠ 0 := by
    show (1 : Int) ≠ 0
    decide
  rw [if_pos hturn, if_pos hturn]
  have hne : possibleMovesOf (newGameTreeNode gs player other 1 INT_MIN INT_MAX) ≠ [] :=
    possibleMovesOf_ne_nil _ ((isDraw_eq_zero_iff gs).2 hroom)
  apply exploreMoves_best_move true _ D
    (fun c => 0 ≤ c ∧ c < gs.width ∧ canMove gs c = 1) player other (-B) B hlo hhi hrec
    _ _ _ _ rfl rfl hturn rfl _ (TableAll_newTable _)
    (Or.inr ⟨qsort_ne_nil _ _ hne, rfl⟩)
  intro m hm
  obtain ⟨c, hc, hcan, rfl⟩ := (mem_possibleMovesOf _ m).1 ((mem_qsort _ _ m).1 hm)
  rw [hgs] at hc hcan ⊢
  refine ⟨hD _ _ _ ⟨rfl, rfl⟩, ?_⟩
  rw [stateForMove_last_move gs hwf _ _ hcan]
  exact ⟨by positivity, by exact_mod_cast hc, hcan⟩

set_option maxRecDepth 100000 in
/-- Instance of C2: the empty 7x6 board, player 2 against player 1, lookahead 1. -/
theorem bestMoveForState_has_room_witness :
    (newGameState 7 6).WF ∧ (newGameState 7 6).width * (newGameState 7 6).height < 2147483647 ∧
      1 ≤ 1 ∧ getWinner (newGameState 7 6) = 0 ∧ at_ (newGameState 7 6) 0 0 = EMPTY ∧
      (0 ≤ bestMoveForState (newGameState 7 6) 2 1 1 ∧
        bestMoveForState (newGameState 7 6) 2 1 1 < (newGameState 7 6).width ∧
        canMove (newGameState 7 6) (bestMoveForState (newGameState 7 6) 2 1 1) = 1) :=
  ⟨by decide!, by decide!, le_refl 1, by decide!, by decide!,
    bestMoveForState_has_room (newGameState 7 6) (by decide!) (by decide!) 2 1 1 (le_refl 1)
      ((getWinner_eq_zero_iff (newGameState 7 6)).1 (by decide!))
      ⟨0, 0, by decide, by decide, by decide!⟩⟩

/-! ## Alpha-beta against plain minimax -/

theorem foldl_max_spec (vs : List Int) (v : Int) :
    (∀ x ∈ v :: vs, x ≤ vs.foldl max v) ∧ vs.foldl max v ∈ v :: vs := by
  induction vs generalizing v with
  | nil => simp
  | cons a vs ih =>
    rw [List.foldl_cons]
    have h := ih (max v a)
    refine ⟨fun x hx => ?_, ?_⟩
    · rcases List.mem_cons.1 hx with rfl | hx
      · exact le_trans (le_max_left _ _) (h.1 _ (List.mem_cons_self _ _))
      · rcases List.mem_cons.1 hx with rfl | hx
        · exact le_trans (le_max_right _ _) (h.1 _ (List.mem_cons_self _ _))
        · exact h.1 x (List.mem_cons_of_mem _ hx)
    · rcases List.mem_cons.1 h.2 with h2 | h2
      · rw [h2]
        rcases max_choice v a with hc | hc
        · rw [hc]; exact List.mem_cons_self _ _
        · rw [hc]; exact List.mem_cons_of_mem _ (List.mem_cons_self _ _)
      · exact List.mem_cons_of_mem _ (List.mem_cons_of_mem _ h2)

theorem foldl_min_spec (vs : List Int) (v : Int) :
    (∀ x ∈ v :: vs, vs.foldl min v ≤ x) ∧ vs.foldl min v ∈ v :: vs := by
  induction vs generalizing v with
  | nil => simp
  | cons a vs ih =>
    rw [List.foldl_cons]
    have h := ih (min v a)
    refine ⟨fun x hx => ?_, ?_⟩
    · rcases List.mem_cons.1 hx with rfl | hx
      · exact le_trans (h.1 _ (List.mem_cons_self _ _)) (min_le_left _ _)
      · rcases List.mem_cons.1 hx with rfl | hx
        · exact le_trans (h.1 _ (List.mem_cons_self _ _)) (min_le_right _ _)
        · exact h.1 x (List.mem_cons_of_mem _ hx)
    · rcases List.mem_cons.1 h.2 with h2 | h2
      · rw [h2]
        rcases min_choice v a with hc | hc
        · rw [hc]; exact List.mem_cons_self _ _
        · rw [hc]; exact List.mem_cons_of_mem _ (List.mem_cons_self _ _)
      · exact List.mem_cons_of_mem _ (List.mem_cons_of_mem _ h2)


theorem childWeight_no_reuse (recurse : GameTreeNode → TranspositionTable → SearchResult)
    (node : GameTreeNode) (ht : TranspositionTable) (m : GameState) :
    (childWeight false recurse node ht m).1 =
      (recurse (newGameTreeNode m node.player node.other_player (lnot node.turn)
        node.alpha node.beta) ht).toR := rfl

/-- Soundness of the loop at a maximizing node, without reuse of table entries.  `V` is
the exact value of a move; `recurse` is assumed sound for every window. -/
theorem exploreMoves_max_sound (recurse : GameTreeNode → TranspositionTable → SearchResult)
    (V : GameState → Int) (player other turn β : Int) (hturn : turn ≠ 0)
    (hrec : ∀ (m : GameState) (α : Int) (ht : TranspositionTable), INT_MIN ≤ α → α < β →
      ((recurse (newGameTreeNode m player other (lnot turn) α β) ht).toR ≤ α →
        V m ≤ (recurse (newGameTreeNode m player other (lnot turn) α β) ht).toR) ∧
      (β ≤ (recurse (newGameTreeNode m player other (lnot turn) α β) ht).toR →
        (recurse (newGameTreeNode m player other (lnot turn) α β) ht).toR ≤ V m) ∧
      (α < (recurse (newGameTreeNode m player other (lnot turn) α β) ht).toR →
        (recurse (newGameTreeNode m player other (lnot turn) α β) ht).toR < β →
        V m = (recurse (newGameTreeNode m player other (lnot turn) α β) ht).toR)) :
    ∀ (moves : List GameState) (node : GameTreeNode) (ht : TranspositionTable) (best : Int),
      node.player = player → node.other_player = other → node.turn = turn →
      node.beta = β → INT_MIN ≤ node.alpha → node.alpha < β → best ≤ node.alpha →
      (β ≤ (exploreMoves false recurse moves node ht best).toR →
        ∃ m ∈ moves, (exploreMoves false recurse moves node ht best).toR ≤ V m) ∧
      ((exploreMoves false recurse moves node ht best).toR < β →
        best ≤ (exploreMoves false recurse moves node ht best).toR ∧
        (∀ m ∈ moves, V m ≤ (exploreMoves false recurse moves node ht best).toR) ∧
        (node.alpha < (exploreMoves false recurse moves node ht best).toR →
          ∃ m ∈ moves, V m = (exploreMoves false recurse moves node ht best).toR)) := by
  intro moves
  induction moves with
  | nil =>
    intro node ht best _ _ _ _ _ hab hbest
    refine ⟨fun h => ?_, fun _ => ⟨le_rfl, fun m hm => absurd hm (List.not_mem_nil m), fun h => ?_⟩⟩
    · exfalso
      have : (exploreMoves false recurse [] node ht best).toR = best := rfl
      omega
    · exfalso
      have : (exploreMoves false recurse [] node ht best).toR = best := rfl
      omega
  | cons m rest ih =>
    intro node ht best hp ho ht' hβ hα hab hbest
    have hr := hrec m node.alpha ht hα hab
    have hcw := childWeight_no_reuse recurse node ht m
    rw [hp, ho, ht', hβ] at hcw
    rw [← hcw] at hr
    have hturn' : node.turn ≠ 0 := by rw [ht']; exact hturn
    rw [exploreMoves_cons, updateNode_max node best _ _ hturn']
    generalize (childWeight false recurse node ht m).1 = cw at hr ⊢
    generalize addToTable (childWeight false recurse node ht m).2 { m with weight := cw } = ht2
    by_cases hcut : cw ≥ node.beta
    · rw [if_pos hcut]
      simp only []
      rw [hβ] at hcut
      exact ⟨fun _ => ⟨m, List.mem_cons_self _ _, hr.2.1 hcut⟩, fun h => absurd hcut (not_le.2 h)⟩
    · rw [if_neg hcut]
      simp only []
      have hcw_lt : cw < β := by rw [hβ] at hcut; exact not_le.1 hcut
      have hVm : V m ≤ cw := by
        by_cases h : cw ≤ node.alpha
        · exact hr.1 h
        · exact le_of_eq (hr.2.2 (not_le.1 h) hcw_lt)
      have hi := ih
        { node with alpha := if node.alpha > cw then node.alpha else cw,
                    best_move := if best < cw then m.last_move else node.best_move }
        ht2 (if best < cw then cw else best) hp ho ht' hβ
        (by simp only []; split <;> omega) (by simp only []; split <;> omega)
        (by simp only []; split <;> split <;> omega)
      generalize (exploreMoves false recurse rest
        { node with alpha := if node.alpha > cw then node.alpha else cw,
                    best_move := if best < cw then m.last_move else node.best_move }
        ht2 (if best < cw then cw else best)).toR = r at hi ⊢
      simp only [] at hi
      refine ⟨fun h => ?_, fun h => ?_⟩
      · obtain ⟨x, hx, hxr⟩ := hi.1 h
        exact ⟨x, List.mem_cons_of_mem _ hx, hxr⟩
      · obtain ⟨h1, h2, h3⟩ := hi.2 h
        have hbest' : best ≤ r ∧ cw ≤ r := by
          by_cases hb : best < cw
          · rw [if_pos hb] at h1; omega
          · rw [if_neg hb] at h1; omega
        refine ⟨hbest'.1, fun x hx => ?_, fun ha => ?_⟩
        · rcases List.mem_cons.1 hx with rfl | hx
          · omega
          · exact h2 x hx
        · by_cases hlt : (if node.alpha > cw then node.alpha else cw) < r
          · obtain ⟨x, hx, hxr⟩ := h3 hlt
            exact ⟨x, List.mem_cons_of_mem _ hx, hxr⟩
          · have hrcw : r = cw := by
              by_cases hg : node.alpha > cw
              · rw [if_pos hg] at hlt; omega
              · rw [if_neg hg] at hlt; omega
            refine ⟨m, List.mem_cons_self _ _, ?_⟩
            rw [hrcw]
            exact hr.2.2 (by omega) hcw_lt


/-- Soundness of the loop at a minimizing node, without reuse of table entries. -/
theorem exploreMoves_min_sound (recurse : GameTreeNode → TranspositionTable → SearchResult)
    (V : GameState → Int) (player other turn α : Int) (hturn : turn = 0)
    (hrec : ∀ (m : GameState) (β : Int) (ht : TranspositionTable), α < β → β ≤ INT_MAX →
      ((recurse (newGameTreeNode m player other (lnot turn) α β) ht).toR ≤ α →
        V m ≤ (recurse (newGameTreeNode m player other (lnot turn) α β) ht).toR) ∧
      (β ≤ (recurse (newGameTreeNode m player other (lnot turn) α β) ht).toR →
        (recurse (newGameTreeNode m player other (lnot turn) α β) ht).toR ≤ V m) ∧
      (α < (recurse (newGameTreeNode m player other (lnot turn) α β) ht).toR →
        (recurse (newGameTreeNode m player other (lnot turn) α β) ht).toR < β →
        V m = (recurse (newGameTreeNode m player other (lnot turn) α β) ht).toR)) :
    ∀ (moves : List GameState) (node : GameTreeNode) (ht : TranspositionTable) (best : Int),
      node.player = player → node.other_player = other → node.turn = turn →
      node.alpha = α → node.beta ≤ INT_MAX → α < node.beta → node.beta ≤ best →
      ((exploreMoves false recurse moves node ht best).toR ≤ α →
        ∃ m ∈ moves, V m ≤ (exploreMoves false recurse moves node ht best).toR) ∧
      (α < (exploreMoves false recurse moves node ht best).toR →
        (exploreMoves false recurse moves node ht best).toR ≤ best ∧
        (∀ m ∈ moves, (exploreMoves false recurse moves node ht best).toR ≤ V m) ∧
        ((exploreMoves false recurse moves node ht best).toR < node.beta →
          ∃ m ∈ moves, V m = (exploreMoves false recurse moves node ht best).toR)) := by
  intro moves
  induction moves with
  | nil =>
    intro node ht best _ _ _ _ _ hab hbest
    refine ⟨fun h => ?_, fun _ => ⟨le_rfl, fun m hm => absurd hm (List.not_mem_nil m), fun h => ?_⟩⟩
    · exfalso
      have : (exploreMoves false recurse [] node ht best).toR = best := rfl
      omega
    · exfalso
      have : (exploreMoves false recurse [] node ht best).toR = best := rfl
      omega
  | cons m rest ih =>
    intro node ht best hp ho ht' hα hβ hab hbest
    have hr := hrec m node.beta ht hab hβ
    have hcw := childWeight_no_reuse recurse node ht m
    rw [hp, ho, ht', hα] at hcw
    rw [← hcw] at hr
    have hturn' : node.turn = 0 := by rw [ht']; exact hturn
    rw [exploreMoves_cons, updateNode_min node best _ _ hturn']
    generalize (childWeight false recurse node ht m).1 = cw at hr ⊢
    generalize addToTable (childWeight false recurse node ht m).2 { m with weight := cw } = ht2
    by_cases hcut : cw ≤ node.alpha
    · rw [if_pos hcut]
      simp only []
      rw [hα] at hcut
      exact ⟨fun _ => ⟨m, List.mem_cons_self _ _, hr.1 hcut⟩, fun h => absurd hcut (not_le.2 h)⟩
    · rw [if_neg hcut]
      simp only []
      have hcw_gt : α < cw := by rw [hα] at hcut; exact not_le.1 hcut
      have hVm : cw ≤ V m := by
        by_cases h : node.beta ≤ cw
        · exact hr.2.1 h
        · exact le_of_eq (hr.2.2 hcw_gt (not_le.1 h)).symm
      have hi := ih
        { node with beta := if node.beta < cw then node.beta else cw,
                    best_move := if best > cw then m.last_move else node.best_move }
        ht2 (if best > cw then cw else best) hp ho ht' hα
        (by simp only []; split <;> omega) (by simp only []; split <;> omega)
        (by simp only []; split <;> split <;> omega)
      generalize (exploreMoves false recurse rest
        { node with beta := if node.beta < cw then node.beta else cw,
                    best_move := if best > cw then m.last_move else node.best_move }
        ht2 (if best > cw then cw else best)).toR = r at hi ⊢
      simp only [] at hi
      refine ⟨fun h => ?_, fun h => ?_⟩
      · obtain ⟨x, hx, hxr⟩ := hi.1 h
        exact ⟨x, List.mem_cons_of_mem _ hx, hxr⟩
      · obtain ⟨h1, h2, h3⟩ := hi.2 h
        have hbest' : r ≤ best ∧ r ≤ cw := by
          by_cases hb : best > cw
          · rw [if_pos hb] at h1; omega
          · rw [if_neg hb] at h1; omega
        refine ⟨hbest'.1, fun x hx => ?_, fun ha => ?_⟩
        · rcases List.mem_cons.1 hx with rfl | hx
          · omega
          · exact h2 x hx
        · by_cases hlt : r < (if node.beta < cw then node.beta else cw)
          · obtain ⟨x, hx, hxr⟩ := h3 hlt
            exact ⟨x, List.mem_cons_of_mem _ hx, hxr⟩
          · have hrcw : r = cw := by
              by_cases hg : node.beta < cw
              · rw [if_pos hg] at hlt; omega
              · rw [if_neg hg] at hlt; omega
            refine ⟨m, List.mem_cons_self _ _, ?_⟩
            rw [hrcw]
            exact hr.2.2 hcw_gt (by omega)


theorem minimax_succ (n : Nat) (gs : GameState) (player other turn : Int) :
    minimax (n + 1) gs player other turn =
      if gameOver gs then heuristicForState gs player other
      else
        match (possibleMovesOf (newGameTreeNode gs player other turn INT_MIN INT_MAX)).map
            (fun m => minimax n m player other (lnot turn)) with
        | [] => heuristicForState gs player other
        | v :: vs => if turn ≠ 0 then vs.foldl max v else vs.foldl min v := rfl

/-- At a node that is expanded, the minimax value is attained by one of the moves and
bounds the values of all moves from the side of the node. -/
theorem minimax_attained (n : Nat) (gs : GameState) (player other turn : Int)
    (hover : gameOver gs = false) :
    (∃ m ∈ possibleMovesOf (newGameTreeNode gs player other turn INT_MIN INT_MAX),
      minimax n m player other (lnot turn) = minimax (n + 1) gs player other turn) ∧
    (turn ≠ 0 → ∀ m ∈ possibleMovesOf (newGameTreeNode gs player other turn INT_MIN INT_MAX),
      minimax n m player other (lnot turn) ≤ minimax (n + 1) gs player other turn) ∧
    (turn = 0 → ∀ m ∈ possibleMovesOf (newGameTreeNode gs player other turn INT_MIN INT_MAX),
      minimax (n + 1) gs player other turn ≤ minimax n m player other (lnot turn)) := by
  have hne : possibleMovesOf (newGameTreeNode gs player other turn INT_MIN INT_MAX) ≠ [] :=
    possibleMovesOf_ne_nil _ (gameOver_false gs hover).2
  rw [minimax_succ, hover]
  simp only [Bool.false_eq_true, if_false]
  cases hl : (possibleMovesOf (newGameTreeNode gs player other turn INT_MIN INT_MAX)).map
      (fun m => minimax n m player other (lnot turn)) with
  | nil => exact absurd (List.map_eq_nil_iff.1 hl) hne
  | cons v vs =>
    simp only []
    have hmem : ∀ x, x ∈ v :: vs ↔
        ∃ m ∈ possibleMovesOf (newGameTreeNode gs player other turn INT_MIN INT_MAX),
          minimax n m player other (lnot turn) = x := by
      intro x
      rw [← hl, List.mem_map]
    by_cases ht : turn = 0
    · rw [if_neg (not_not.2 ht)]
      have hs := foldl_min_spec vs v
      refine ⟨(hmem _).1 hs.2, fun h => absurd ht h, fun _ m hm => ?_⟩
      exact hs.1 _ ((hmem _).2 ⟨m, hm, rfl⟩)
    · rw [if_pos ht]
      have hs := foldl_max_spec vs v
      refine ⟨(hmem _).1 hs.2, fun _ m hm => ?_, fun h => absurd h ht⟩
      exact hs.1 _ ((hmem _).2 ⟨m, hm, rfl⟩)

/-- Soundness of `getWeight` without reuse of table entries, for every window inside the
`int` range: a result at or below `alpha` is an upper bound of the minimax value, a result
at or above `beta` a lower bound, and a result inside the window is the minimax value. -/
theorem getWeight_sound (n : Nat) :
    ∀ (node : GameTreeNode) (ht : TranspositionTable),
      INT_MIN ≤ node.alpha → node.alpha < node.beta → node.beta ≤ INT_MAX →
      ((getWeight false n node ht).toR ≤ node.alpha →
        minimax n node.gs node.player node.other_player node.turn ≤
          (getWeight false n node ht).toR) ∧
      (node.beta ≤ (getWeight false n node ht).toR →
        (getWeight false n node ht).toR ≤
          minimax n node.gs node.player node.other_player node.turn) ∧
      (node.alpha < (getWeight false n node ht).toR →
        (getWeight false n node ht).toR < node.beta →
        minimax n node.gs node.player node.other_player node.turn =
          (getWeight false n node ht).toR) := by
  induction n with
  | zero =>
    intro node ht _ _ _
    exact ⟨fun _ => le_rfl, fun _ => le_rfl, fun _ _ => rfl⟩
  | succ n ih =>
    intro node ht hα hab hβ
    rw [getWeight_succ]
    cases hover : gameOver node.gs with
    | true =>
      have hm : minimax (n + 1) node.gs node.player node.other_player node.turn =
          heuristicForState node.gs node.player node.other_player := by
        rw [minimax_succ, hover]; rfl
      rw [hm]
      simp
    | false =>
      simp only [Bool.false_eq_true, if_false]
      have hT := minimax_attained n node.gs node.player node.other_player node.turn hover
      have hL : possibleMovesOf (newGameTreeNode node.gs node.player node.other_player
          node.turn INT_MIN INT_MAX) = possibleMovesOf node := rfl
      rw [hL] at hT
      generalize minimax (n + 1) node.gs node.player node.other_player node.turn = T at hT ⊢
      obtain ⟨⟨ms, hms, hmsT⟩, hTmax, hTmin⟩ := hT
      by_cases hturn : node.turn = 0
      · simp only [hturn, ne_eq, not_true_eq_false, if_false]
        have hs := exploreMoves_min_sound (getWeight false n)
          (fun m => minimax n m node.player node.other_player (lnot node.turn))
          node.player node.other_player node.turn node.alpha hturn
          (fun m β ht2 h1 h2 =>
            ih (newGameTreeNode m node.player node.other_player (lnot node.turn) node.alpha β)
              ht2 hα h1 h2)
          (qsort (desComp node.player node.other_player) (possibleMovesOf node))
          node ht INT_MAX rfl rfl rfl rfl hβ hab hβ
        generalize (exploreMoves false (getWeight false n)
          (qsort (desComp node.player node.other_player) (possibleMovesOf node))
          node ht INT_MAX).toR = r at hs ⊢
        simp only [mem_qsort] at hs
        have hTle : ∀ m ∈ possibleMovesOf node,
            T ≤ minimax n m node.player node.other_player (lnot node.turn) := hTmin hturn
        refine ⟨fun h => ?_, fun h => ?_, fun h1 h2 => ?_⟩
        · obtain ⟨m, hm, hmr⟩ := hs.1 h
          exact le_trans (hTle m hm) hmr
        · have := (hs.2 (by omega)).2.1 ms hms
          omega
        · have h3 := (hs.2 h1).2.1 ms hms
          obtain ⟨m, hm, hmr⟩ := (hs.2 h1).2.2 h2
          have := hTle m hm
          omega
      · simp only [ne_eq, hturn, not_false_eq_true, if_true]
        have hs := exploreMoves_max_sound (getWeight false n)
          (fun m => minimax n m node.player node.other_player (lnot node.turn))
          node.player node.other_player node.turn node.beta hturn
          (fun m α ht2 h1 h2 =>
            ih (newGameTreeNode m node.player node.other_player (lnot node.turn) α node.beta)
              ht2 h1 h2 hβ)
          (qsort (ascComp node.player node.other_player) (possibleMovesOf node))
          node ht INT_MIN rfl rfl rfl rfl hα hab hα
        generalize (exploreMoves false (getWeight false n)
          (qsort (ascComp node.player node.other_player) (possibleMovesOf node))
          node ht INT_MIN).toR = r at hs ⊢
        simp only [mem_qsort] at hs
        have hTge : ∀ m ∈ possibleMovesOf node,
            minimax n m node.player node.other_player (lnot node.turn) ≤ T := hTmax hturn
        refine ⟨fun h => ?_, fun h => ?_, fun h1 h2 => ?_⟩
        · have := (hs.2 (by omega)).2.1 ms hms
          omega
        · obtain ⟨m, hm, hmr⟩ := hs.1 h
          exact le_trans hmr (hTge m hm)
        · have h3 := (hs.2 h2).2.1 ms hms
          obtain ⟨m, hm, hmr⟩ := (hs.2 h2).2.2 h1
          have := hTge m hm
          omega

/-- The minimax value is a score: it lies between the bounds of `heuristicForState`. -/
theorem minimax_bound (D : GameState → Prop) (player other lo hi : Int)
    (hD : ∀ g c p, D g → D (stateForMove g c p))
    (hH : ∀ g, D g → lo ≤ heuristicForState g player other ∧
      heuristicForState g player other ≤ hi) :
    ∀ (n : Nat) (g : GameState) (turn : Int), D g →
      lo ≤ minimax n g player other turn ∧ minimax n g player other turn ≤ hi := by
  intro n
  induction n with
  | zero => intro g turn hg; exact hH g hg
  | succ n ih =>
    intro g turn hg
    cases hover : gameOver g with
    | true =>
      rw [minimax_succ, hover]
      exact hH g hg
    | false =>
      obtain ⟨⟨m, hm, hmT⟩, _, _⟩ := minimax_attained n g player other turn hover
      rw [← hmT]
      obtain ⟨c, _, _, rfl⟩ := (mem_possibleMovesOf _ m).1 hm
      exact ih _ _ (hD _ _ _ hg)

/-- C1: without reuse of table entries, the weight `getWeight` returns at a maximizing
root with the window `INT_MIN`, `INT_MAX` equals the value of plain depth-limited minimax,
for every board whose cell count is an `int`, all ids, every lookahead and every table. -/
theorem getWeight_eq_minimax (gs : GameState) (hsize : gs.width * gs.height < 2147483647)
    (player other : Int) (look_ahead : Nat) (ht : TranspositionTable) :
    (getWeight false look_ahead (newGameTreeNode gs player other 1 INT_MIN INT_MAX) ht).toR =
      minimax look_ahead gs player other 1 := by
  let B : Int := max 1000 ((gs.width * gs.height : Nat) : Int)
  have hB1 : (1000 : Int) ≤ B := le_max_left _ _
  have hB2 : ((gs.width * gs.height : Nat) : Int) ≤ B := le_max_right _ _
  have hB3 : B < 2147483647 := by
    apply max_lt
    · decide
    · exact_mod_cast hsize
  let D : GameState → Prop := fun g => g.width = gs.width ∧ g.height = gs.height
  have hD : ∀ g c p, D g → D (stateForMove g c p) := by
    intro g c p hg
    have := stateForMove_dims g c p
    exact ⟨this.1.trans hg.1, this.2.trans hg.2⟩
  have hH : ∀ g, D g → -B ≤ heuristicForState g player other ∧
      heuristicForState g player other ≤ B := by
    intro g hg
    apply heuristicForState_bound g player other B hB1
    rw [hg.1, hg.2]
    exact hB2
  have hT := minimax_bound D player other (-B) B hD hH look_ahead gs 1 ⟨rfl, rfl⟩
  have hs := getWeight_sound look_ahead (newGameTreeNode gs player other 1 INT_MIN INT_MAX) ht
    le_rfl (by show (-2147483648 : Int) < 2147483647; decide) le_rfl
  have e1 : (newGameTreeNode gs player other 1 INT_MIN INT_MAX).alpha = -2147483648 := rfl
  have e2 : (newGameTreeNode gs player other 1 INT_MIN INT_MAX).beta = 2147483647 := rfl
  have e3 : minimax look_ahead (newGameTreeNode gs player other 1 INT_MIN INT_MAX).gs
      (newGameTreeNode gs player other 1 INT_MIN INT_MAX).player
      (newGameTreeNode gs player other 1 INT_MIN INT_MAX).other_player
      (newGameTreeNode gs player other 1 INT_MIN INT_MAX).turn =
      minimax look_ahead gs player other 1 := rfl
  rw [e1, e2, e3] at hs
  generalize (getWeight false look_ahead
    (newGameTreeNode gs player other 1 INT_MIN INT_MAX) ht).toR = r at hs ⊢
  generalize minimax look_ahead gs player other 1 = T at hs hT ⊢
  obtain ⟨h1, h2, h3⟩ := hs
  by_cases ha : r ≤ -2147483648
  · have := h1 ha; omega
  · by_cases hb : 2147483647 ≤ r
    · have := h2 hb; omega
    · exact (h3 (by omega) (by omega)).symm

/-- Instance of C1: the empty 4x4 board at lookahead 3, player 2 against player 1. -/
theorem getWeight_eq_minimax_witness :
    (newGameState 4 4).width * (newGameState 4 4).height < 2147483647 ∧
      (getWeight false 3 (newGameTreeNode (newGameState 4 4) 2 1 1 INT_MIN INT_MAX)
        newTable).toR = minimax 3 (newGameState 4 4) 2 1 1 :=
  ⟨by decide, getWeight_eq_minimax (newGameState 4 4) (by decide) 2 1 3 newTable⟩

/-! ## Board equality -/

theorem isGameStateEqual_ne_zero_iff (a b : GameState) :
    isGameStateEqual a b ≠ 0 ↔ BoardEq a b := by
  unfold isGameStateEqual BoardEq
  by_cases h : a.width ≠ b.width ∨ a.height ≠ b.height
  · rw [if_pos h]
    simp only [ne_eq, not_true_eq_false, false_iff]
    rintro ⟨h1, h2, _⟩
    rcases h with h | h
    · exact h h1
    · exact h h2
  · rw [if_neg h]
    have h1 : a.width = b.width := by
      by_contra hc; exact h (Or.inl hc)
    have h2 : a.height = b.height := by
      by_contra hc; exact h (Or.inr hc)
    by_cases hall : (List.range (a.width * a.height)).all
        (fun i => a.board.getD i 0 == b.board.getD i 0) = true
    · rw [if_pos hall]
      simp only [ne_eq, one_ne_zero, not_false_eq_true, true_iff]
      refine ⟨h1, h2, fun i hi => ?_⟩
      rw [List.all_eq_true] at hall
      simpa using hall i (List.mem_range.2 hi)
    · rw [if_neg hall]
      simp only [ne_eq, not_true_eq_false, false_iff]
      rintro ⟨_, _, h3⟩
      apply hall
      rw [List.all_eq_true]
      intro i hi
      simpa using h3 i (List.mem_range.1 hi)

theorem boardEq_symm {a b : GameState} (h : BoardEq a b) : BoardEq b a :=
  ⟨h.1.symm, h.2.1.symm, fun i hi => (h.2.2 i (by rw [h.1, h.2.1]; exact hi)).symm⟩

theorem boardEq_trans {a b c : GameState} (h1 : BoardEq a b) (h2 : BoardEq b c) :
    BoardEq a c :=
  ⟨h1.1.trans h2.1, h1.2.1.trans h2.2.1, fun i hi =>
    (h1.2.2 i hi).trans (h2.2.2 i (by rw [← h1.1, ← h1.2.1]; exact hi))⟩

theorem BoardEq_of_fields (a b : GameState) (hw : a.width = b.width)
    (hh : a.height = b.height) (hb : a.board = b.board) : BoardEq a b :=
  ⟨hw, hh, fun i _ => by rw [hb]⟩

theorem boardEq_at {a b : GameState} (h : BoardEq a b) : at_ a = at_ b := by
  funext x y
  by_cases hoff : x < 0 ∨ y < 0 ∨ x ≥ a.width ∨ y ≥ a.height
  · rw [at_off a x y hoff, at_off b x y (by rw [← h.1, ← h.2.1]; exact hoff)]
  · have hx0 : 0 ≤ x := by omega
    have hy0 : 0 ≤ y := by omega
    have hx : x < a.width := by omega
    have hy : y < a.height := by omega
    rw [at_in a x y hx0 hy0 hx hy,
      at_in b x y hx0 hy0 (by rw [← h.1]; exact hx) (by rw [← h.2.1]; exact hy), ← h.2.1]
    exact h.2.2 _ (index_lt _ _ x y hx0 hy0 hx hy)

theorem boardEq_checkAt {a b : GameState} (h : BoardEq a b) : checkAt a = checkAt b := by
  funext x y
  unfold checkAt lineOf
  rw [boardEq_at h]

theorem boardEq_positions {a b : GameState} (h : BoardEq a b) :
    positions a = positions b := by
  unfold positions
  rw [h.1, h.2.1]

theorem boardEq_heuristic {a b : GameState} (h : BoardEq a b) (player other : Int) :
    heuristicForState a player other = heuristicForState b player other := by
  unfold heuristicForState isDraw getWinner getHeuristic
  rw [boardEq_positions h, boardEq_checkAt h, boardEq_at h]

theorem Special_congr (ms : List GameState) {a b : GameState} (h : BoardEq a b) :
    Special ms a ↔ Special ms b :=
  ⟨fun ⟨m, hm, hma⟩ => ⟨m, hm, boardEq_trans hma h⟩,
    fun ⟨m, hm, hmb⟩ => ⟨m, hm, boardEq_trans hmb (boardEq_symm h)⟩⟩

/-- Storing a state with a weight: what the table keeps is board-equal to the state. -/
theorem BoardEq_stored (g : GameState) (w : Int) :
    BoardEq (retainGameState { g with weight := w }) g :=
  BoardEq_of_fields _ _ rfl rfl rfl

/-! ## Scores for player 2 against player 1 -/

theorem heuristicForState_two_one (gs : GameState) :
    heuristicForState gs 2 1 =
      if isDraw gs ≠ 0 then 0 else if getWinner gs = 0 then 0 else -1000 := by
  rw [heuristicForState_cases gs 2 1 (by decide) (by decide)]
  simp

theorem heuristicForState_two_one_range (gs : GameState) :
    -1000 ≤ heuristicForState gs 2 1 ∧ heuristicForState gs 2 1 ≤ 0 := by
  rw [heuristicForState_two_one]
  split
  · omega
  · split <;> omega

theorem getWinner_of_noLineScan (gs : GameState) (h : noLineScan gs = true) :
    getWinner gs = 0 := by
  rw [getWinner_eq_zero_iff]
  intro x y hx hy
  unfold noLineScan at h
  rw [List.all_eq_true] at h
  have h1 := h ((x : Int), (y : Int)) ((mem_positions gs _).2 ⟨x, y, hx, hy, rfl⟩)
  simp only [Bool.or_eq_true, beq_iff_eq] at h1
  rcases h1 with h1 | h1
  · rcases checkAt_zero_or_at gs x y with h2 | h2
    · exact h2
    · exact absurd h1 h2.2.1
  · exact h1

theorem heuristicForState_of_noLineScan (gs : GameState) (h : noLineScan gs = true) :
    heuristicForState gs 2 1 = 0 := by
  rw [heuristicForState_two_one, getWinner_of_noLineScan gs h]
  simp

/-- Sorting a list in which no element compares greater than another leaves it as it is. -/
theorem qsort_of_all_le (cmp : GameState → GameState → Int) (l : List GameState)
    (h : ∀ a ∈ l, ∀ b ∈ l, cmp a b ≤ 0) : qsort cmp l = l := by
  induction l with
  | nil => rfl
  | cons a l ih =>
    unfold qsort
    rw [ih (fun x hx y hy => h x (List.mem_cons_of_mem _ hx) y (List.mem_cons_of_mem _ hy))]
    cases l with
    | nil => rfl
    | cons b l =>
      unfold qsortInsert
      rw [if_pos (h a (List.mem_cons_self _ _) b
        (List.mem_cons_of_mem _ (List.mem_cons_self _ _)))]

/-! ## A search of depth two that looks its moves up in the table -/

theorem TableAll_mono (P Q : GameState → Prop) (ht : TranspositionTable)
    (h : ∀ e, P e → Q e) (hT : TableAll P ht) : TableAll Q ht :=
  fun hv e he => h e (hT hv e he)

theorem lookupInTable_newTable (k : GameState) : lookupInTable newTable k = none := by
  unfold lookupInTable newTable
  rfl

theorem EntryOK_bounded (ms : List GameState) (player other lo hi : Int) (hlh : lo ≤ hi)
    (hH : ∀ g, lo ≤ heuristicForState g player other ∧ heuristicForState g player other ≤ hi)
    (e : GameState) (h : EntryOK ms player other lo e) : WeightIn lo hi e := by
  unfold WeightIn
  by_cases hs : Special ms e
  · rw [h.1 hs]; exact ⟨le_rfl, hlh⟩
  · rw [h.2 hs]; exact hH e

theorem EntryOK_store_leaf (ms : List GameState) (player other lo : Int)
    (ht : TranspositionTable) (g : GameState)
    (hT : TableAll (EntryOK ms player other lo) ht) (hg : ¬ Special ms g) :
    TableAll (EntryOK ms player other lo)
      (addToTable ht { g with weight := heuristicForState g player other }) := by
  apply TableAll_addToTable _ ht _ hT
  have hb := BoardEq_stored g (heuristicForState g player other)
  refine ⟨fun hs => absurd ((Special_congr ms hb).1 hs) hg, fun _ => ?_⟩
  rw [boardEq_heuristic hb]
  rfl

theorem EntryOK_store_special (ms : List GameState) (player other lo : Int)
    (ht : TranspositionTable) (m : GameState)
    (hT : TableAll (EntryOK ms player other lo) ht) (hm : Special ms m) :
    TableAll (EntryOK ms player other lo) (addToTable ht { m with weight := lo }) := by
  apply TableAll_addToTable _ ht _ hT
  have hb := BoardEq_stored m lo
  exact ⟨fun _ => rfl, fun hs => absurd ((Special_congr ms hb).2 hm) hs⟩

/-- At remaining depth 0 a move that is not special gets its static score, whether the
table has an entry for it or not, and the table is not changed by the evaluation. -/
theorem childWeight_leaf (ms : List GameState) (player other lo : Int)
    (node : GameTreeNode) (ht : TranspositionTable) (g : GameState)
    (hp : node.player = player) (ho : node.other_player = other)
    (hT : TableAll (EntryOK ms player other lo) ht) (hg : ¬ Special ms g) :
    childWeight true (getWeight true 0) node ht g = (heuristicForState g player other, ht) := by
  unfold childWeight
  simp only [if_true]
  cases hl : lookupInTable ht g with
  | none =>
    simp only []
    rw [← hp, ← ho]
    rfl
  | some e =>
    simp only []
    have hl' := lookupInTable_some ht g e hl
    have hb : BoardEq g e := (isGameStateEqual_ne_zero_iff g e).1 hl'.2
    have he := hT _ e hl'.1
    have hne : ¬ Special ms e := fun hs => hg ((Special_congr ms hb).2 hs)
    rw [he.2 hne, boardEq_heuristic hb]

/-- The loop of a minimizing node at remaining depth 1 whose moves are not special: the
table keeps its invariant, a move with a score of at most `v` forces the result down to
`v` when `alpha` is at most `v`, and the result is at least `v` when every score is. -/
theorem exploreMoves_leaves_min (ms : List GameState) (player other lo : Int) :
    ∀ (moves : List GameState) (node : GameTreeNode) (ht : TranspositionTable) (best : Int),
      node.turn = 0 → node.player = player → node.other_player = other →
      TableAll (EntryOK ms player other lo) ht → (∀ g ∈ moves, ¬ Special ms g) →
      TableAll (EntryOK ms player other lo)
        (exploreMoves true (getWeight true 0) moves node ht best).ht ∧
      ((exploreMoves true (getWeight true 0) moves node ht best).toR ≤ best ∨
        (exploreMoves true (getWeight true 0) moves node ht best).toR ≤ node.alpha) ∧
      (∀ v : Int, (∃ g ∈ moves, heuristicForState g player other ≤ v) → node.alpha ≤ v →
        (exploreMoves true (getWeight true 0) moves node ht best).toR ≤ v) ∧
      (∀ v : Int, (∀ g ∈ moves, v ≤ heuristicForState g player other) → v ≤ best →
        v ≤ (exploreMoves true (getWeight true 0) moves node ht best).toR) := by
  intro moves
  induction moves with
  | nil =>
    intro node ht best _ _ _ hT _
    refine ⟨hT, Or.inl le_rfl, fun v hv _ => ?_, fun v _ hb => hb⟩
    obtain ⟨g, hg, _⟩ := hv
    exact absurd hg (List.not_mem_nil g)
  | cons g rest ih =>
    intro node ht best hturn hp ho hT hns
    have hg := hns g (List.mem_cons_self _ _)
    have hcw := childWeight_leaf ms player other lo node ht g hp ho hT hg
    have hT' := EntryOK_store_leaf ms player other lo ht g hT hg
    rw [exploreMoves_cons, hcw, updateNode_min node best _ _ hturn]
    simp only []
    by_cases hcut : heuristicForState g player other ≤ node.alpha
    · rw [if_pos hcut]
      simp only []
      refine ⟨hT', Or.inr hcut, fun v _ hv => le_trans hcut hv, fun v hv _ => ?_⟩
      exact hv g (List.mem_cons_self _ _)
    · rw [if_neg hcut]
      simp only []
      have hi := ih
        { node with
            beta := if node.beta < heuristicForState g player other then node.beta
              else heuristicForState g player other,
            best_move := if best > heuristicForState g player other then g.last_move
              else node.best_move }
        (addToTable ht { g with weight := heuristicForState g player other })
        (if best > heuristicForState g player other then heuristicForState g player other
          else best)
        hturn hp ho hT' (fun x hx => hns x (List.mem_cons_of_mem _ hx))
      generalize (exploreMoves true (getWeight true 0) rest
        { node with
            beta := if node.beta < heuristicForState g player other then node.beta
              else heuristicForState g player other,
            best_move := if best > heuristicForState g player other then g.last_move
              else node.best_move }
        (addToTable ht { g with weight := heuristicForState g player other })
        (if best > heuristicForState g player other then heuristicForState g player other
          else best)) = r at hi ⊢
      simp only [] at hi
      obtain ⟨h1, h2, h3, h4⟩ := hi
      have hbest : (if best > heuristicForState g player other
          then heuristicForState g player other else best) ≤ best ∧
          (if best > heuristicForState g player other
          then heuristicForState g player other else best) ≤
            heuristicForState g player other := by
        split <;> omega
      refine ⟨h1, ?_, fun v hv hα => ?_, fun v hv hb => ?_⟩
      · rcases h2 with h2 | h2
        · exact Or.inl (le_trans h2 hbest.1)
        · exact Or.inr h2
      · obtain ⟨x, hx, hxv⟩ := hv
        rcases List.mem_cons.1 hx with rfl | hx
        · rcases h2 with h2 | h2
          · exact le_trans h2 (le_trans hbest.2 hxv)
          · exact le_trans h2 hα
        · exact h3 v ⟨x, hx, hxv⟩ hα
      · apply h4 v (fun x hx => hv x (List.mem_cons_of_mem _ hx))
        have := hv g (List.mem_cons_self _ _)
        split <;> omega

/-- The node-level form of `exploreMoves_leaves_min`: `getWeight` at remaining depth 1 on a
minimizing node whose board is not over. -/
theorem getWeight_one_min (ms : List GameState) (player other lo : Int)
    (node : GameTreeNode) (ht : TranspositionTable)
    (hturn : node.turn = 0) (hp : node.player = player) (ho : node.other_player = other)
    (hover : gameOver node.gs = false)
    (hT : TableAll (EntryOK ms player other lo) ht)
    (hns : ∀ g ∈ possibleMovesOf node, ¬ Special ms g) :
    TableAll (EntryOK ms player other lo) (getWeight true 1 node ht).ht ∧
      (∀ v : Int, (∃ g ∈ possibleMovesOf node, heuristicForState g player other ≤ v) →
        node.alpha ≤ v → (getWeight true 1 node ht).toR ≤ v) ∧
      (∀ v : Int, (∀ g ∈ possibleMovesOf node, v ≤ heuristicForState g player other) →
        v ≤ INT_MAX → v ≤ (getWeight true 1 node ht).toR) := by
  rw [getWeight_succ, hover]
  simp only [Bool.false_eq_true, if_false, hturn, ne_eq, not_true_eq_false]
  have h := exploreMoves_leaves_min ms player other lo
    (qsort (desComp node.player node.other_player) (possibleMovesOf node)) node ht INT_MAX
    hturn hp ho hT (fun g hg => hns g ((mem_qsort _ _ g).1 hg))
  simp only [mem_qsort] at h
  exact ⟨h.1, h.2.2.1, h.2.2.2⟩

theorem boardEq_refl (a : GameState) : BoardEq a a := BoardEq_of_fields a a rfl rfl rfl

theorem lnot_of_ne_zero (x : Int) (h : x ≠ 0) : lnot x = 0 := by
  unfold lnot
  rw [if_neg h]

/-- Once `best_weight` has reached the largest score, a maximizing node whose `beta` is
`INT_MAX` keeps its `best_move` to the end of the loop. -/
theorem exploreMoves_stays (reuse : Bool)
    (recurse : GameTreeNode → TranspositionTable → SearchResult)
    (D : GameState → Prop) (player other lo hi : Int) (hhi : hi < INT_MAX)
    (hrec : ∀ c ht, D c.gs → c.player = player → c.other_player = other →
      TableAll (WeightIn lo hi) ht →
      (lo ≤ (recurse c ht).toR ∧ (recurse c ht).toR ≤ hi) ∧
        TableAll (WeightIn lo hi) (recurse c ht).ht) :
    ∀ (moves : List GameState) (node : GameTreeNode) (ht : TranspositionTable) (best : Int),
      node.player = player → node.other_player = other → node.turn ≠ 0 →
      node.beta = INT_MAX → (∀ m ∈ moves, D m) → TableAll (WeightIn lo hi) ht → hi ≤ best →
      (exploreMoves reuse recurse moves node ht best).node.best_move = node.best_move := by
  intro moves
  induction moves with
  | nil => intro node ht best _ _ _ _ _ _ _; rfl
  | cons m rest ih =>
    intro node ht best hp ho hturn hbeta hD hT hb
    have hc := childWeight_bound reuse recurse D player other lo hi hrec node ht m hp ho
      (hD m (List.mem_cons_self _ _)) hT
    have hT' := TableAll_store lo hi _ m _ hc.2 hc.1
    have hcut : ¬ (childWeight reuse recurse node ht m).1 ≥ node.beta := by
      rw [hbeta]
      exact not_le.2 (lt_of_le_of_lt hc.1.2 hhi)
    have hnb : ¬ best < (childWeight reuse recurse node ht m).1 :=
      not_lt.2 (le_trans hc.1.2 hb)
    rw [exploreMoves_cons, updateNode_max node best _ _ hturn, if_neg hcut]
    simp only [if_neg hnb]
    exact ih _ _ _ hp ho hturn hbeta (fun x hx => hD x (List.mem_cons_of_mem _ hx)) hT' hb

/-- A root move that is special and allows a reply with the lowest score gets the lowest
score at remaining depth 1, from the table or from the recursion. -/
theorem childWeight_loss (ms : List GameState) (player other lo hi : Int)
    (hlh : lo ≤ hi) (hlo : INT_MIN < lo) (hhi : hi < INT_MAX)
    (hH : ∀ g, lo ≤ heuristicForState g player other ∧ heuristicForState g player other ≤ hi)
    (node : GameTreeNode) (ht : TranspositionTable) (m : GameState)
    (hturn : node.turn ≠ 0) (hp : node.player = player) (ho : node.other_player = other)
    (hα : node.alpha ≤ lo) (hT : TableAll (EntryOK ms player other lo) ht)
    (hm : Special ms m) (hover : gameOver m = false)
    (hns : ∀ c : Nat, c < m.width → canMove m c = 1 → ¬ Special ms (stateForMove m c other))
    (hloss : ∃ c : Nat, c < m.width ∧ canMove m c = 1 ∧
      heuristicForState (stateForMove m c other) player other ≤ lo) :
    (childWeight true (getWeight true 1) node ht m).1 = lo ∧
      TableAll (EntryOK ms player other lo)
        (addToTable (childWeight true (getWeight true 1) node ht m).2
          { m with weight := lo }) := by
  unfold childWeight
  simp only [if_true]
  cases hl : lookupInTable ht m with
  | some e =>
    simp only []
    have hl' := lookupInTable_some ht m e hl
    have hb : BoardEq m e := (isGameStateEqual_ne_zero_iff m e).1 hl'.2
    exact ⟨(hT _ e hl'.1).1 ((Special_congr ms hb).1 hm),
      EntryOK_store_special ms player other lo ht m hT hm⟩
  | none =>
    simp only []
    have hct : (newGameTreeNode m node.player node.other_player (lnot node.turn)
        node.alpha node.beta).turn = 0 := lnot_of_ne_zero _ hturn
    have hmem : ∀ g, g ∈ possibleMovesOf (newGameTreeNode m node.player node.other_player
        (lnot node.turn) node.alpha node.beta) ↔
        ∃ c : Nat, c < m.width ∧ canMove m c = 1 ∧ g = stateForMove m c other := by
      intro g
      rw [mem_possibleMovesOf, hct]
      simp only [ne_eq, not_true_eq_false, if_false]
      rw [← ho]
      rfl
    have h1 := getWeight_one_min ms player other lo _ ht hct hp ho hover hT
      (fun g hg => by
        obtain ⟨c, hc, hcan, rfl⟩ := (hmem g).1 hg
        exact hns c hc hcan)
    have h2 := getWeight_bound true (fun _ => True) player other lo hi hlo hhi
      (fun _ _ _ _ => trivial) (fun g _ => hH g) 1
      (newGameTreeNode m node.player node.other_player (lnot node.turn) node.alpha node.beta)
      ht trivial hp ho
      (TableAll_mono _ _ ht (EntryOK_bounded ms player other lo hi hlh hH) hT)
    have h3 : (getWeight true 1 (newGameTreeNode m node.player node.other_player
        (lnot node.turn) node.alpha node.beta) ht).toR ≤ lo := by
      apply h1.2.1 lo _ hα
      obtain ⟨c, hc, hcan, hle⟩ := hloss
      exact ⟨_, (hmem _).2 ⟨c, hc, hcan, rfl⟩, hle⟩
    have h4 : (getWeight true 1 (newGameTreeNode m node.player node.other_player
        (lnot node.turn) node.alpha node.beta) ht).toR = lo := le_antisymm h3 h2.1.1
    exact ⟨h4, EntryOK_store_special ms player other lo _ m h1.1 hm⟩

/-- A root move that is not special, has the highest score and only allows replies with
the highest score gets the highest score at remaining depth 1. -/
theorem childWeight_hold (ms : List GameState) (player other lo hi : Int)
    (hlh : lo ≤ hi) (hlo : INT_MIN < lo) (hhi : hi < INT_MAX)
    (hH : ∀ g, lo ≤ heuristicForState g player other ∧ heuristicForState g player other ≤ hi)
    (node : GameTreeNode) (ht : TranspositionTable) (m : GameState)
    (hturn : node.turn ≠ 0) (hp : node.player = player) (ho : node.other_player = other)
    (hT : TableAll (EntryOK ms player other lo) ht)
    (hm : ¬ Special ms m) (hHm : heuristicForState m player other = hi)
    (hover : gameOver m = false)
    (hch : ∀ c : Nat, c < m.width → canMove m c = 1 →
      ¬ Special ms (stateForMove m c other) ∧
        hi ≤ heuristicForState (stateForMove m c other) player other) :
    (childWeight true (getWeight true 1) node ht m).1 = hi ∧
      TableAll (WeightIn lo hi)
        (addToTable (childWeight true (getWeight true 1) node ht m).2
          { m with weight := hi }) := by
  have hmono := EntryOK_bounded ms player other lo hi hlh hH
  unfold childWeight
  simp only [if_true]
  cases hl : lookupInTable ht m with
  | some e =>
    simp only []
    have hl' := lookupInTable_some ht m e hl
    have hb : BoardEq m e := (isGameStateEqual_ne_zero_iff m e).1 hl'.2
    have hne : ¬ Special ms e := fun hs => hm ((Special_congr ms hb).2 hs)
    refine ⟨?_, TableAll_store lo hi ht m hi (TableAll_mono _ _ ht hmono hT) ⟨hlh, le_rfl⟩⟩
    rw [(hT _ e hl'.1).2 hne, ← boardEq_heuristic hb, hHm]
  | none =>
    simp only []
    have hct : (newGameTreeNode m node.player node.other_player (lnot node.turn)
        node.alpha node.beta).turn = 0 := lnot_of_ne_zero _ hturn
    have hmem : ∀ g, g ∈ possibleMovesOf (newGameTreeNode m node.player node.other_player
        (lnot node.turn) node.alpha node.beta) ↔
        ∃ c : Nat, c < m.width ∧ canMove m c = 1 ∧ g = stateForMove m c other := by
      intro g
      rw [mem_possibleMovesOf, hct]
      simp only [ne_eq, not_true_eq_false, if_false]
      rw [← ho]
      rfl
    have h1 := getWeight_one_min ms player other lo _ ht hct hp ho hover hT
      (fun g hg => by
        obtain ⟨c, hc, hcan, rfl⟩ := (hmem g).1 hg
        exact (hch c hc hcan).1)
    have h2 := getWeight_bound true (fun _ => True) player other lo hi hlo hhi
      (fun _ _ _ _ => trivial) (fun g _ => hH g) 1
      (newGameTreeNode m node.player node.other_player (lnot node.turn) node.alpha node.beta)
      ht trivial hp ho (TableAll_mono _ _ ht hmono hT)
    have h3 : hi ≤ (getWeight true 1 (newGameTreeNode m node.player node.other_player
        (lnot node.turn) node.alpha node.beta) ht).toR := by
      apply h1.2.2 hi _ (le_of_lt hhi)
      intro g hg
      obtain ⟨c, hc, hcan, rfl⟩ := (hmem g).1 hg
      exact (hch c hc hcan).2
    have h4 : (getWeight true 1 (newGameTreeNode m node.player node.other_player
        (lnot node.turn) node.alpha node.beta) ht).toR = hi := le_antisymm h2.1.2 h3
    exact ⟨h4, TableAll_store lo hi _ m hi h2.2 ⟨hlh, le_rfl⟩⟩


/-- The root loop at lookahead 2 passes over a run of moves that all get the lowest score:
afterwards `alpha` and `best_weight` are still at most that score. -/
theorem exploreMoves_skip_losses (ms : List GameState) (player other lo hi : Int)
    (hlh : lo ≤ hi) (hlo : INT_MIN < lo) (hhi : hi < INT_MAX)
    (hH : ∀ g, lo ≤ heuristicForState g player other ∧ heuristicForState g player other ≤ hi)
    (rest : List GameState) :
    ∀ (pre : List GameState) (node : GameTreeNode) (ht : TranspositionTable) (best : Int),
      node.turn ≠ 0 → node.player = player → node.other_player = other →
      node.beta = INT_MAX → node.alpha ≤ lo → best ≤ lo →
      TableAll (EntryOK ms player other lo) ht →
      (∀ m ∈ pre, Special ms m ∧ gameOver m = false ∧
        (∀ c : Nat, c < m.width → canMove m c = 1 →
          ¬ Special ms (stateForMove m c other)) ∧
        (∃ c : Nat, c < m.width ∧ canMove m c = 1 ∧
          heuristicForState (stateForMove m c other) player other ≤ lo)) →
      ∃ (node2 : GameTreeNode) (ht2 : TranspositionTable) (best2 : Int),
        node2.turn ≠ 0 ∧ node2.player = player ∧ node2.other_player = other ∧
        node2.beta = INT_MAX ∧ node2.alpha ≤ lo ∧ best2 ≤ lo ∧
        TableAll (EntryOK ms player other lo) ht2 ∧
        exploreMoves true (getWeight true 1) (pre ++ rest) node ht best =
          exploreMoves true (getWeight true 1) rest node2 ht2 best2 := by
  intro pre
  induction pre with
  | nil =>
    intro node ht best h1 h2 h3 h4 h5 h6 h7 _
    exact ⟨node, ht, best, h1, h2, h3, h4, h5, h6, h7, rfl⟩
  | cons m pre ih =>
    intro node ht best hturn hp ho hbeta hα hbest hT hpre
    obtain ⟨hms, hover, hns, hloss⟩ := hpre m (List.mem_cons_self _ _)
    have hc := childWeight_loss ms player other lo hi hlh hlo hhi hH node ht m hturn hp ho hα
      hT hms hover hns hloss
    have hcut : ¬ lo ≥ node.beta := by
      rw [hbeta]
      exact not_le.2 (lt_of_le_of_lt hlh hhi)
    rw [List.cons_append, exploreMoves_cons, hc.1, updateNode_max node best _ _ hturn,
      if_neg hcut]
    simp only []
    exact ih _ _ _ hturn hp ho hbeta (by simp only []; split <;> omega)
      (by split <;> omega) hc.2 (fun x hx => hpre x (List.mem_cons_of_mem _ hx))

/-- The root loop at lookahead 2 returns the move that is explored after a run of moves
with the lowest score and that itself gets the highest score. -/
theorem exploreMoves_blocks (pre post : List GameState) (mstar : GameState)
    (player other lo hi : Int)
    (hlh : lo < hi) (hlo : INT_MIN < lo) (hhi : hi < INT_MAX)
    (hH : ∀ g, lo ≤ heuristicForState g player other ∧ heuristicForState g player other ≤ hi)
    (gs : GameState)
    (hpre : ∀ m ∈ pre, gameOver m = false ∧
      (∀ c : Nat, c < m.width → canMove m c = 1 →
        ¬ Special pre (stateForMove m c other)) ∧
      (∃ c : Nat, c < m.width ∧ canMove m c = 1 ∧
        heuristicForState (stateForMove m c other) player other ≤ lo))
    (hm : ¬ Special pre mstar) (hHm : heuristicForState mstar player other = hi)
    (hover : gameOver mstar = false)
    (hch : ∀ c : Nat, c < mstar.width → canMove mstar c = 1 →
      ¬ Special pre (stateForMove mstar c other) ∧
        hi ≤ heuristicForState (stateForMove mstar c other) player other) :
    (exploreMoves true (getWeight true 1) (pre ++ mstar :: post)
      (newGameTreeNode gs player other 1 INT_MIN INT_MAX) newTable INT_MIN).node.best_move =
      mstar.last_move := by
  obtain ⟨node2, ht2, best2, h1, h2, h3, h4, h5, h6, h7, heq⟩ :=
    exploreMoves_skip_losses pre player other lo hi (le_of_lt hlh) hlo hhi hH (mstar :: post)
      pre (newGameTreeNode gs player other 1 INT_MIN INT_MAX) newTable INT_MIN
      (by show (1 : Int) ≠ 0; decide) rfl rfl rfl (le_of_lt hlo) (le_of_lt hlo)
      (TableAll_newTable _)
      (fun m hmem => ⟨⟨m, hmem, boardEq_refl m⟩, hpre m hmem⟩)
  rw [heq]
  have hc := childWeight_hold pre player other lo hi (le_of_lt hlh) hlo hhi hH node2 ht2 mstar
    h1 h2 h3 h7 hm hHm hover hch
  have hcut : ¬ hi ≥ node2.beta := by
    rw [h4]
    exact not_le.2 hhi
  rw [exploreMoves_cons, hc.1, updateNode_max node2 best2 _ _ h1, if_neg hcut]
  simp only [if_pos (lt_of_le_of_lt h6 hlh)]
  exact exploreMoves_stays true (getWeight true 1) (fun _ => True) player other lo hi hhi
    (fun c ht _ hp ho hT => getWeight_bound true (fun _ => True) player other lo hi hlo hhi
      (fun _ _ _ _ => trivial) (fun g _ => hH g) 1 c ht trivial hp ho hT)
    post _ _ hi h2 h3 h1 h4 (fun _ _ => trivial) hc.2 le_rfl

/-- The search that `bestMoveForState` runs. -/
theorem bestMoveForState_eq (gs : GameState) (player other : Int) (look_ahead : Nat) :
    bestMoveForState gs player other look_ahead =
      (getWeight true look_ahead (newGameTreeNode gs player other 1 INT_MIN INT_MAX)
        newTable).node.best_move := rfl

/-- The root loop of `getWeight` on a board that is not over. -/
theorem getWeight_root (gs : GameState) (player other : Int) (n : Nat)
    (hover : gameOver gs = false) :
    getWeight true (n + 1) (newGameTreeNode gs player other 1 INT_MIN INT_MAX) newTable =
      exploreMoves true (getWeight true n)
        (qsort (ascComp player other)
          (possibleMovesOf (newGameTreeNode gs player other 1 INT_MIN INT_MAX)))
        (newGameTreeNode gs player other 1 INT_MIN INT_MAX) newTable INT_MIN := by
  rw [getWeight_succ]
  have hgs : (newGameTreeNode gs player other 1 INT_MIN INT_MAX).gs = gs := rfl
  have hturn : (newGameTreeNode gs player other 1 INT_MIN INT_MAX).turn ≠ 0 := by
    show (1 : Int) ≠ 0
    decide
  rw [hgs, hover]
  simp only [Bool.false_eq_true, if_false]
  rw [if_pos hturn, if_pos hturn]
  rfl

set_option maxRecDepth 1000000 in
theorem threeInRow_columns :
    (List.range threeInRow.width).filter (fun (c : Nat) => canMove threeInRow c != 0) =
      [0, 1, 2, 3, 4, 5, 6] := by
  decide!

theorem threeInRow_moves :
    possibleMovesOf (newGameTreeNode threeInRow 2 1 1 INT_MIN INT_MAX) =
      [blockMove 0, blockMove 1, blockMove 2, blockMove 3, blockMove 4, blockMove 5,
        blockMove 6] := by
  have h : possibleMovesOf (newGameTreeNode threeInRow 2 1 1 INT_MIN INT_MAX) =
      ((List.range threeInRow.width).filter (fun (c : Nat) => canMove threeInRow c != 0)).map
        blockMove := rfl
  rw [h, threeInRow_columns]
  rfl

set_option maxRecDepth 1000000 in
theorem threeInRow_not_over : gameOver threeInRow = false := by
  have h1 : getWinner threeInRow = 0 := getWinner_of_noLineScan _ (by decide!)
  have h2 : isDraw threeInRow = 0 := by decide!
  unfold gameOver
  rw [h1, h2]
  rfl

set_option maxRecDepth 1000000 in
theorem blockMove_noLine : ∀ k ∈ List.range 7, noLineScan (blockMove k) = true := by
  decide!

set_option maxRecDepth 1000000 in
theorem blockMove_room : ∀ k ∈ List.range 7, isDraw (blockMove k) = 0 := by
  decide!

theorem blockMove_width (k : Nat) : (blockMove k).width = 7 :=
  (stateForMove_dims threeInRow k 2).1

theorem blockMove_score (k : Nat) (hk : k < 7) : heuristicForState (blockMove k) 2 1 = 0 :=
  heuristicForState_of_noLineScan _ (blockMove_noLine k (List.mem_range.2 hk))

theorem blockMove_not_over (k : Nat) (hk : k < 7) : gameOver (blockMove k) = false := by
  unfold gameOver
  rw [getWinner_of_noLineScan _ (blockMove_noLine k (List.mem_range.2 hk)),
    blockMove_room k (List.mem_range.2 hk)]
  rfl

theorem threeInRow_sorted :
    qsort (ascComp 2 1) [blockMove 0, blockMove 1, blockMove 2, blockMove 3, blockMove 4,
      blockMove 5, blockMove 6] =
      [blockMove 0, blockMove 1, blockMove 2, blockMove 3, blockMove 4, blockMove 5,
        blockMove 6] := by
  apply qsort_of_all_le
  have hall : ∀ a ∈ [blockMove 0, blockMove 1, blockMove 2, blockMove 3, blockMove 4,
      blockMove 5, blockMove 6], heuristicForState a 2 1 = 0 := by
    intro a ha
    simp only [List.mem_cons, List.mem_singleton, List.not_mem_nil, or_false] at ha
    rcases ha with rfl | rfl | rfl | rfl | rfl | rfl | rfl <;>
      exact blockMove_score _ (by decide)
  intro a ha b hb
  unfold ascComp
  rw [hall a ha, hall b hb]
  decide

set_option maxRecDepth 1000000 in
/-- After a move of player 2 into column 0, 1 or 2, player 1 can complete row 0 in
column 3. -/
theorem blockMove_loses : ∀ k ∈ List.range 3,
    canMove (blockMove k) 3 = 1 ∧
      heuristicForState (stateForMove (blockMove k) 3 1) 2 1 = -1000 := by
  decide!

set_option maxRecDepth 1000000 in
/-- After the move of player 2 into column 3 no reply of player 1 makes a line. -/
theorem blockMove_three_holds : ∀ c ∈ List.range 7,
    noLineScan (stateForMove (blockMove 3) (c : Nat) 1) = true := by
  decide!

set_option maxRecDepth 1000000 in
/-- No reply to one of the first four root moves is board-equal to one of the first three
root moves. -/
theorem blockMove_replies_differ : ∀ k ∈ List.range 4, ∀ c ∈ List.range 7, ∀ i ∈ List.range 3,
    isGameStateEqual (blockMove i) (stateForMove (blockMove k) (c : Nat) 1) = 0 := by
  decide!

set_option maxRecDepth 1000000 in
theorem blockMove_three_differs : ∀ i ∈ List.range 3,
    isGameStateEqual (blockMove i) (blockMove 3) = 0 := by
  decide!

set_option maxRecDepth 1000000 in
theorem blockMove_last_move : (blockMove 0).last_move = 0 ∧ (blockMove 3).last_move = 3 := by
  decide!

theorem not_special_of_differ (g : GameState)
    (h : ∀ i ∈ List.range 3, isGameStateEqual (blockMove i) g = 0) :
    ¬ Special [blockMove 0, blockMove 1, blockMove 2] g := by
  rintro ⟨m, hm, hb⟩
  have hne := (isGameStateEqual_ne_zero_iff m g).2 hb
  simp only [List.mem_cons, List.mem_singleton, List.not_mem_nil, or_false] at hm
  rcases hm with rfl | rfl | rfl
  · exact hne (h 0 (by decide))
  · exact hne (h 1 (by decide))
  · exact hne (h 2 (by decide))

theorem threeInRow_sorted_split :
    qsort (ascComp 2 1) [blockMove 0, blockMove 1, blockMove 2, blockMove 3, blockMove 4,
      blockMove 5, blockMove 6] =
      [blockMove 0, blockMove 1, blockMove 2] ++
        blockMove 3 :: [blockMove 4, blockMove 5, blockMove 6] :=
  threeInRow_sorted.trans rfl

/-- The blocking scenario at lookahead 2, by the argument for a search of depth two:
`bestMoveForState` for player 2 against player 1 returns column 3. -/
theorem bestMoveForState_blocks_at_two : bestMoveForState threeInRow 2 1 2 = 3 := by
  rw [bestMoveForState_eq, getWeight_root threeInRow 2 1 1 threeInRow_not_over,
    threeInRow_moves, threeInRow_sorted_split]
  have h := exploreMoves_blocks [blockMove 0, blockMove 1, blockMove 2]
    [blockMove 4, blockMove 5, blockMove 6] (blockMove 3) 2 1 (-1000) 0
    (by decide) (by decide) (by decide) heuristicForState_two_one_range threeInRow
    (by
      intro m hm
      have hex : ∃ k : Nat, k < 3 ∧ m = blockMove k := by
        simp only [List.mem_cons, List.mem_singleton, List.not_mem_nil, or_false] at hm
        rcases hm with rfl | rfl | rfl
        · exact ⟨0, by decide, rfl⟩
        · exact ⟨1, by decide, rfl⟩
        · exact ⟨2, by decide, rfl⟩
      obtain ⟨k, hk, rfl⟩ := hex
      refine ⟨blockMove_not_over k (by omega), fun c hc _ => ?_, ?_⟩
      · rw [blockMove_width] at hc
        exact not_special_of_differ _ (fun i hi =>
          blockMove_replies_differ k (List.mem_range.2 (by omega)) c (List.mem_range.2 hc) i hi)
      · have hl := blockMove_loses k (List.mem_range.2 hk)
        refine ⟨3, by rw [blockMove_width]; decide, hl.1, le_of_eq hl.2⟩)
    (not_special_of_differ _ blockMove_three_differs)
    (blockMove_score 3 (by decide)) (blockMove_not_over 3 (by decide))
    (by
      intro c hc _
      rw [blockMove_width] at hc
      refine ⟨not_special_of_differ _ (fun i hi =>
        blockMove_replies_differ 3 (by decide) c (List.mem_range.2 hc) i hi), ?_⟩
      rw [heuristicForState_of_noLineScan _
        (blockMove_three_holds c (List.mem_range.2 hc))])
  exact h.trans blockMove_last_move.2

/-- C11: outside the grid `at` returns `OFF_BOARD` whatever the cell array holds, so the
array is not consulted; inside the grid it returns the cell at index `x * height + y`,
and that index lies below `width * height`, hence inside the cell array of a well-formed
board. -/
theorem at_spec (gs : GameState) (x y : Int) :
    ((x < 0 ∨ y < 0 ∨ x ≥ gs.width ∨ y ≥ gs.height) →
      at_ gs x y = OFF_BOARD ∧
        ∀ cells : List Int, at_ { gs with board := cells } x y = OFF_BOARD) ∧
    ((0 ≤ x ∧ 0 ≤ y ∧ x < gs.width ∧ y < gs.height) →
      at_ gs x y = gs.board.getD (x * gs.height + y).toNat 0 ∧
        (x * gs.height + y).toNat < gs.width * gs.height ∧
        (gs.WF → ∃ h : (x * gs.height + y).toNat < gs.board.length,
          at_ gs x y = gs.board.get ⟨(x * gs.height + y).toNat, h⟩)) := by
  constructor
  · intro hoff
    exact ⟨at_off gs x y hoff, fun cells => at_off _ x y hoff⟩
  · rintro ⟨hx0, hy0, hx, hy⟩
    have hlt := index_lt gs.width gs.height x y hx0 hy0 hx hy
    refine ⟨at_in gs x y hx0 hy0 hx hy, hlt, fun hwf => ?_⟩
    have hl : (x * gs.height + y).toNat < gs.board.length := by rw [hwf]; exact hlt
    refine ⟨hl, ?_⟩
    rw [at_in gs x y hx0 hy0 hx hy, List.getD_eq_getElem _ _ hl]
    rfl

set_option maxRecDepth 100000 in
/-- Instance of C11 on `computerWins`: position (7, 0) is off the board, position (4, 2)
holds the cell at index 26. -/
theorem at_spec_witness :
    at_ computerWins 7 0 = OFF_BOARD ∧
      at_ computerWins 4 2 = computerWins.board.getD 26 0 ∧ at_ computerWins 4 2 = 1 :=
  ⟨((at_spec computerWins 7 0).1 (by decide)).1,
    ((at_spec computerWins 4 2).2 (by decide)).1, by decide!⟩

/-- C12: `canMove` returns 1 exactly for a column index inside the board that has an
`EMPTY` row, and 0 for every other column index, in particular for every index outside
the board. -/
theorem canMove_spec (gs : GameState) (c : Int) :
    (canMove gs c = 1 ↔
      (0 ≤ c ∧ c < gs.width ∧ ∃ y : Nat, y < gs.height ∧ at_ gs c y = EMPTY)) ∧
    ((c < 0 ∨ c ≥ gs.width) → canMove gs c = 0) := by
  have hiff : canMove gs c = 1 ↔
      (0 ≤ c ∧ c < gs.width ∧ ∃ y : Nat, y < gs.height ∧ at_ gs c y = EMPTY) := by
    rw [canMove_eq_one_iff]
    constructor
    · rintro ⟨y, hy, he⟩
      have h := at_ne_off_iff gs c y he
      exact ⟨h.1, h.2.2.1, y, hy, he⟩
    · rintro ⟨_, _, y, hy, he⟩
      exact ⟨y, hy, he⟩
  refine ⟨hiff, fun hout => ?_⟩
  rcases canMove_zero_or_one gs c with h | h
  · exact h
  · have := hiff.1 h
    omega

/-! ## Terminal nodes -/

/-- C17: at a node whose board has a four-in-a-row, or has no `EMPTY` cell, or whose
remaining depth is 0, `getWeight` returns `heuristicForState` of the board and leaves the
node (`best_move`, `alpha`, `beta`) and the table as they were; a node fresh from
`newGameTreeNode` keeps `best_move = -1`. -/
theorem getWeight_terminal (movesLeft : Nat) (node : GameTreeNode) (ht : TranspositionTable)
    (hterm : (∃ x y : Nat, x < node.gs.width ∧ y < node.gs.height ∧
        checkAt node.gs x y ≠ 0) ∨
      (∀ x y : Nat, x < node.gs.width → y < node.gs.height → at_ node.gs x y ≠ EMPTY) ∨
      movesLeft = 0) :
    getWeight true movesLeft node ht =
        { toR := heuristicForState node.gs node.player node.other_player,
          node := node, ht := ht } ∧
      (∀ gs player other turn alpha beta,
        node = newGameTreeNode gs player other turn alpha beta →
        (getWeight true movesLeft node ht).node.best_move = -1) := by
  have hmain : getWeight true movesLeft node ht =
      { toR := heuristicForState node.gs node.player node.other_player,
        node := node, ht := ht } := by
    cases movesLeft with
    | zero => rfl
    | succ n =>
      have hover : gameOver node.gs = true := by
        rcases hterm with h | h | h
        · have hw : getWinner node.gs ≠ 0 := by
            intro h0
            obtain ⟨x, y, hx, hy, hc⟩ := h
            exact hc ((getWinner_eq_zero_iff node.gs).1 h0 x y hx hy)
          unfold gameOver
          simp [hw]
        · have hd : isDraw node.gs = 1 := (isDraw_eq_one_iff node.gs).2 h
          unfold gameOver
          simp [hd]
        · exact absurd h (Nat.succ_ne_zero n)
      rw [getWeight_succ, hover]
      rfl
  refine ⟨hmain, fun gs player other turn alpha beta hn => ?_⟩
  rw [hmain, hn]
  rfl

set_option maxRecDepth 100000 in
/-- Instance of C17: a node on `computerWins`, which has a four-in-a-row, with remaining
depth 5. -/
theorem getWeight_terminal_witness :
    checkAt computerWins 0 0 ≠ 0 ∧
      getWeight true 5 (newGameTreeNode computerWins 2 1 1 INT_MIN INT_MAX) newTable =
        { toR := heuristicForState computerWins 2 1,
          node := newGameTreeNode computerWins 2 1 1 INT_MIN INT_MAX, ht := newTable } :=
  ⟨by decide!,
    (getWeight_terminal 5 (newGameTreeNode computerWins 2 1 1 INT_MIN INT_MAX) newTable
      (Or.inl ⟨0, 0, by decide, by decide, by decide!⟩)).1⟩

/-! ## Buckets of the transposition table -/

theorem occupiedPrefix_nil : OccupiedPrefix [] := by
  intro i j e _ h
  simp at h

theorem occupiedPrefix_none (rest : List (Option GameState)) :
    OccupiedPrefix (none :: rest) ↔ ∀ s ∈ rest, s = none := by
  constructor
  · intro h s hs
    cases s with
    | none => rfl
    | some e =>
      obtain ⟨n, hn⟩ := List.mem_iff_get?.1 hs
      obtain ⟨e0, he0⟩ := h 0 (n + 1) e (Nat.succ_pos n) (by simpa using hn)
      simp at he0
  · intro h i j e hij hj
    cases j with
    | zero => omega
    | succ j =>
      have hm : some e ∈ rest := List.mem_iff_get?.2 ⟨j, by simpa using hj⟩
      exact absurd (h _ hm) (by simp)

theorem occupiedPrefix_some (x : GameState) (rest : List (Option GameState)) :
    OccupiedPrefix (some x :: rest) ↔ OccupiedPrefix rest := by
  constructor
  · intro h i j e hij hj
    obtain ⟨e0, he0⟩ := h (i + 1) (j + 1) e (by omega) (by simpa using hj)
    exact ⟨e0, by simpa using he0⟩
  · intro h i j e hij hj
    cases i with
    | zero => exact ⟨x, rfl⟩
    | succ i =>
      cases j with
      | zero => omega
      | succ j =>
        obtain ⟨e0, he0⟩ := h i j e (by omega) (by simpa using hj)
        exact ⟨e0, by simpa using he0⟩

theorem occupiedPrefix_of_all_none (bin : List (Option GameState))
    (h : ∀ s ∈ bin, s = none) : OccupiedPrefix bin := by
  intro i j e _ hj
  have hm : some e ∈ bin := List.mem_iff_get?.2 ⟨j, hj⟩
  exact absurd (h _ hm) (by simp)

theorem entriesOf_of_all_none (bin : List (Option GameState))
    (h : ∀ s ∈ bin, s = none) : entriesOf bin = [] := by
  unfold entriesOf
  induction bin with
  | nil => rfl
  | cons a bin ih =>
    have ha : a = none := h a (List.mem_cons_self _ _)
    subst ha
    rw [List.filterMap_cons_none rfl]
    exact ih (fun s hs => h s (List.mem_cons_of_mem _ hs))

theorem mem_entriesOf (bin : List (Option GameState)) (e : GameState) :
    e ∈ entriesOf bin ↔ some e ∈ bin := by
  unfold entriesOf
  simp [List.mem_filterMap]

/-- With the occupied slots forming a prefix, the scan of `lookupInTable` finds the first
entry of the bin that `isGameStateEqual` accepts, wherever it is. -/
theorem lookupInBin_eq_find (k : GameState) (bin : List (Option GameState))
    (h : OccupiedPrefix bin) :
    lookupInBin k bin = (entriesOf bin).find? (fun e => isGameStateEqual k e != 0) := by
  induction bin with
  | nil => rfl
  | cons a bin ih =>
    cases a with
    | none =>
      rw [entriesOf_of_all_none _ (fun s hs => by
        rcases List.mem_cons.1 hs with h1 | h1
        · exact h1
        · exact (occupiedPrefix_none bin).1 h s h1)]
      rfl
    | some x =>
      have hrest := (occupiedPrefix_some x bin).1 h
      unfold lookupInBin
      have he : entriesOf (some x :: bin) = x :: entriesOf bin := rfl
      rw [he, List.find?_cons]
      by_cases hx : isGameStateEqual k x ≠ 0
      · rw [if_pos hx]
        have hb : (isGameStateEqual k x != 0) = true := by simpa using hx
        rw [hb]
      · rw [if_neg hx, ih hrest]
        have : (isGameStateEqual k x != 0) = false := by simpa using hx
        rw [this]

theorem addToBin_front (k : GameState) (bin bin2 : List (Option GameState))
    (h : OccupiedPrefix bin) (ha : addToBin k bin = some bin2) :
    OccupiedPrefix bin2 ∧ entriesOf bin2 = entriesOf bin ++ [retainGameState k] := by
  induction bin generalizing bin2 with
  | nil => simp [addToBin] at ha
  | cons a bin ih =>
    cases a with
    | none =>
      simp only [addToBin, Option.some.injEq] at ha
      subst ha
      have hall := (occupiedPrefix_none bin).1 h
      refine ⟨(occupiedPrefix_some _ bin).2 (occupiedPrefix_of_all_none bin hall), ?_⟩
      have h1 : entriesOf (some (retainGameState k) :: bin) =
          retainGameState k :: entriesOf bin := rfl
      have h2 : entriesOf (none :: bin) = entriesOf bin := rfl
      rw [h1, h2, entriesOf_of_all_none bin hall]
      rfl
    | some x =>
      simp only [addToBin, Option.map_eq_some'] at ha
      obtain ⟨r, hr, rfl⟩ := ha
      have hi := ih r ((occupiedPrefix_some x bin).1 h) hr
      refine ⟨(occupiedPrefix_some x r).2 hi.1, ?_⟩
      have h1 : entriesOf (some x :: r) = x :: entriesOf r := rfl
      have h2 : entriesOf (some x :: bin) = x :: entriesOf bin := rfl
      rw [h1, h2, hi.2]
      rfl

theorem addToBin_none_iff (k : GameState) (bin : List (Option GameState)) :
    addToBin k bin = none ↔ ∀ s ∈ bin, s ≠ none := by
  induction bin with
  | nil => simp [addToBin]
  | cons a bin ih =>
    cases a with
    | none => simp [addToBin]
    | some x =>
      simp only [addToBin, Option.map_eq_none', ih, List.mem_cons, ne_eq, forall_eq_or_imp,
        not_false_eq_true, true_and, reduceCtorEq]

/-- The bins of the table after `addToTable`: only the bin of the key can differ. -/
theorem addToTable_bins (t : TranspositionTable) (k : GameState) (hv : Nat) :
    (addToTable t k).bins hv =
      if hv = hashGameState k % TABLE_SIZE then
        (addToBin k (t.bins hv)).getD (t.bins hv)
      else t.bins hv := by
  unfold addToTable
  simp only []
  cases hb : addToBin k (t.bins (hashGameState k % TABLE_SIZE)) with
  | none =>
    simp only []
    split
    · next h => rw [h, hb]; rfl
    · rfl
  | some bin =>
    simp only [Function.update_apply]
    split
    · next h => rw [h, hb]; rfl
    · rfl

theorem reachable_front (t : TranspositionTable) (h : Reachable t) (hv : Nat) :
    OccupiedPrefix (t.bins hv) := by
  induction h generalizing hv with
  | empty =>
    apply occupiedPrefix_of_all_none
    intro s hs
    exact List.eq_of_mem_replicate hs
  | add t k _ ih =>
    rw [addToTable_bins]
    split
    · cases hb : addToBin k (t.bins hv) with
      | none => exact ih hv
      | some bin => exact (addToBin_front k _ bin (ih hv) hb).1
    · exact ih hv

theorem reachable_of_misses (t : TranspositionTable) (h : ReachableByMisses t) :
    Reachable t := by
  induction h with
  | empty => exact Reachable.empty
  | add t k _ _ ih => exact Reachable.add t k ih

/-- In a reachable cache a lookup misses exactly when no entry of the bin of the key is
board-equal to the key. -/
theorem lookupInTable_none_iff (t : TranspositionTable) (h : Reachable t) (b : GameState) :
    lookupInTable t b = none ↔
      ∀ e : GameState, some e ∈ t.bins (hashGameState b % TABLE_SIZE) → ¬ BoardEq b e := by
  have hf : lookupInTable t b =
      (entriesOf (t.bins (hashGameState b % TABLE_SIZE))).find?
        (fun e => isGameStateEqual b e != 0) :=
    lookupInBin_eq_find b _ (reachable_front t h _)
  rw [hf, List.find?_eq_none]
  constructor
  · intro hn e he hb
    have := hn e ((mem_entriesOf _ e).2 he)
    exact this (by simpa using (isGameStateEqual_ne_zero_iff b e).2 hb)
  · intro hn e he hc
    have hne : isGameStateEqual b e ≠ 0 := by simpa using hc
    exact hn e ((mem_entriesOf _ e).1 he) ((isGameStateEqual_ne_zero_iff b e).1 hne)

/-- C20: in a cache built from the empty cache by `addToTable` calls the occupied slots
of every bin form a prefix; `lookupInTable` returns the first entry of the bin of the key
that is board-equal to the key, and it returns none exactly when no entry of that bin is
board-equal to the key. -/
theorem lookupInTable_complete (t : TranspositionTable) (h : Reachable t) :
    (∀ hv : Nat, OccupiedPrefix (t.bins hv)) ∧
    ∀ b : GameState,
      lookupInTable t b =
        (entriesOf (t.bins (hashGameState b % TABLE_SIZE))).find?
          (fun e => isGameStateEqual b e != 0) ∧
      (lookupInTable t b = none ↔
        ∀ e : GameState, some e ∈ t.bins (hashGameState b % TABLE_SIZE) → ¬ BoardEq b e) := by
  refine ⟨reachable_front t h, fun b => ?_⟩
  have hf : lookupInTable t b =
      (entriesOf (t.bins (hashGameState b % TABLE_SIZE))).find?
        (fun e => isGameStateEqual b e != 0) :=
    lookupInBin_eq_find b _ (reachable_front t h _)
  exact ⟨hf, lookupInTable_none_iff t h b⟩

/-- Instance of C20: the cache after one insertion into the empty cache. -/
theorem lookupInTable_complete_witness :
    Reachable (addToTable newTable fullSmall) ∧
      ∀ hv : Nat, OccupiedPrefix ((addToTable newTable fullSmall).bins hv) :=
  ⟨Reachable.add _ _ Reachable.empty,
    (lookupInTable_complete _ (Reachable.add _ _ Reachable.empty)).1⟩

/-! ## Round trip, overflow and duplicates -/

theorem hashGameState_congr {a b : GameState} (h : BoardEq a b) :
    hashGameState a = hashGameState b := by
  unfold hashGameState
  rw [← h.1, ← h.2.1]
  apply List.foldl_ext
  intro acc i hi
  rw [h.2.2 i (List.mem_range.1 hi)]

theorem addToBin_some_of_free (k : GameState) (bin : List (Option GameState))
    (h : none ∈ bin) : ∃ bin2, addToBin k bin = some bin2 := by
  cases hb : addToBin k bin with
  | some bin2 => exact ⟨bin2, rfl⟩
  | none => exact absurd rfl ((addToBin_none_iff k bin).1 hb none h)

/-- The scan of `lookupInTable` over a bin into which `addToBin` has just put `b`, for a
key that is board-equal to `b`. -/
theorem lookupInBin_addToBin (b b2 : GameState) (bin bin2 : List (Option GameState))
    (ha : addToBin b bin = some bin2) (heq : BoardEq b2 b) :
    ∃ e, lookupInBin b2 bin2 = some e ∧ BoardEq e b ∧
      ((∀ e0, some e0 ∈ bin → ¬ BoardEq e0 b) → e = retainGameState b) := by
  induction bin generalizing bin2 with
  | nil => simp [addToBin] at ha
  | cons a bin ih =>
    cases a with
    | none =>
      simp only [addToBin, Option.some.injEq] at ha
      subst ha
      have hb : BoardEq b2 (retainGameState b) :=
        boardEq_trans heq (BoardEq_of_fields _ _ rfl rfl rfl)
      refine ⟨retainGameState b, ?_, BoardEq_of_fields _ _ rfl rfl rfl, fun _ => rfl⟩
      unfold lookupInBin
      rw [if_pos ((isGameStateEqual_ne_zero_iff _ _).2 hb)]
    | some x =>
      simp only [addToBin, Option.map_eq_some'] at ha
      obtain ⟨r, hr, rfl⟩ := ha
      unfold lookupInBin
      by_cases hx : isGameStateEqual b2 x ≠ 0
      · rw [if_pos hx]
        have hbx : BoardEq x b :=
          boardEq_trans (boardEq_symm ((isGameStateEqual_ne_zero_iff _ _).1 hx)) heq
        exact ⟨x, rfl, hbx, fun hno => absurd hbx (hno x (List.mem_cons_self _ _))⟩
      · rw [if_neg hx]
        obtain ⟨e, he, hbe, hfirst⟩ := ih r hr
        exact ⟨e, he, hbe, fun hno => hfirst (fun e0 h0 => hno e0 (List.mem_cons_of_mem _ h0))⟩

/-- C13: when the bin of `b` has a free slot, a lookup right after `addToTable(cache, b)`
with any key that has the width, height and cells of `b` returns an entry that is
board-equal to `b`; when no board-equal entry was in the bin before, the entry is the
stored `b`, with the weight and cells of `b`.  This holds for every cache, in particular
for those built from the empty cache by insertions. -/
theorem cache_round_trip (t : TranspositionTable) (b b2 : GameState)
    (hfree : none ∈ t.bins (hashGameState b % TABLE_SIZE)) (heq : BoardEq b2 b) :
    ∃ e, lookupInTable (addToTable t b) b2 = some e ∧ BoardEq e b ∧
      ((∀ e0, some e0 ∈ t.bins (hashGameState b % TABLE_SIZE) → ¬ BoardEq e0 b) →
        e = retainGameState b ∧ e.weight = b.weight ∧ e.board = b.board) := by
  obtain ⟨bin2, hb⟩ := addToBin_some_of_free b _ hfree
  obtain ⟨e, he, hbe, hfirst⟩ := lookupInBin_addToBin b b2 _ bin2 hb heq
  refine ⟨e, ?_, hbe, fun hno => ?_⟩
  · unfold lookupInTable
    rw [hashGameState_congr heq, addToTable_bins, if_pos rfl, hb]
    exact he
  · have := hfirst hno
    subst this
    exact ⟨rfl, rfl, rfl⟩

set_option maxRecDepth 100000 in
/-- Instance of C13: `humanWins` stored in the empty cache and looked up with a copy that
differs in `last_move` and `weight`. -/
theorem cache_round_trip_witness :
    none ∈ newTable.bins (hashGameState humanWins % TABLE_SIZE) ∧
      BoardEq { humanWins with last_move := 3, weight := 7 } humanWins ∧
      ∃ e, lookupInTable (addToTable newTable humanWins)
          { humanWins with last_move := 3, weight := 7 } = some e ∧ BoardEq e humanWins :=
  ⟨by unfold newTable TABLE_BIN_SIZE; simp [List.replicate],
    BoardEq_of_fields _ _ rfl rfl rfl,
    let ⟨e, h1, h2, _⟩ := cache_round_trip newTable humanWins
      { humanWins with last_move := 3, weight := 7 }
      (by unfold newTable TABLE_BIN_SIZE; simp [List.replicate])
      (BoardEq_of_fields _ _ rfl rfl rfl)
    ⟨e, h1, h2⟩⟩

/-- C15: when every slot of the bin of `b` is occupied, `addToTable(cache, b)` returns
the cache as it was, slot by slot, `b` is not retained (its `refs` is unchanged), and every
lookup gives the result it gave before. -/
theorem addToTable_overflow (t : TranspositionTable) (b : GameState)
    (hfull : ∀ s ∈ t.bins (hashGameState b % TABLE_SIZE), s ≠ none) :
    addToTable t b = t ∧ addToTableKey t b = b ∧ (addToTableKey t b).refs = b.refs ∧
      (∀ hv : Nat, (addToTable t b).bins hv = t.bins hv) ∧
      ∀ k : GameState, lookupInTable (addToTable t b) k = lookupInTable t k := by
  have hb : addToBin b (t.bins (hashGameState b % TABLE_SIZE)) = none :=
    (addToBin_none_iff b _).2 hfull
  have h1 : addToTable t b = t := by
    unfold addToTable
    simp only [hb]
  have h2 : addToTableKey t b = b := by
    unfold addToTableKey
    simp only [hb]
  refine ⟨h1, h2, by rw [h2], fun hv => by rw [h1], fun k => by rw [h1]⟩

set_option maxRecDepth 100000 in
theorem fullBinTable_full :
    ∀ s ∈ fullBinTable.bins (hashGameState fullSmall % TABLE_SIZE), s ≠ none := by
  decide!

/-- Instance of C15: an eleventh insertion of the full 2x2 board. -/
theorem addToTable_overflow_witness :
    (∀ s ∈ fullBinTable.bins (hashGameState fullSmall % TABLE_SIZE), s ≠ none) ∧
      addToTable fullBinTable fullSmall = fullBinTable ∧
      (addToTableKey fullBinTable fullSmall).refs = fullSmall.refs :=
  ⟨fullBinTable_full, (addToTable_overflow fullBinTable fullSmall fullBinTable_full).1,
    (addToTable_overflow fullBinTable fullSmall fullBinTable_full).2.2.1⟩


theorem newTable_entries (hv : Nat) : entriesOf (newTable.bins hv) = [] :=
  entriesOf_of_all_none _ (fun _ hs => List.eq_of_mem_replicate hs)

/-- An insertion after a miss keeps the bins free of board-equal pairs. -/
theorem noEqualPair_add_miss (t : TranspositionTable) (k : GameState) (ht : Reachable t)
    (hno : ∀ hv : Nat, NoEqualPair (t.bins hv)) (hmiss : lookupInTable t k = none)
    (hv : Nat) : NoEqualPair ((addToTable t k).bins hv) := by
  rw [addToTable_bins]
  split
  · next heq =>
    cases hb : addToBin k (t.bins hv) with
    | none => exact hno hv
    | some bin =>
      have hp := addToBin_front k _ bin (reachable_front t ht hv) hb
      show (entriesOf bin).Pairwise (fun a b => ¬ BoardEq a b)
      rw [hp.2, List.pairwise_append]
      refine ⟨hno hv, List.pairwise_singleton _ _, fun a ha c hc => ?_⟩
      rw [List.mem_singleton] at hc
      subst hc
      intro hbe
      have hk : BoardEq k a :=
        boardEq_symm (boardEq_trans hbe (BoardEq_of_fields _ _ rfl rfl rfl))
      have hm : some a ∈ t.bins (hashGameState k % TABLE_SIZE) := by
        rw [← heq]; exact (mem_entriesOf _ a).1 ha
      exact (lookupInTable_none_iff t ht k).1 hmiss a hm hk
  · exact hno hv

/-- An insertion after a hit, into a bin with a free slot, puts a second board-equal
entry into the bin. -/
theorem equalPair_add_hit (t : TranspositionTable) (k e : GameState) (ht : Reachable t)
    (hhit : lookupInTable t k = some e)
    (hfree : none ∈ t.bins (hashGameState k % TABLE_SIZE)) :
    ¬ NoEqualPair ((addToTable t k).bins (hashGameState k % TABLE_SIZE)) := by
  obtain ⟨bin, hb⟩ := addToBin_some_of_free k _ hfree
  have hp := addToBin_front k _ bin (reachable_front t ht _) hb
  have hl := lookupInTable_some t k e hhit
  rw [addToTable_bins, if_pos rfl, hb]
  show ¬ (entriesOf bin).Pairwise (fun a b => ¬ BoardEq a b)
  rw [hp.2, List.pairwise_append]
  rintro ⟨_, _, h3⟩
  apply h3 e ((mem_entriesOf _ e).2 hl.1) (retainGameState k) (List.mem_singleton.2 rfl)
  exact boardEq_trans (boardEq_symm ((isGameStateEqual_ne_zero_iff k e).1 hl.2))
    (boardEq_symm (BoardEq_of_fields _ _ rfl rfl rfl))

/-- C14 as amended: in a cache built from the empty cache by insertions of states that
`lookupInTable` does not find, no bin holds two board-equal entries; an insertion of a
state that `lookupInTable` does find, as `getWeight` makes it after a cache hit, puts a
second board-equal entry into the bin when the bin has a free slot. -/
theorem bucket_invariant (t : TranspositionTable) (h : ReachableByMisses t) :
    (∀ hv : Nat, NoEqualPair (t.bins hv)) ∧
    ∀ k e : GameState, lookupInTable t k = some e →
      none ∈ t.bins (hashGameState k % TABLE_SIZE) →
      ¬ NoEqualPair ((addToTable t k).bins (hashGameState k % TABLE_SIZE)) := by
  refine ⟨?_, fun k e hhit hfree => equalPair_add_hit t k e (reachable_of_misses t h) hhit hfree⟩
  induction h with
  | empty =>
    intro hv
    show (entriesOf (newTable.bins hv)).Pairwise (fun a b => ¬ BoardEq a b)
    rw [newTable_entries]
    exact List.Pairwise.nil
  | add t k hr hmiss ih =>
    exact noEqualPair_add_miss t k (reachable_of_misses t hr) ih hmiss

/-- Instance of C14 as amended: the cache after the insertion of `humanWins` into the
empty cache. -/
theorem bucket_invariant_witness :
    ReachableByMisses (addToTable newTable humanWins) ∧
      ∀ hv : Nat, NoEqualPair ((addToTable newTable humanWins).bins hv) :=
  ⟨ReachableByMisses.add _ _ ReachableByMisses.empty (lookupInTable_newTable _),
    (bucket_invariant _
      (ReachableByMisses.add _ _ ReachableByMisses.empty (lookupInTable_newTable _))).1⟩

set_option maxRecDepth 1000000 in
/-- The entries that the search of lookahead 3 on the empty 3x1 board, player 2 against
player 1, leaves in the bin of the full board with cells 1, 2, 2. -/
theorem search_bin_entries :
    entriesOf ((getWeight true 3 (newGameTreeNode (newGameState 3 1) 2 1 1 INT_MIN INT_MAX)
      newTable).ht.bins (hashGameState (boardOfColumns 1 [[1], [2], [2]]) % TABLE_SIZE)) =
      [{ width := 3, height := 1, board := [1, 2, 2], last_move := 2, weight := 0, refs := 2 },
       { width := 3, height := 1, board := [1, 2, 2], last_move := 1, weight := 0,
         refs := 2 }] := by
  decide!

/-- C14 fails as stated: the search of lookahead 3 on the empty 3x1 board reaches the full
board with cells 1, 2, 2 twice, finds it in the cache the second time and stores it
again, so its bin ends with two board-equal entries. -/
theorem search_stores_duplicate :
    ¬ NoEqualPair ((getWeight true 3
      (newGameTreeNode (newGameState 3 1) 2 1 1 INT_MIN INT_MAX) newTable).ht.bins
        (hashGameState (boardOfColumns 1 [[1], [2], [2]]) % TABLE_SIZE)) := by
  unfold NoEqualPair
  rw [search_bin_entries]
  intro h
  rw [List.pairwise_cons] at h
  exact h.1 _ (List.mem_singleton.2 rfl) (BoardEq_of_fields _ _ rfl rfl rfl)

/-! ## The static score -/

set_option maxRecDepth 1000000 in
theorem firstMove_noLine : noLineScan firstMove = true := by decide!

set_option maxRecDepth 1000000 in
theorem firstMove_countAtScore : countAtScore firstMove 2 1 = -7 := by decide!

/-- C16 at the position after a first move of player 1 into column 3: `getHeuristic` for
player 2 against player 1 is 0, while the total of `countAt` for player 2 minus `countAt`
for player 1 is -7. -/
theorem getHeuristic_ignores_countAt :
    getHeuristic firstMove 2 1 = 0 ∧ countAtScore firstMove 2 1 = -7 ∧
      getHeuristic firstMove 2 1 ≠ countAtScore firstMove 2 1 := by
  have h1 : getHeuristic firstMove 2 1 = 0 :=
    getHeuristic_of_no_line firstMove 2 1 (by decide) (by decide)
      (getWinner_of_noLineScan firstMove firstMove_noLine)
  refine ⟨h1, firstMove_countAtScore, ?_⟩
  rw [h1, firstMove_countAtScore]
  decide

/-! ## Move ordering -/

theorem qsortInsert_sorted (cmp : GameState → GameState → Int) (key : GameState → Int)
    (hcmp : ∀ a b, cmp a b ≤ 0 ↔ key a ≤ key b) (a : GameState) (l : List GameState)
    (h : l.Pairwise (fun x y => key x ≤ key y)) :
    (qsortInsert cmp a l).Pairwise (fun x y => key x ≤ key y) := by
  induction l with
  | nil => exact List.pairwise_singleton _ _
  | cons b l ih =>
    rw [List.pairwise_cons] at h
    unfold qsortInsert
    by_cases hab : cmp a b ≤ 0
    · rw [if_pos hab]
      have hkab : key a ≤ key b := (hcmp a b).1 hab
      refine List.pairwise_cons.2 ⟨fun x hx => ?_, List.pairwise_cons.2 h⟩
      rcases List.mem_cons.1 hx with rfl | hx
      · exact hkab
      · exact le_trans hkab (h.1 x hx)
    · rw [if_neg hab]
      have hkba : key b ≤ key a := by
        have : ¬ key a ≤ key b := fun hc => hab ((hcmp a b).2 hc)
        omega
      refine List.pairwise_cons.2 ⟨fun x hx => ?_, ih h.2⟩
      rcases List.mem_cons.1 ((qsortInsert_perm cmp a l).mem_iff.1 hx) with rfl | hx
      · exact hkba
      · exact h.1 x hx

theorem qsort_sorted (cmp : GameState → GameState → Int) (key : GameState → Int)
    (hcmp : ∀ a b, cmp a b ≤ 0 ↔ key a ≤ key b) (l : List GameState) :
    (qsort cmp l).Pairwise (fun x y => key x ≤ key y) := by
  induction l with
  | nil => exact List.Pairwise.nil
  | cons a l ih =>
    unfold qsort
    exact qsortInsert_sorted cmp key hcmp a _ ih

/-! ## The children a node explores -/

theorem exploreTrace_cons (reuse : Bool)
    (recurse : GameTreeNode → TranspositionTable → SearchResult)
    (m : GameState) (rest : List GameState) (node : GameTreeNode) (ht : TranspositionTable)
    (best : Int) :
    exploreTrace reuse recurse (m :: rest) node ht best =
      (m, (childWeight reuse recurse node ht m).1) ::
        match updateNode node best (childWeight reuse recurse node ht m).1 m.last_move with
        | none => []
        | some next =>
          exploreTrace reuse recurse rest next.1
            (addToTable (childWeight reuse recurse node ht m).2
              { m with weight := (childWeight reuse recurse node ht m).1 }) next.2 := rfl

theorem exploredChildren_succ (n : Nat) (node : GameTreeNode) (ht : TranspositionTable) :
    exploredChildren (n + 1) node ht =
      if gameOver node.gs then []
      else
        exploreTrace true (getWeight true n) (orderedMoves node) node ht
          (if node.turn ≠ 0 then INT_MIN else INT_MAX) := rfl

/-- The explored children are an initial part of the moves, and there is a first one. -/
theorem exploreTrace_initial (reuse : Bool)
    (recurse : GameTreeNode → TranspositionTable → SearchResult) :
    ∀ (moves : List GameState) (node : GameTreeNode) (ht : TranspositionTable) (best : Int),
      ((exploreTrace reuse recurse moves node ht best).map Prod.fst) <+: moves ∧
      (moves ≠ [] → exploreTrace reuse recurse moves node ht best ≠ []) := by
  intro moves
  induction moves with
  | nil =>
    intro node ht best
    exact ⟨List.prefix_refl _, fun h => absurd rfl h⟩
  | cons m rest ih =>
    intro node ht best
    rw [exploreTrace_cons]
    refine ⟨?_, fun _ => List.cons_ne_nil _ _⟩
    rw [List.map_cons]
    cases updateNode node best (childWeight reuse recurse node ht m).1 m.last_move with
    | none =>
      exact (List.prefix_cons_inj m).2 List.nil_prefix
    | some next =>
      exact (List.prefix_cons_inj m).2 (ih _ _ _).1

/-- At a maximizing node with `beta = INT_MAX` and bounded weights the loop is never cut
off: every move is explored, and the result and the chosen move are the fold `pickBest`
over the explored children. -/
theorem exploreMoves_trace (reuse : Bool)
    (recurse : GameTreeNode → TranspositionTable → SearchResult)
    (D : GameState → Prop) (player other lo hi : Int) (hhi : hi < INT_MAX)
    (hrec : ∀ c ht, D c.gs → c.player = player → c.other_player = other →
      TableAll (WeightIn lo hi) ht →
      (lo ≤ (recurse c ht).toR ∧ (recurse c ht).toR ≤ hi) ∧
        TableAll (WeightIn lo hi) (recurse c ht).ht) :
    ∀ (moves : List GameState) (node : GameTreeNode) (ht : TranspositionTable) (best : Int),
      node.player = player → node.other_player = other → node.turn ≠ 0 →
      node.beta = INT_MAX → (∀ m ∈ moves, D m) → TableAll (WeightIn lo hi) ht →
      (exploreTrace reuse recurse moves node ht best).map Prod.fst = moves ∧
      (∀ p ∈ exploreTrace reuse recurse moves node ht best, lo ≤ p.2 ∧ p.2 ≤ hi) ∧
      (exploreMoves reuse recurse moves node ht best).toR =
        (pickBest (best, node.best_move) (exploreTrace reuse recurse moves node ht best)).1 ∧
      (exploreMoves reuse recurse moves node ht best).node.best_move =
        (pickBest (best, node.best_move) (exploreTrace reuse recurse moves node ht best)).2 := by
  intro moves
  induction moves with
  | nil =>
    intro node ht best _ _ _ _ _ _
    refine ⟨rfl, fun p hp => ?_, rfl, rfl⟩
    cases hp
  | cons m rest ih =>
    intro node ht best hp ho hturn hbeta hD hT
    have hc := childWeight_bound reuse recurse D player other lo hi hrec node ht m hp ho
      (hD m (List.mem_cons_self _ _)) hT
    have hT' := TableAll_store lo hi _ m _ hc.2 hc.1
    have hcut : ¬ (childWeight reuse recurse node ht m).1 ≥ node.beta := by
      rw [hbeta]
      exact not_le.2 (lt_of_le_of_lt hc.1.2 hhi)
    rw [exploreMoves_cons, exploreTrace_cons, updateNode_max node best _ _ hturn, if_neg hcut]
    simp only []
    have h := ih
      { node with
        alpha := if node.alpha > (childWeight reuse recurse node ht m).1 then node.alpha
          else (childWeight reuse recurse node ht m).1,
        best_move := if best < (childWeight reuse recurse node ht m).1 then m.last_move
          else node.best_move }
      (addToTable (childWeight reuse recurse node ht m).2
        { m with weight := (childWeight reuse recurse node ht m).1 })
      (if best < (childWeight reuse recurse node ht m).1
        then (childWeight reuse recurse node ht m).1 else best)
      hp ho hturn hbeta (fun x hx => hD x (List.mem_cons_of_mem _ hx)) hT'
    obtain ⟨h1, h2, h3, h4⟩ := h
    have hpick : ∀ tr : List (GameState × Int),
        pickBest (best, node.best_move) ((m, (childWeight reuse recurse node ht m).1) :: tr) =
          pickBest (if best < (childWeight reuse recurse node ht m).1
              then (childWeight reuse recurse node ht m).1 else best,
            if best < (childWeight reuse recurse node ht m).1 then m.last_move
              else node.best_move) tr := by
      intro tr
      unfold pickBest
      rw [List.foldl_cons]
      by_cases hb : best < (childWeight reuse recurse node ht m).1
      · simp only [hb, if_true]
      · simp only [hb, if_false]
    refine ⟨?_, ?_, ?_, ?_⟩
    · rw [List.map_cons, h1]
    · intro p hp
      rcases List.mem_cons.1 hp with rfl | hp
      · exact hc.1
      · exact h2 p hp
    · rw [hpick]
      exact h3
    · rw [hpick]
      exact h4

/-- The fold `pickBest` returns an upper bound of the weights, and either keeps its start
pair, when no weight exceeds it, or returns the move of the first child whose weight is
the result. -/
theorem pickBest_spec (tr : List (GameState × Int)) :
    ∀ acc : Int × Int,
      acc.1 ≤ (pickBest acc tr).1 ∧ (∀ p ∈ tr, p.2 ≤ (pickBest acc tr).1) ∧
      ((pickBest acc tr = acc ∧ ∀ p ∈ tr, p.2 ≤ acc.1) ∨
        (∃ p, tr.find? (fun p => p.2 == (pickBest acc tr).1) = some p ∧
          (pickBest acc tr).2 = p.1.last_move ∧ acc.1 < (pickBest acc tr).1)) := by
  induction tr with
  | nil =>
    intro acc
    refine ⟨le_refl _, fun p hp => ?_, Or.inl ⟨rfl, fun p hp => ?_⟩⟩
    · cases hp
    · cases hp
  | cons p tr ih =>
    intro acc
    have hstep : pickBest acc (p :: tr) =
        pickBest (if acc.1 < p.2 then (p.2, p.1.last_move) else acc) tr := rfl
    rw [hstep]
    by_cases hlt : acc.1 < p.2
    · rw [if_pos hlt]
      obtain ⟨h1, h2, h3⟩ := ih (p.2, p.1.last_move)
      have h1' : p.2 ≤ (pickBest (p.2, p.1.last_move) tr).1 := h1
      refine ⟨by omega, fun q hq => ?_, Or.inr ?_⟩
      · rcases List.mem_cons.1 hq with rfl | hq
        · exact h1'
        · exact h2 q hq
      · rcases h3 with ⟨he, _⟩ | ⟨q, hq, hq2, hq3⟩
        · refine ⟨p, ?_, ?_, ?_⟩
          · rw [he]
            simp
          · rw [he]
          · rw [he]
            exact hlt
        · have hq3' : p.2 < (pickBest (p.2, p.1.last_move) tr).1 := hq3
          refine ⟨q, ?_, hq2, by omega⟩
          rw [List.find?_cons_of_neg]
          · exact hq
          · simp only [beq_iff_eq]
            omega
    · rw [if_neg hlt]
      obtain ⟨h1, h2, h3⟩ := ih acc
      refine ⟨h1, fun q hq => ?_, ?_⟩
      · rcases List.mem_cons.1 hq with rfl | hq
        · omega
        · exact h2 q hq
      · rcases h3 with ⟨he, hall⟩ | ⟨q, hq, hq2, hq3⟩
        · refine Or.inl ⟨he, fun q hq => ?_⟩
          rcases List.mem_cons.1 hq with rfl | hq
          · omega
          · exact hall q hq
        · refine Or.inr ⟨q, ?_, hq2, hq3⟩
          rw [List.find?_cons_of_neg]
          · exact hq
          · simp only [beq_iff_eq]
            omega

/-! ## Move ordering and pruning -/

set_option maxRecDepth 1000000 in
/-- Pruning in the search of player 2 against player 1 on the empty 3x1 board with 2 moves
left.  The first child of the root, column 0, gets weight 0, which raises `alpha` of the
root to 0; the second child, column 1, is not in the table, so `getWeight` runs on
`cutNode` with `smallTable`.  There two moves are generated and ordered, columns 0 and 2,
and the loop ends after the first: its weight 0 is not above `alpha`. -/
theorem cutoff_truncates_exploration :
    (orderedMoves smallRoot).map (fun m => m.last_move) = [0, 1, 2] ∧
    (childWeight true (getWeight true 1) smallRoot newTable
      (stateForMove (newGameState 3 1) 0 2)).1 = 0 ∧
    (updateNode smallRoot INT_MIN 0 0).map (fun p => (p.1.alpha, p.1.beta)) =
      some (0, INT_MAX) ∧
    (lookupInTable smallTable (stateForMove (newGameState 3 1) 1 2)).isNone = true ∧
    (possibleMovesOf cutNode).map (fun m => m.last_move) = [0, 2] ∧
    (exploredChildren 1 cutNode smallTable).map (fun p => (p.1.last_move, p.2)) = [(0, 0)] ∧
    ¬ ((exploredChildren 1 cutNode smallTable).map Prod.fst).Perm (possibleMovesOf cutNode) := by
  refine ⟨by decide!, by decide!, by decide!, by decide!, by decide!, by decide!, fun h => ?_⟩
  have hl := h.length_eq
  rw [List.length_map] at hl
  have h1 : (exploredChildren 1 cutNode smallTable).length = 1 := by decide!
  have h2 : (possibleMovesOf cutNode).length = 2 := by decide!
  omega

/-- C18: the moves of a node in exploration order are a permutation of the moves generated
for the columns with room; their `heuristicForState` values for the ids of the node never
decrease along the order at a maximizing node and never increase at a minimizing node;
`getWeight` runs its loop over this order.  Pruning can end the loop early: the children a
call of `getWeight` reaches are an initial part of the order, with at least one child at a
node that is not terminal. -/
theorem exploration_order (node : GameTreeNode) :
    (orderedMoves node).Perm (possibleMovesOf node) ∧
    (node.turn ≠ 0 → (orderedMoves node).Pairwise (fun a b =>
      heuristicForState a node.player node.other_player ≤
        heuristicForState b node.player node.other_player)) ∧
    (node.turn = 0 → (orderedMoves node).Pairwise (fun a b =>
      heuristicForState b node.player node.other_player ≤
        heuristicForState a node.player node.other_player)) ∧
    (∀ (reuse : Bool) (n : Nat) (ht : TranspositionTable), gameOver node.gs = false →
      getWeight reuse (n + 1) node ht =
        exploreMoves reuse (getWeight reuse n) (orderedMoves node) node ht
          (if node.turn ≠ 0 then INT_MIN else INT_MAX)) ∧
    (∀ (movesLeft : Nat) (ht : TranspositionTable),
      ((exploredChildren movesLeft node ht).map Prod.fst) <+: orderedMoves node) ∧
    (∀ (n : Nat) (ht : TranspositionTable), gameOver node.gs = false →
      exploredChildren (n + 1) node ht ≠ []) := by
  refine ⟨?_, fun ht => ?_, fun ht => ?_, fun reuse n ht hover => ?_, fun movesLeft ht => ?_,
    fun n ht hover => ?_⟩
  · unfold orderedMoves
    split
    · exact qsort_perm _ _
    · exact qsort_perm _ _
  · unfold orderedMoves
    rw [if_pos ht]
    apply qsort_sorted _ (fun g => heuristicForState g node.player node.other_player)
    intro a b
    unfold ascComp
    constructor <;> intro h <;> omega
  · unfold orderedMoves
    rw [if_neg (not_not.2 ht)]
    have hcmp : ∀ a b : GameState, desComp node.player node.other_player a b ≤ 0 ↔
        -heuristicForState a node.player node.other_player ≤
          -heuristicForState b node.player node.other_player := by
      intro a b
      unfold desComp
      constructor <;> intro h <;> omega
    have h := qsort_sorted (desComp node.player node.other_player)
      (fun g => -heuristicForState g node.player node.other_player) hcmp
      (possibleMovesOf node)
    refine List.Pairwise.imp ?_ h
    intro a b hab
    have hab2 : -heuristicForState a node.player node.other_player ≤
        -heuristicForState b node.player node.other_player := hab
    omega
  · rw [getWeight_succ, hover]
    rfl
  · cases movesLeft with
    | zero => exact List.nil_prefix
    | succ n =>
      rw [exploredChildren_succ]
      split
      · exact List.nil_prefix
      · exact (exploreTrace_initial _ _ _ _ _ _).1
  · rw [exploredChildren_succ, hover]
    simp only [Bool.false_eq_true, if_false]
    apply (exploreTrace_initial _ _ _ _ _ _).2
    have hne : possibleMovesOf node ≠ [] :=
      possibleMovesOf_ne_nil _ (gameOver_false _ hover).2
    intro hnil
    have hp : (orderedMoves node).Perm (possibleMovesOf node) := by
      unfold orderedMoves
      split
      · exact qsort_perm _ _
      · exact qsort_perm _ _
    rw [hnil] at hp
    exact hne (List.nil_perm.1 hp)

/-! ## The root of a search -/

/-- C19: on a board without a four-in-a-row and with an `EMPTY` cell, for every lookahead
`n + 1`, the root of the search of `bestMoveForState` explores every one of its children
(no cutoff); the weight `getWeight` returns at the root is the largest of the weights found
for the children; and the column `bestMoveForState` returns is the `last_move` of the first
explored child whose weight is that maximum, the column this child was generated for. -/
theorem root_takes_first_maximum (gs : GameState) (hwf : gs.WF)
    (hsize : gs.width * gs.height < 2147483647) (player other : Int) (n : Nat)
    (hnowin : ∀ x y : Nat, x < gs.width → y < gs.height → checkAt gs x y = 0)
    (hroom : ∃ x y : Nat, x < gs.width ∧ y < gs.height ∧ at_ gs x y = EMPTY) :
    (exploredChildren (n + 1) (newGameTreeNode gs player other 1 INT_MIN INT_MAX)
        newTable).map Prod.fst =
      orderedMoves (newGameTreeNode gs player other 1 INT_MIN INT_MAX) ∧
    (∀ p ∈ exploredChildren (n + 1) (newGameTreeNode gs player other 1 INT_MIN INT_MAX)
        newTable,
      p.2 ≤ (getWeight true (n + 1) (newGameTreeNode gs player other 1 INT_MIN INT_MAX)
        newTable).toR) ∧
    (∃ p, (exploredChildren (n + 1) (newGameTreeNode gs player other 1 INT_MIN INT_MAX)
          newTable).find?
        (fun p => p.2 == (getWeight true (n + 1)
          (newGameTreeNode gs player other 1 INT_MIN INT_MAX) newTable).toR) = some p ∧
      bestMoveForState gs player other (n + 1) = p.1.last_move ∧
      ∃ c : Nat, c < gs.width ∧ canMove gs c = 1 ∧ p.1 = stateForMove gs c player ∧
        p.1.last_move = c) := by
  have hover : gameOver gs = false := by
    unfold gameOver
    rw [(getWinner_eq_zero_iff gs).2 hnowin, (isDraw_eq_zero_iff gs).2 hroom]
    rfl
  let B : Int := max 1000 ((gs.width * gs.height : Nat) : Int)
  have hB1 : (1000 : Int) ≤ B := le_max_left _ _
  have hB2 : ((gs.width * gs.height : Nat) : Int) ≤ B := le_max_right _ _
  have hB3 : B < 2147483647 := by
    apply max_lt
    · decide
    · exact_mod_cast hsize
  have hlo : INT_MIN < -B := by unfold INT_MIN; omega
  have hhi : B < INT_MAX := by unfold INT_MAX; omega
  let D : GameState → Prop := fun g => g.width = gs.width ∧ g.height = gs.height
  have hD : ∀ g c p, D g → D (stateForMove g c p) := by
    intro g c p hg
    have := stateForMove_dims g c p
    exact ⟨this.1.trans hg.1, this.2.trans hg.2⟩
  have hH : ∀ g, D g → -B ≤ heuristicForState g player other ∧
      heuristicForState g player other ≤ B := by
    intro g hg
    apply heuristicForState_bound g player other B hB1
    rw [hg.1, hg.2]
    exact hB2
  have hrec := getWeight_bound true D player other (-B) B hlo hhi hD hH n
  have hgs : (newGameTreeNode gs player other 1 INT_MIN INT_MAX).gs = gs := rfl
  have hturn : (newGameTreeNode gs player other 1 INT_MIN INT_MAX).turn ≠ 0 := by
    show (1 : Int) ≠ 0
    decide
  have hmem : ∀ m ∈ orderedMoves (newGameTreeNode gs player other 1 INT_MIN INT_MAX),
      ∃ c : Nat, c < gs.width ∧ canMove gs c = 1 ∧ m = stateForMove gs c player ∧
        m.last_move = c := by
    intro m hm
    unfold orderedMoves at hm
    rw [if_pos hturn] at hm
    obtain ⟨c, hc, hcan, hmc⟩ := (mem_possibleMovesOf _ m).1 ((mem_qsort _ _ m).1 hm)
    rw [hgs] at hc hcan hmc
    rw [if_pos hturn] at hmc
    have hmc2 : m = stateForMove gs c player := hmc
    refine ⟨c, hc, hcan, hmc2, ?_⟩
    rw [hmc2]
    exact stateForMove_last_move gs hwf _ _ hcan
  have hne : orderedMoves (newGameTreeNode gs player other 1 INT_MIN INT_MAX) ≠ [] := by
    unfold orderedMoves
    rw [if_pos hturn]
    exact qsort_ne_nil _ _ (possibleMovesOf_ne_nil _ ((isDraw_eq_zero_iff gs).2 hroom))
  have htr := exploreMoves_trace true (getWeight true n) D player other (-B) B hhi hrec
    (orderedMoves (newGameTreeNode gs player other 1 INT_MIN INT_MAX))
    (newGameTreeNode gs player other 1 INT_MIN INT_MAX) newTable INT_MIN rfl rfl hturn rfl
    (fun m hm => by
      obtain ⟨c, _, _, hmc, _⟩ := hmem m hm
      rw [hmc]
      exact hD _ _ _ ⟨rfl, rfl⟩)
    (TableAll_newTable _)
  have hexp : exploredChildren (n + 1) (newGameTreeNode gs player other 1 INT_MIN INT_MAX)
      newTable =
      exploreTrace true (getWeight true n)
        (orderedMoves (newGameTreeNode gs player other 1 INT_MIN INT_MAX))
        (newGameTreeNode gs player other 1 INT_MIN INT_MAX) newTable INT_MIN := by
    rw [exploredChildren_succ, hgs, hover, if_pos hturn]
    rfl
  have hgw : getWeight true (n + 1) (newGameTreeNode gs player other 1 INT_MIN INT_MAX)
      newTable =
      exploreMoves true (getWeight true n)
        (orderedMoves (newGameTreeNode gs player other 1 INT_MIN INT_MAX))
        (newGameTreeNode gs player other 1 INT_MIN INT_MAX) newTable INT_MIN := by
    rw [getWeight_succ, hgs, hover, if_pos hturn]
    unfold orderedMoves
    rw [if_pos hturn]
    rfl
  have hbm : bestMoveForState gs player other (n + 1) =
      (getWeight true (n + 1) (newGameTreeNode gs player other 1 INT_MIN INT_MAX)
        newTable).node.best_move := rfl
  rw [hbm, hexp, hgw]
  obtain ⟨h1, h2, h3, h4⟩ := htr
  have hps := pickBest_spec
    (exploreTrace true (getWeight true n)
      (orderedMoves (newGameTreeNode gs player other 1 INT_MIN INT_MAX))
      (newGameTreeNode gs player other 1 INT_MIN INT_MAX) newTable INT_MIN)
    (INT_MIN, (newGameTreeNode gs player other 1 INT_MIN INT_MAX).best_move)
  rw [← h3, ← h4] at hps
  obtain ⟨_, hmax, hcase⟩ := hps
  refine ⟨h1, hmax, ?_⟩
  rcases hcase with ⟨_, hall⟩ | ⟨p, hfind, hmove, _⟩
  · exfalso
    have hne2 := (exploreTrace_initial true (getWeight true n)
      (orderedMoves (newGameTreeNode gs player other 1 INT_MIN INT_MAX))
      (newGameTreeNode gs player other 1 INT_MIN INT_MAX) newTable INT_MIN).2 hne
    obtain ⟨q, hq⟩ := List.exists_mem_of_ne_nil _ hne2
    have ha := hall q hq
    have hb := (h2 q hq).1
    have ha2 : q.2 ≤ INT_MIN := ha
    omega
  · refine ⟨p, hfind, hmove, ?_⟩
    have hpm : p.1 ∈ orderedMoves (newGameTreeNode gs player other 1 INT_MIN INT_MAX) := by
      rw [← h1]
      exact List.mem_map_of_mem Prod.fst (List.mem_of_find?_eq_some hfind)
    exact hmem p.1 hpm

set_option maxRecDepth 100000 in
/-- Instance of C19: the empty 7x6 board, player 2 against player 1, lookahead 1. -/
theorem root_takes_first_maximum_witness :
    (newGameState 7 6).WF ∧ (newGameState 7 6).width * (newGameState 7 6).height < 2147483647 ∧
      getWinner (newGameState 7 6) = 0 ∧ at_ (newGameState 7 6) 0 0 = EMPTY ∧
      (exploredChildren (0 + 1) (newGameTreeNode (newGameState 7 6) 2 1 1 INT_MIN INT_MAX)
          newTable).map Prod.fst =
        orderedMoves (newGameTreeNode (newGameState 7 6) 2 1 1 INT_MIN INT_MAX) :=
  ⟨by decide!, by decide!, by decide!, by decide!,
    (root_takes_first_maximum (newGameState 7 6) (by decide!) (by decide!) 2 1 0
      ((getWinner_eq_zero_iff (newGameState 7 6)).1 (by decide!))
      ⟨0, 0, by decide, by decide, by decide!⟩).1⟩

/-! ## Instances -/

set_option maxRecDepth 100000 in
/-- Instance of C12 on the empty 7x6 board: column 3 has room, column 7 is outside. -/
theorem canMove_spec_witness :
    canMove (newGameState 7 6) 3 = 1 ∧ canMove (newGameState 7 6) 7 = 0 :=
  ⟨(canMove_spec (newGameState 7 6) 3).1.2 ⟨by decide, by decide, 0, by decide, by decide!⟩,
    (canMove_spec (newGameState 7 6) 7).2 (Or.inr (by decide))⟩

/-- Instance of C18 at the minimizing node `cutNode`: the values of the ordered moves
never increase, and the one child reached with `smallTable` is an initial part of the
ordered moves. -/
theorem exploration_order_witness :
    cutNode.turn = 0 ∧
      (orderedMoves cutNode).Pairwise (fun a b =>
        heuristicForState b cutNode.player cutNode.other_player ≤
          heuristicForState a cutNode.player cutNode.other_player) ∧
      ((exploredChildren 1 cutNode smallTable).map Prod.fst) <+: orderedMoves cutNode :=
  ⟨rfl, (exploration_order cutNode).2.2.1 rfl,
    (exploration_order cutNode).2.2.2.2.1 1 smallTable⟩

/-! ## Termination of the search -/

theorem getWeightFuel_succ (depth : Nat) (movesLeft : Int) (node : GameTreeNode)
    (ht : TranspositionTable) :
    getWeightFuel (depth + 1) movesLeft node ht =
      if gameOver node.gs || movesLeft == 0 then
        some { toR := heuristicForState node.gs node.player node.other_player,
               node := node, ht := ht }
      else
        exploreMovesFuel (getWeightFuel depth (movesLeft - 1)) (orderedMoves node) node ht
          (if node.turn ≠ 0 then INT_MIN else INT_MAX) := rfl

/-- When every recursive call returns, the loop returns, with the result of the loop of
the model without a depth bound. -/
theorem exploreMovesFuel_eq (recF : GameTreeNode → TranspositionTable → Option SearchResult)
    (rec : GameTreeNode → TranspositionTable → SearchResult)
    (h : ∀ c ht, recF c ht = some (rec c ht)) :
    ∀ (moves : List GameState) (node : GameTreeNode) (ht : TranspositionTable) (best : Int),
      exploreMovesFuel recF moves node ht best = some (exploreMoves true rec moves node ht best) := by
  have hc : ∀ node ht m, childWeightFuel recF node ht m = some (childWeight true rec node ht m) := by
    intro node ht m
    unfold childWeightFuel childWeight
    simp only [if_true]
    cases lookupInTable ht m with
    | some e => rfl
    | none =>
      simp only []
      rw [h]
  intro moves
  induction moves with
  | nil => intro node ht best; rfl
  | cons m rest ih =>
    intro node ht best
    rw [exploreMoves_cons]
    unfold exploreMovesFuel
    rw [hc]
    simp only []
    cases updateNode node best (childWeight true rec node ht m).1 m.last_move with
    | none => rfl
    | some next => exact ih _ _ _

/-- With `movesLeft` frames more than the remaining depth, `getWeight` returns. -/
theorem getWeightFuel_eq (movesLeft : Nat) :
    ∀ (depth : Nat) (node : GameTreeNode) (ht : TranspositionTable), movesLeft < depth →
      getWeightFuel depth (movesLeft : Int) node ht = some (getWeight true movesLeft node ht) := by
  induction movesLeft with
  | zero =>
    intro depth node ht hd
    obtain ⟨d, rfl⟩ : ∃ d, depth = d + 1 := ⟨depth - 1, by omega⟩
    rw [getWeightFuel_succ]
    simp
    rfl
  | succ n ih =>
    intro depth node ht hd
    obtain ⟨d, rfl⟩ : ∃ d, depth = d + 1 := ⟨depth - 1, by omega⟩
    rw [getWeightFuel_succ, getWeight_succ]
    have hne : ¬ (((n + 1 : Nat) : Int) = 0) := by omega
    cases hover : gameOver node.gs with
    | true => simp
    | false =>
      simp only [Bool.false_or, beq_iff_eq, hne, if_false, Bool.false_eq_true]
      have hsub : ((n + 1 : Nat) : Int) - 1 = (n : Int) := by omega
      rw [hsub]
      exact exploreMovesFuel_eq _ _ (fun c ht => ih d c ht (by omega)) _ _ _ _

theorem countP_set_piece (l : List Int) (i : Nat) (p : Int) (hi : i < l.length)
    (he : l.getD i 0 = EMPTY) (hp : p ≠ EMPTY) :
    (l.set i p).countP (fun c => c != EMPTY) = l.countP (fun c => c != EMPTY) + 1 := by
  induction l generalizing i with
  | nil => simp at hi
  | cons a l ih =>
    cases i with
    | zero =>
      have ha : a = EMPTY := by simpa using he
      rw [List.set_cons_zero, List.countP_cons, List.countP_cons, ha]
      simp [hp]
    | succ i =>
      rw [List.set_cons_succ, List.countP_cons, List.countP_cons,
        ih i (by simpa using hi) (by simpa using he)]
      omega

/-- A move into a column with room puts one more piece on the board. -/
theorem pieces_stateForMove (gs : GameState) (hwf : gs.WF) (c p : Int) (hp : p ≠ EMPTY)
    (hcan : canMove gs c = 1) :
    pieces (stateForMove gs c p) = pieces gs + 1 ∧ (stateForMove gs c p).WF := by
  obtain ⟨r, hr, he, hmin⟩ := exists_lowest_empty gs c hcan
  rw [stateForMove_of_room gs hwf c p r hr he hmin]
  have hin := at_ne_off_iff gs c r he
  have hlt := index_lt gs.width gs.height c r hin.1 hin.2.1 hin.2.2.1 hin.2.2.2
  have hl : (c * gs.height + r).toNat < gs.board.length := by rw [hwf]; exact hlt
  rw [at_in gs c r hin.1 hin.2.1 hin.2.2.1 hin.2.2.2] at he
  refine ⟨countP_set_piece gs.board _ p hl he hp, ?_⟩
  show (gs.board.set _ p).length = gs.width * gs.height
  rw [List.length_set]
  exact hwf

/-- C21: for every remaining depth `movesLeft` that is not negative, every node and every
table, `getWeight` returns, within any bound on the nesting of calls that exceeds
`movesLeft`: the recursion is never deeper than `movesLeft` calls below the first one.  At
a node with a four-in-a-row, without an `EMPTY` cell or with `movesLeft = 0` it returns
without a recursive call; otherwise every recursive call is made with `movesLeft - 1`, on
a move of `orderedMoves`, which holds one more piece than the board of the node. -/
theorem getWeight_terminates (movesLeft : Nat) (node : GameTreeNode)
    (ht : TranspositionTable) :
    (∀ depth : Nat, movesLeft < depth →
      getWeightFuel depth (movesLeft : Int) node ht =
        some (getWeight true movesLeft node ht)) ∧
    (getWeightFuel (movesLeft + 1) (movesLeft : Int) node ht).isSome = true ∧
    (((∃ x y : Nat, x < node.gs.width ∧ y < node.gs.height ∧ checkAt node.gs x y ≠ 0) ∨
        (∀ x y : Nat, x < node.gs.width → y < node.gs.height → at_ node.gs x y ≠ EMPTY) ∨
        movesLeft = 0) →
      getWeightFuel 1 (movesLeft : Int) node ht =
        some { toR := heuristicForState node.gs node.player node.other_player,
               node := node, ht := ht }) ∧
    (∀ (depth : Nat) (m : Int), gameOver node.gs = false → m ≠ 0 →
      getWeightFuel (depth + 1) m node ht =
        exploreMovesFuel (getWeightFuel depth (m - 1)) (orderedMoves node) node ht
          (if node.turn ≠ 0 then INT_MIN else INT_MAX)) ∧
    (node.gs.WF → (if node.turn ≠ 0 then node.player else node.other_player) ≠ EMPTY →
      ∀ m ∈ orderedMoves node, pieces m = pieces node.gs + 1 ∧ m.WF) := by
  refine ⟨fun depth hd => getWeightFuel_eq movesLeft depth node ht hd, ?_, fun hterm => ?_,
    fun depth m hover hm => ?_, fun hwf hp m hm => ?_⟩
  · rw [getWeightFuel_eq movesLeft (movesLeft + 1) node ht (Nat.lt_succ_self _)]
    rfl
  · rw [getWeightFuel_succ]
    have hcond : (gameOver node.gs || ((movesLeft : Int) == 0)) = true := by
      rcases hterm with h | h | h
      · have hw : getWinner node.gs ≠ 0 := by
          intro h0
          obtain ⟨x, y, hx, hy, hc⟩ := h
          exact hc ((getWinner_eq_zero_iff node.gs).1 h0 x y hx hy)
        unfold gameOver
        simp [hw]
      · have hd : isDraw node.gs = 1 := (isDraw_eq_one_iff node.gs).2 h
        unfold gameOver
        simp [hd]
      · simp [h]
    rw [hcond]
    rfl
  · rw [getWeightFuel_succ, hover]
    simp [hm]
  · have hperm : (orderedMoves node).Perm (possibleMovesOf node) := by
      unfold orderedMoves
      split
      · exact qsort_perm _ _
      · exact qsort_perm _ _
    obtain ⟨c, _, hcan, rfl⟩ := (mem_possibleMovesOf node m).1 (hperm.mem_iff.1 hm)
    exact pieces_stateForMove node.gs hwf c _ hp hcan

set_option maxRecDepth 100000 in
/-- Instance of C21: the root of a search with 2 moves left on the empty 7x6 board
returns within 3 nested calls, and its moves hold one piece. -/
theorem getWeight_terminates_witness :
    getWeightFuel 3 2 (newGameTreeNode (newGameState 7 6) 2 1 1 INT_MIN INT_MAX) newTable =
        some (getWeight true 2 (newGameTreeNode (newGameState 7 6) 2 1 1 INT_MIN INT_MAX)
          newTable) ∧
      ∀ m ∈ orderedMoves (newGameTreeNode (newGameState 7 6) 2 1 1 INT_MIN INT_MAX),
        pieces m = pieces (newGameState 7 6) + 1 ∧ m.WF :=
  ⟨(getWeight_terminates 2 (newGameTreeNode (newGameState 7 6) 2 1 1 INT_MIN INT_MAX)
      newTable).1 3 (by decide),
    (getWeight_terminates 2 (newGameTreeNode (newGameState 7 6) 2 1 1 INT_MIN INT_MAX)
      newTable).2.2.2.2 (by decide!) (by decide)⟩

/-! ## The values of the search -/

theorem isScore_range (v : Int) (h : IsScore v) : INT_MIN < v ∧ v < INT_MAX := by
  unfold INT_MIN INT_MAX
  rcases h with h | h | h <;> omega

theorem heuristicForState_isScore (gs : GameState) (player other : Int)
    (hp : player ≠ 0) (ho : other ≠ 0) : IsScore (heuristicForState gs player other) := by
  rw [heuristicForState_cases gs player other hp ho]
  unfold IsScore
  split
  · exact Or.inr (Or.inl rfl)
  · split
    · exact Or.inr (Or.inl rfl)
    · split
      · exact Or.inr (Or.inr rfl)
      · exact Or.inl rfl

/-- The weight found for one move is a score when the table entries and the recursive
results are. -/
theorem childWeight_isScore (reuse : Bool)
    (recurse : GameTreeNode → TranspositionTable → SearchResult) (player other : Int)
    (hrec : ∀ c ht, c.player = player → c.other_player = other →
      TableAll (fun e => IsScore e.weight) ht →
      IsScore (recurse c ht).toR ∧ TableAll (fun e => IsScore e.weight) (recurse c ht).ht)
    (node : GameTreeNode) (ht : TranspositionTable) (m : GameState)
    (hp : node.player = player) (ho : node.other_player = other)
    (hT : TableAll (fun e => IsScore e.weight) ht) :
    IsScore (childWeight reuse recurse node ht m).1 ∧
      TableAll (fun e => IsScore e.weight) (childWeight reuse recurse node ht m).2 := by
  unfold childWeight
  cases hl : (if reuse then lookupInTable ht m else none) with
  | some e =>
    simp only []
    have he : lookupInTable ht m = some e := by
      cases reuse
      · simp at hl
      · simpa using hl
    exact ⟨TableAll_lookup _ ht m e hT he, hT⟩
  | none =>
    simp only []
    exact hrec _ ht hp ho hT

/-- The loop returns a score and keeps the weights of the table scores. -/
theorem exploreMoves_isScore (reuse : Bool)
    (recurse : GameTreeNode → TranspositionTable → SearchResult) (player other : Int)
    (hrec : ∀ c ht, c.player = player → c.other_player = other →
      TableAll (fun e => IsScore e.weight) ht →
      IsScore (recurse c ht).toR ∧ TableAll (fun e => IsScore e.weight) (recurse c ht).ht) :
    ∀ (moves : List GameState) (node : GameTreeNode) (ht : TranspositionTable) (best : Int),
      node.player = player → node.other_player = other →
      TableAll (fun e => IsScore e.weight) ht →
      (IsScore best ∨ (moves ≠ [] ∧ best = if node.turn = 0 then INT_MAX else INT_MIN)) →
      IsScore (exploreMoves reuse recurse moves node ht best).toR ∧
      TableAll (fun e => IsScore e.weight) (exploreMoves reuse recurse moves node ht best).ht := by
  intro moves
  induction moves with
  | nil =>
    intro node ht best _ _ hT hb
    rcases hb with hb | ⟨hne, _⟩
    · exact ⟨hb, hT⟩
    · exact absurd rfl hne
  | cons m rest ih =>
    intro node ht best hp ho hT hb
    have hc := childWeight_isScore reuse recurse player other hrec node ht m hp ho hT
    have hr := isScore_range _ hc.1
    have hT' : TableAll (fun e => IsScore e.weight)
        (addToTable (childWeight reuse recurse node ht m).2
          { m with weight := (childWeight reuse recurse node ht m).1 }) :=
      TableAll_addToTable _ _ _ hc.2 hc.1
    rw [exploreMoves_cons]
    cases hu : updateNode node best (childWeight reuse recurse node ht m).1 m.last_move with
    | none => exact ⟨hc.1, hT'⟩
    | some next =>
      simp only []
      have hf := updateNode_frame node best _ _ next hu
      refine ih next.1 _ next.2 (hf.2.1.trans hp) (hf.2.2.1.trans ho) hT' (Or.inl ?_)
      by_cases ht : node.turn = 0
      · rw [updateNode_min node best _ _ ht] at hu
        split at hu
        · cases hu
        · cases hu
          simp only []
          rcases hb with hb | ⟨_, hb⟩
          · split
            · exact hc.1
            · exact hb
          · rw [if_pos ht] at hb
            rw [if_pos (by rw [hb]; exact hr.2)]
            exact hc.1
      · rw [updateNode_max node best _ _ ht] at hu
        split at hu
        · cases hu
        · cases hu
          simp only []
          rcases hb with hb | ⟨_, hb⟩
          · split
            · exact hc.1
            · exact hb
          · rw [if_neg ht] at hb
            rw [if_pos (by rw [hb]; exact hr.1)]
            exact hc.1

/-- `getWeight` returns a score and keeps the weights of the table scores. -/
theorem getWeight_isScore (reuse : Bool) (player other : Int)
    (hp0 : player ≠ 0) (ho0 : other ≠ 0) :
    ∀ (n : Nat) (node : GameTreeNode) (ht : TranspositionTable),
      node.player = player → node.other_player = other →
      TableAll (fun e => IsScore e.weight) ht →
      IsScore (getWeight reuse n node ht).toR ∧
      TableAll (fun e => IsScore e.weight) (getWeight reuse n node ht).ht := by
  intro n
  induction n with
  | zero =>
    intro node ht hp ho hT
    have := heuristicForState_isScore node.gs player other hp0 ho0
    rw [← hp, ← ho] at this
    exact ⟨this, hT⟩
  | succ n ih =>
    intro node ht hp ho hT
    rw [getWeight_succ]
    cases hover : gameOver node.gs with
    | true =>
      simp only [if_true]
      have := heuristicForState_isScore node.gs player other hp0 ho0
      rw [← hp, ← ho] at this
      exact ⟨this, hT⟩
    | false =>
      simp only [Bool.false_eq_true, if_false]
      have hne := possibleMovesOf_ne_nil node (gameOver_false _ hover).2
      by_cases hturn : node.turn = 0
      · simp only [hturn, ne_eq, not_true_eq_false, if_false]
        exact exploreMoves_isScore reuse _ player other ih _ node ht _ hp ho hT
          (Or.inr ⟨qsort_ne_nil _ _ hne, by rw [if_pos hturn]⟩)
      · simp only [ne_eq, hturn, not_false_eq_true, if_true]
        exact exploreMoves_isScore reuse _ player other ih _ node ht _ hp ho hT
          (Or.inr ⟨qsort_ne_nil _ _ hne, by rw [if_neg hturn]⟩)

/-- C22: for all ids other than 0, `heuristicForState` returns -1000, 0 or 1000 on every
board, and 0 on every board without a four-in-a-row, where `getHeuristic` is 0.  Hence
every weight `getWeight` returns, at every node and depth, from a table whose weights are
such values (the empty table of a search is one), is -1000, 0 or 1000 and lies strictly
between `INT_MIN` and `INT_MAX`, the table keeps such weights, and the differences that
`ascComp` and `desComp` form lie between -2000 and 2000. -/
theorem search_values (player other : Int) (hp : player ≠ 0) (ho : other ≠ 0) :
    (∀ gs : GameState, IsScore (heuristicForState gs player other)) ∧
    (∀ gs : GameState,
      (∀ x y : Nat, x < gs.width → y < gs.height → checkAt gs x y = 0) →
      getHeuristic gs player other = 0 ∧ heuristicForState gs player other = 0) ∧
    (∀ (n : Nat) (node : GameTreeNode) (ht : TranspositionTable),
      node.player = player → node.other_player = other →
      TableAll (fun e => IsScore e.weight) ht →
      IsScore (getWeight true n node ht).toR ∧
        INT_MIN < (getWeight true n node ht).toR ∧
        (getWeight true n node ht).toR < INT_MAX ∧
        TableAll (fun e => IsScore e.weight) (getWeight true n node ht).ht) ∧
    (∀ (n : Nat) (gs : GameState) (turn alpha beta : Int),
      IsScore (getWeight true n (newGameTreeNode gs player other turn alpha beta)
        newTable).toR) ∧
    (∀ a b : GameState, -2000 ≤ ascComp player other a b ∧ ascComp player other a b ≤ 2000 ∧
      -2000 ≤ desComp player other a b ∧ desComp player other a b ≤ 2000) := by
  refine ⟨fun gs => heuristicForState_isScore gs player other hp ho, fun gs hno => ?_,
    fun n node ht hnp hno hT => ?_, fun n gs turn alpha beta => ?_, fun a b => ?_⟩
  · have hw : getWinner gs = 0 := (getWinner_eq_zero_iff gs).2 hno
    refine ⟨getHeuristic_of_no_line gs player other hp ho hw, ?_⟩
    rw [heuristicForState_cases gs player other hp ho, hw]
    simp
  · have h := getWeight_isScore true player other hp ho n node ht hnp hno hT
    have hr := isScore_range _ h.1
    exact ⟨h.1, hr.1, hr.2, h.2⟩
  · exact (getWeight_isScore true player other hp ho n _ newTable rfl rfl
      (TableAll_newTable _)).1
  · have ha := heuristicForState_isScore a player other hp ho
    have hb := heuristicForState_isScore b player other hp ho
    unfold ascComp desComp
    unfold IsScore at ha hb
    omega

set_option maxRecDepth 100000 in
/-- Instance of C22: the ids 2 and 1 of a search by `computerMove`; the score of
`computerWins` and the weight of the root of a search with 4 moves left on `threeInRow`
are among -1000, 0 and 1000. -/
theorem search_values_witness :
    IsScore (heuristicForState computerWins 2 1) ∧
      IsScore (getWeight true 4 (newGameTreeNode threeInRow 2 1 1 INT_MIN INT_MAX)
        newTable).toR :=
  ⟨(search_values 2 1 (by decide) (by decide)).1 computerWins,
    (search_values 2 1 (by decide) (by decide)).2.2.2.1 4 threeInRow 1 INT_MIN INT_MAX⟩

/-! ## The result at a terminal root -/

/-- At a root that is not terminal the loop sets `best_move` to the column of a move. -/
theorem bestMoveForState_nonneg (gs : GameState) (hwf : gs.WF)
    (hsize : gs.width * gs.height < 2147483647) (player other : Int) (n : Nat)
    (hover : gameOver gs = false) : 0 ≤ bestMoveForState gs player other (n + 1) := by
  let B : Int := max 1000 ((gs.width * gs.height : Nat) : Int)
  have hB1 : (1000 : Int) ≤ B := le_max_left _ _
  have hB2 : ((gs.width * gs.height : Nat) : Int) ≤ B := le_max_right _ _
  have hB3 : B < 2147483647 := by
    apply max_lt
    · decide
    · exact_mod_cast hsize
  have hlo : INT_MIN < -B := by unfold INT_MIN; omega
  have hhi : B < INT_MAX := by unfold INT_MAX; omega
  let D : GameState → Prop := fun g => g.width = gs.width ∧ g.height = gs.height
  have hD : ∀ g c p, D g → D (stateForMove g c p) := by
    intro g c p hg
    have := stateForMove_dims g c p
    exact ⟨this.1.trans hg.1, this.2.trans hg.2⟩
  have hH : ∀ g, D g → -B ≤ heuristicForState g player other ∧
      heuristicForState g player other ≤ B := by
    intro g hg
    apply heuristicForState_bound g player other B hB1
    rw [hg.1, hg.2]
    exact hB2
  have hrec := getWeight_bound true D player other (-B) B hlo hhi hD hH n
  rw [bestMoveForState_eq, getWeight_succ]
  have hgs : (newGameTreeNode gs player other 1 INT_MIN INT_MAX).gs = gs := rfl
  rw [hgs, hover]
  simp only [Bool.false_eq_true, if_false]
  have hturn : (newGameTreeNode gs player other 1 INT_MIN INT_MAX).turn ≠ 0 := by
    show (1 : Int) ≠ 0
    decide
  rw [if_pos hturn, if_pos hturn]
  have hne : possibleMovesOf (newGameTreeNode gs player other 1 INT_MIN INT_MAX) ≠ [] :=
    possibleMovesOf_ne_nil _ (gameOver_false gs hover).2
  apply exploreMoves_best_move true _ D (fun c => 0 ≤ c) player other (-B) B hlo hhi hrec
    _ _ _ _ rfl rfl hturn rfl _ (TableAll_newTable _)
    (Or.inr ⟨qsort_ne_nil _ _ hne, rfl⟩)
  intro m hm
  obtain ⟨c, hc, hcan, rfl⟩ := (mem_possibleMovesOf _ m).1 ((mem_qsort _ _ m).1 hm)
  rw [hgs] at hc hcan ⊢
  refine ⟨hD _ _ _ ⟨rfl, rfl⟩, ?_⟩
  rw [stateForMove_last_move gs hwf _ _ hcan]
  positivity

/-- At a terminal root `getWeight` returns at once and `best_move` keeps the value -1 that
`newGameTreeNode` gave it. -/
theorem bestMoveForState_of_terminal (gs : GameState) (player other : Int)
    (look_ahead : Nat) (h : gameOver gs = true ∨ look_ahead = 0) :
    bestMoveForState gs player other look_ahead = -1 := by
  rw [bestMoveForState_eq]
  cases look_ahead with
  | zero => rfl
  | succ n =>
    rcases h with h | h
    · rw [getWeight_succ]
      have hgs : (newGameTreeNode gs player other 1 INT_MIN INT_MAX).gs = gs := rfl
      rw [hgs, h]
      rfl
    · exact absurd h (Nat.succ_ne_zero n)

theorem gameOver_eq_true_iff (gs : GameState) :
    gameOver gs = true ↔
      ((∃ x y : Nat, x < gs.width ∧ y < gs.height ∧ checkAt gs x y ≠ 0) ∨
        (∀ x y : Nat, x < gs.width → y < gs.height → at_ gs x y ≠ EMPTY)) := by
  constructor
  · intro h
    by_contra hc
    rw [not_or] at hc
    have hw : getWinner gs = 0 := by
      rw [getWinner_eq_zero_iff]
      intro x y hx hy
      by_contra hne
      exact hc.1 ⟨x, y, hx, hy, hne⟩
    have hd : isDraw gs = 0 := by
      rcases isDraw_zero_or_one gs with h0 | h1
      · exact h0
      · exact absurd ((isDraw_eq_one_iff gs).1 h1) hc.2
    unfold gameOver at h
    rw [hw, hd] at h
    simp at h
  · intro h
    rcases h with h | h
    · have hw : getWinner gs ≠ 0 := by
        intro h0
        obtain ⟨x, y, hx, hy, hc⟩ := h
        exact hc ((getWinner_eq_zero_iff gs).1 h0 x y hx hy)
      unfold gameOver
      simp [hw]
    · have hd : isDraw gs = 1 := (isDraw_eq_one_iff gs).2 h
      unfold gameOver
      simp [hd]

/-- The function `drop` with column -1 finds no `EMPTY` cell and changes nothing. -/
theorem drop_minus_one (gs : GameState) (p : Int) : drop gs (-1) p = gs := by
  unfold drop
  apply dropFrom_none
  intro j _ _
  rw [at_off gs (-1) j (Or.inl (by decide))]
  decide

/-- C23: `bestMoveForState` returns -1 exactly when the root is terminal, that is, when the
board has a four-in-a-row, or has no `EMPTY` cell, or the lookahead is 0.  The value -1 is
not a column of the board: `canMove` rejects it, and `drop` with it, as `computerMove`
calls it with the result, returns the state as it was. -/
theorem bestMoveForState_minus_one (gs : GameState) (hwf : gs.WF)
    (hsize : gs.width * gs.height < 2147483647) (player other : Int) (look_ahead : Nat) :
    (bestMoveForState gs player other look_ahead = -1 ↔
      ((∃ x y : Nat, x < gs.width ∧ y < gs.height ∧ checkAt gs x y ≠ 0) ∨
        (∀ x y : Nat, x < gs.width → y < gs.height → at_ gs x y ≠ EMPTY) ∨
        look_ahead = 0)) ∧
    canMove gs (-1) = 0 ∧
    (∀ p : Int, drop gs (-1) p = gs) ∧
    (∀ p : Int, bestMoveForState gs player other look_ahead = -1 →
      drop gs (bestMoveForState gs player other look_ahead) p = gs) := by
  refine ⟨⟨fun h => ?_, fun h => ?_⟩, ?_, fun p => drop_minus_one gs p, fun p h => ?_⟩
  · by_contra hc
    rw [not_or, not_or] at hc
    have hover : gameOver gs = false := by
      cases hg : gameOver gs with
      | false => rfl
      | true =>
        rcases (gameOver_eq_true_iff gs).1 hg with h1 | h1
        · exact absurd h1 hc.1
        · exact absurd h1 hc.2.1
    obtain ⟨n, rfl⟩ : ∃ n, look_ahead = n + 1 := ⟨look_ahead - 1, by omega⟩
    have := bestMoveForState_nonneg gs hwf hsize player other n hover
    omega
  · apply bestMoveForState_of_terminal
    rcases h with h | h | h
    · exact Or.inl ((gameOver_eq_true_iff gs).2 (Or.inl h))
    · exact Or.inl ((gameOver_eq_true_iff gs).2 (Or.inr h))
    · exact Or.inr h
  · rcases canMove_zero_or_one gs (-1) with h | h
    · exact h
    · obtain ⟨y, _, he⟩ := (canMove_eq_one_iff gs (-1)).1 h
      have := at_ne_off_iff gs (-1) y he
      omega
  · rw [h]
    exact drop_minus_one gs p

set_option maxRecDepth 100000 in
/-- Instance of C23: on `computerWins`, which has a four-in-a-row, the search of player 2
against player 1 with lookahead 5 returns -1. -/
theorem bestMoveForState_minus_one_witness :
    computerWins.WF ∧ computerWins.width * computerWins.height < 2147483647 ∧
      checkAt computerWins 0 0 ≠ 0 ∧ bestMoveForState computerWins 2 1 5 = -1 :=
  ⟨by decide!, by decide!, by decide!,
    (bestMoveForState_minus_one computerWins (by decide!) (by decide!) 2 1 5).1.2
      (Or.inl ⟨0, 0, by decide, by decide, by decide!⟩)⟩

/-! ## Boards with few pieces -/

end Connect4
